import Mathlib

/-!
# go-statemachine: transition table, builder and event routing

A shallow embedding of `component.go`, `statemachine.go` and `facotry.go`.

Representation choices, all forced by Go features that have no direct Lean
counterpart:

* `map[S]state` is a function `S → Option state`; a nil map is `none` one level
  up (`Option (StateMap ..)`): reading a nil map is allowed, writing to it panics.
* `map[E][]*transition` is a function `E → List transition`; the nil slice a Go
  map yields for a missing key is `[]` (a stored slice always has an element).
* A Go `state` value is an id together with a pointer to its index.  `getState`
  allocates one index per map key and no map entry is ever replaced, so the
  pointer of a copied `state` is determined by its id: copies held by a
  transition or by a builder are represented by the id alone and the index is
  looked up in the table.
* A `*transition` held by a builder is the place of the record in the table
  (`TransitionRef`: source id, event, position in the candidate list); lists
  only ever grow at the end, so the place is stable.
* Callbacks are uninterpreted: an action is a value of a type `A`, a custom
  failure handler a value of a type `H`, and every call is recorded in a trace
  of `Effect`s.  Guards are pure predicates on the context; their evaluations
  are recorded too.
* The context is handed to the callbacks as it is: the engine never reads or
  writes it.
* `log.Fatal` and run-time panics end the process: they are `Fault`s.
* A `World` is a `Builder` together with the chain objects obtained from it and
  its machine object; a program is a list of calls of the exported API, and the
  interface types of the fluent API are the rule that a call is offered only
  once the call returning its interface has been made.
* The `Factory` stores pointers to machine objects: a non-nil `*StateMachine`
  is an address of a type `P`, and the one field `Register` reads through the
  pointer (`machineId`) is read from the heap of the moment of the call.
-/

namespace statemachine

set_option autoImplicit false

deriving instance DecidableEq for Except

/-- Kind of a transition (`TransitionType` and its three constants). -/
inductive TransitionType where
  | INTERNAL
  | LOCAL
  | EXTERNAL
  deriving DecidableEq, Repr

/-- Ways a call can end other than by returning. -/
inductive Fault where
  /-- `isReady`: the machine was not built. -/
  | notReady
  /-- Run-time panic: assignment to an entry of a nil map (in `getState`). -/
  | nilMapWrite
  /-- `put`: `log.Fatal` on the error of `eventTransitions.verify`. -/
  | alreadyExist
  /-- `log.Fatal("no state fetcher configured")`. -/
  | noFetcher
  /-- `AlertFailCallback.OnFail`: `log.Fatalf`. -/
  | alertFatal
  /-- Run-time panic: method call through a nil pointer or interface. -/
  | nilDeref
  /-- The error value of `transition.verify` (logged by `transit`, never fatal). -/
  | invalidInternal
  /-- The call is not offered by the interface value at hand (rejected by the Go type checker). -/
  | notOffered
  deriving DecidableEq, Repr

/-- Guard of a transition (`Condition`). -/
abbrev Condition (C : Type) := C → Bool

/-- One edge of the machine (`transition`); `source` and `target` are the ids of the copied states. -/
structure transition (S E C A : Type) where
  source : S
  target : S
  event : E
  condition : Option (Condition C)
  t : TransitionType
  action : Option A

/-- Per-state index (`eventTransitions`). -/
structure eventTransitions (S E C A : Type) where
  transitions : E → List (transition S E C A)

/-- Entry of the table (`state`). -/
structure state (S E C A : Type) where
  id : S
  eventTransitions : eventTransitions S E C A

/-- The table `map[S]state` when it is allocated. -/
abbrev StateMap (S E C A : Type) := S → Option (state S E C A)

/-- The three implementations of `FailCallbackInterface` a machine can hold. -/
inductive FailCallback (H : Type) where
  /-- `NumbFailCallback`. -/
  | numb
  /-- `AlertFailCallback`. -/
  | alert
  /-- An implementation supplied by the caller. -/
  | custom (h : H)
  deriving DecidableEq, Repr

/-- Observable calls made by the engine, in order. -/
inductive Effect (S E C A H : Type) where
  /-- The guard of the transition `source -[event]-> target` was evaluated on `ctx`. -/
  | condition (source target : S) (event : E) (ctx : C) (result : Bool)
  /-- The action `a` was called with `(src, dst, event, ctx)`. -/
  | action (a : A) (src dst : S) (event : E) (ctx : C)
  /-- The failure handler `cb` was called with `(source, event, ctx)`. -/
  | onFail (cb : FailCallback H) (source : S) (event : E) (ctx : C)
  deriving DecidableEq, Repr

/-- What a run-time call leaves behind: the table, the calls made, and the value returned. -/
structure Outcome (S E C A H R : Type) where
  stateMap : Option (StateMap S E C A)
  trace : List (Effect S E C A H)
  result : Except Fault R

/-- The machine (`StateMachine`). -/
structure StateMachine (S E C A H : Type) where
  machineId : String
  stateMap : Option (StateMap S E C A)
  ready : Bool
  failCallback : Option (FailCallback H)
  currentStateFetcher : Option (C → S)

section component

variable {S E C A H : Type} [DecidableEq S] [DecidableEq E]

/-- The error test of `transition.verify`: an INTERNAL transition must not change state. -/
def transition.verify (t : transition S E C A) : Except Fault Unit :=
  if t.t = TransitionType.INTERNAL ∧ t.source ≠ t.target then .error .invalidInternal else .ok ()

/-- The Go `transition.transit`: returns the calls made and the id of the state returned. -/
def transition.transit (t : transition S E C A) (ctx : C) (checkCondition : Bool) :
    List (Effect S E C A H) × S :=
  match t.verify with
  | .error _ => ([], t.source)
  | .ok _ =>
    let fire : List (Effect S E C A H) × S :=
      match t.action with
      | some a => ([Effect.action a t.source t.target t.event ctx], t.target)
      | none => ([], t.target)
    if !checkCondition then fire
    else
      match t.condition with
      | none => fire
      | some c =>
        if c ctx then (Effect.condition t.source t.target t.event ctx true :: fire.1, fire.2)
        else ([Effect.condition t.source t.target t.event ctx false], t.source)

/-- The Go `sameTransition`. -/
def sameTransition (first second : transition S E C A) : Bool :=
  decide (first.source = second.source) && decide (first.target = second.target)
    && decide (first.event = second.event)

/-- The Go `eventTransitions.verify`: an error as soon as an existing transition is the same. -/
def eventTransitions.verify (existingTransitions : List (transition S E C A))
    (newTransition : transition S E C A) : Except Fault Unit :=
  match existingTransitions with
  | [] => .ok ()
  | x :: rest =>
    if sameTransition x newTransition then .error .alreadyExist
    else eventTransitions.verify rest newTransition

/-- The Go `eventTransitions.put`. -/
def eventTransitions.put (et : eventTransitions S E C A) (event : E) (t : transition S E C A) :
    Except Fault (eventTransitions S E C A) :=
  match et.transitions event with
  | [] => .ok { transitions := Function.update et.transitions event [t] }
  | x :: rest =>
    match eventTransitions.verify (x :: rest) t with
    | .error f => .error f
    | .ok _ => .ok { transitions := Function.update et.transitions event ((x :: rest) ++ [t]) }

/-- The Go `eventTransitions.get`. -/
def eventTransitions.get (et : eventTransitions S E C A) (event : E) : List (transition S E C A) :=
  et.transitions event

/-- The Go `state.addTransition`: the updated state and the new transition. -/
def state.addTransition (s : state S E C A) (event : E) (target : S)
    (transitionType : TransitionType) : Except Fault (state S E C A × transition S E C A) :=
  let t : transition S E C A :=
    { source := s.id, target := target, event := event, condition := none,
      t := transitionType, action := none }
  match s.eventTransitions.put event t with
  | .error f => .error f
  | .ok et => .ok ({ s with eventTransitions := et }, t)

/-- The Go `state.transitionsOfEvent`. -/
def state.transitionsOfEvent (s : state S E C A) (event : E) : List (transition S E C A) :=
  s.eventTransitions.get event

/-- The Go `getState`: get or create; the table after the call and the state found. -/
def getState (stateMap : Option (StateMap S E C A)) (stateId : S) :
    Except Fault (StateMap S E C A × state S E C A) :=
  match stateMap with
  | none => .error .nilMapWrite
  | some m =>
    match m stateId with
    | some s => .ok (m, s)
    | none =>
      let s : state S E C A := { id := stateId, eventTransitions := { transitions := fun _ => [] } }
      .ok (Function.update m stateId (some s), s)

/-- The Go `OnFail` of the three handlers: the call made and whether it returns. -/
def FailCallback.OnFail (cb : FailCallback H) (source : S) (event : E) (ctx : C) :
    List (Effect S E C A H) × Except Fault Unit :=
  match cb with
  | .numb => ([Effect.onFail cb source event ctx], .ok ())
  | .alert => ([Effect.onFail cb source event ctx], .error .alertFatal)
  | .custom _ => ([Effect.onFail cb source event ctx], .ok ())

/-- The loop of `routeTransition` over the candidates, `transit` being the variable of that name. -/
def routeLoop (ctx : C) :
    List (transition S E C A) → Option (transition S E C A) →
      List (Effect S E C A H) × Option (transition S E C A)
  | [], transit => ([], transit)
  | x :: rest, transit =>
    match x.condition with
    | none => routeLoop ctx rest (some x)
    | some c =>
      if c ctx then ([Effect.condition x.source x.target x.event ctx true], some x)
      else
        let r := routeLoop ctx rest transit
        (Effect.condition x.source x.target x.event ctx false :: r.1, r.2)

/-- The Go `StateMachine.routeTransition`. -/
def StateMachine.routeTransition (s : StateMachine S E C A H) (source : S) (event : E) (ctx : C) :
    Outcome S E C A H (Option (transition S E C A)) :=
  match getState s.stateMap source with
  | .error f => { stateMap := s.stateMap, trace := [], result := .error f }
  | .ok (m, sourceState) =>
    let transitions := sourceState.transitionsOfEvent event
    if transitions.isEmpty then { stateMap := some m, trace := [], result := .ok none }
    else
      let r := routeLoop ctx transitions none
      { stateMap := some m, trace := r.1, result := .ok r.2 }

/-- The part of `FireEvent` and `FireEventByFetcher` after the source is known. -/
def StateMachine.fire (s : StateMachine S E C A H) (source : S) (event : E) (ctx : C) :
    Outcome S E C A H S :=
  let r := s.routeTransition source event ctx
  match r.result with
  | .error f => { stateMap := r.stateMap, trace := r.trace, result := .error f }
  | .ok none =>
    match s.failCallback with
    | none => { stateMap := r.stateMap, trace := r.trace, result := .error .nilDeref }
    | some cb =>
      let o := cb.OnFail (A := A) source event ctx
      match o.2 with
      | .error f => { stateMap := r.stateMap, trace := r.trace ++ o.1, result := .error f }
      | .ok _ => { stateMap := r.stateMap, trace := r.trace ++ o.1, result := .ok source }
  | .ok (some t) =>
    let o := t.transit (H := H) ctx false
    { stateMap := r.stateMap, trace := r.trace ++ o.1, result := .ok o.2 }

/-- The Go `StateMachine.FireEvent`. -/
def StateMachine.FireEvent (s : StateMachine S E C A H) (source : S) (event : E) (ctx : C) :
    Outcome S E C A H S :=
  if !s.ready then { stateMap := s.stateMap, trace := [], result := .error .notReady }
  else s.fire source event ctx

/-- The Go `StateMachine.FireEventByFetcher`. -/
def StateMachine.FireEventByFetcher (s : StateMachine S E C A H) (event : E) (ctx : C) :
    Outcome S E C A H S :=
  if !s.ready then { stateMap := s.stateMap, trace := [], result := .error .notReady }
  else
    match s.currentStateFetcher with
    | none => { stateMap := s.stateMap, trace := [], result := .error .noFetcher }
    | some f => s.fire (f ctx) event ctx

/-- The Go `StateMachine.Verify`. -/
def StateMachine.Verify (s : StateMachine S E C A H) (source : S) (event : E) :
    Outcome S E C A H Bool :=
  if !s.ready then { stateMap := s.stateMap, trace := [], result := .error .notReady }
  else
    match getState s.stateMap source with
    | .error f => { stateMap := s.stateMap, trace := [], result := .error f }
    | .ok (m, sourceState) =>
      let transitions := sourceState.transitionsOfEvent event
      { stateMap := some m, trace := [], result := .ok (!transitions.isEmpty) }

/-- The Go `StateMachine.VerifyWithFetcher`. -/
def StateMachine.VerifyWithFetcher (s : StateMachine S E C A H) (event : E) (ctx : C) :
    Outcome S E C A H Bool :=
  if !s.ready then { stateMap := s.stateMap, trace := [], result := .error .notReady }
  else
    match s.currentStateFetcher with
    | none => { stateMap := s.stateMap, trace := [], result := .error .noFetcher }
    | some f => s.Verify (f ctx) event

end component

/-! ## The builder -/

/-- Place of a transition record in the table: what a `*transition` held by a builder points to. -/
structure TransitionRef (S E : Type) where
  source : S
  event : E
  index : Nat
  deriving DecidableEq, Repr

/-- The single-source chain object (`transitionBuilder`); `none` is the zero value of a field. -/
structure transitionBuilder (S E : Type) where
  target : Option S
  t : TransitionType
  source : Option S
  transition : Option (TransitionRef S E)
  deriving DecidableEq, Repr

/-- The multi-source chain object (`transitionsBuilder`). -/
structure transitionsBuilder (S E : Type) where
  target : Option S
  t : TransitionType
  sources : List S
  transitions : List (TransitionRef S E)
  deriving DecidableEq, Repr

section builder

variable {S E C A H : Type} [DecidableEq S] [DecidableEq E]

/-- Assignment through a `*transition`: `f` applied to the record at `r`. -/
def StateMap.modify (m : StateMap S E C A) (r : TransitionRef S E)
    (f : transition S E C A → transition S E C A) : StateMap S E C A :=
  match m r.source with
  | none => m
  | some s =>
    Function.update m r.source (some { s with eventTransitions :=
      { transitions := Function.update s.eventTransitions.transitions r.event
          ((s.eventTransitions.transitions r.event).modify f r.index) } })

/-- The call `source.addTransition(event, target, t)` on the copy of state `source` held by a
builder: the index of `source` in the table receives the transition; the result is the new
table and the place of the new record.  A held state is always in the table (no entry is ever
removed), so the first branch is never taken on a table built through the API. -/
def addTransitionAt (m : StateMap S E C A) (source : S) (event : E) (target : S)
    (t : TransitionType) : Except Fault (StateMap S E C A × TransitionRef S E) :=
  match m source with
  | none => .error .nilDeref
  | some s =>
    match s.addTransition event target t with
    | .error f => .error f
    | .ok (s1, _) =>
      .ok (Function.update m source (some s1),
        { source := source, event := event, index := (s.transitionsOfEvent event).length })

/-- The Go `newExternalTransitionBuilder` and `newInternalTransitionBuilder`. -/
def newTransitionBuilder (t : TransitionType) : transitionBuilder S E :=
  { target := none, t := t, source := none, transition := none }

/-- The Go `newExternalTransitionsBuilder`. -/
def newExternalTransitionsBuilder (t : TransitionType) : transitionsBuilder S E :=
  { target := none, t := t, sources := [], transitions := [] }

/-- The Go `transitionBuilder.From`. -/
def transitionBuilder.From (tb : transitionBuilder S E) (m : StateMap S E C A)
    (stateId : S) : Except Fault (StateMap S E C A × transitionBuilder S E) :=
  match getState (some m) stateId with
  | .error f => .error f
  | .ok (m1, s) => .ok (m1, { tb with source := some s.id })

/-- The Go `transitionBuilder.To`. -/
def transitionBuilder.To (tb : transitionBuilder S E) (m : StateMap S E C A)
    (stateId : S) : Except Fault (StateMap S E C A × transitionBuilder S E) :=
  match getState (some m) stateId with
  | .error f => .error f
  | .ok (m1, s) => .ok (m1, { tb with target := some s.id })

/-- The Go `transitionBuilder.Within`. -/
def transitionBuilder.Within (tb : transitionBuilder S E) (m : StateMap S E C A)
    (stateId : S) : Except Fault (StateMap S E C A × transitionBuilder S E) :=
  match getState (some m) stateId with
  | .error f => .error f
  | .ok (m1, s) =>
    match getState (some m1) stateId with
    | .error f => .error f
    | .ok (m2, s2) => .ok (m2, { tb with source := some s.id, target := some s2.id })

/-- The Go `transitionBuilder.On`; the interfaces offer it only after source and target are set. -/
def transitionBuilder.On (tb : transitionBuilder S E) (m : StateMap S E C A) (event : E) :
    Except Fault (StateMap S E C A × transitionBuilder S E) :=
  match tb.source, tb.target with
  | some source, some target =>
    match addTransitionAt m source event target tb.t with
    | .error f => .error f
    | .ok (m1, r) => .ok (m1, { tb with transition := some r })
  | _, _ => .error .notOffered

/-- The Go `transitionBuilder.When`. -/
def transitionBuilder.When (tb : transitionBuilder S E) (m : StateMap S E C A)
    (condition : Option (Condition C)) : Except Fault (StateMap S E C A) :=
  match tb.transition with
  | none => .error .nilDeref
  | some r => .ok (m.modify r (fun x => { x with condition := condition }))

/-- The Go `transitionBuilder.Perform`. -/
def transitionBuilder.Perform (tb : transitionBuilder S E) (m : StateMap S E C A)
    (action : Option A) : Except Fault (StateMap S E C A) :=
  match tb.transition with
  | none => .error .nilDeref
  | some r => .ok (m.modify r (fun x => { x with action := action }))

/-- The loop of `transitionsBuilder.FromAmong`. -/
def fromAmongLoop :
    List S → StateMap S E C A → List S → Except Fault (StateMap S E C A × List S)
  | [], m, sources => .ok (m, sources)
  | stateId :: rest, m, sources =>
    match getState (some m) stateId with
    | .error f => .error f
    | .ok (m1, s) => fromAmongLoop rest m1 (sources ++ [s.id])

/-- The Go `transitionsBuilder.FromAmong`. -/
def transitionsBuilder.FromAmong (tb : transitionsBuilder S E) (m : StateMap S E C A)
    (stateIds : List S) : Except Fault (StateMap S E C A × transitionsBuilder S E) :=
  match fromAmongLoop stateIds m tb.sources with
  | .error f => .error f
  | .ok (m1, sources) => .ok (m1, { tb with sources := sources })

/-- The Go `transitionsBuilder.To`. -/
def transitionsBuilder.To (tb : transitionsBuilder S E) (m : StateMap S E C A)
    (stateId : S) : Except Fault (StateMap S E C A × transitionsBuilder S E) :=
  match getState (some m) stateId with
  | .error f => .error f
  | .ok (m1, s) => .ok (m1, { tb with target := some s.id })

/-- The loop of `transitionsBuilder.On`. -/
def onLoop (event : E) (target : S) (t : TransitionType) :
    List S → StateMap S E C A → List (TransitionRef S E) →
      Except Fault (StateMap S E C A × List (TransitionRef S E))
  | [], m, transitions => .ok (m, transitions)
  | source :: rest, m, transitions =>
    match addTransitionAt m source event target t with
    | .error f => .error f
    | .ok (m1, r) => onLoop event target t rest m1 (transitions ++ [r])

/-- The Go `transitionsBuilder.On`; the interfaces offer it only after the target is set. -/
def transitionsBuilder.On (tb : transitionsBuilder S E) (m : StateMap S E C A) (event : E) :
    Except Fault (StateMap S E C A × transitionsBuilder S E) :=
  match tb.target with
  | none => .error .notOffered
  | some target =>
    match onLoop event target tb.t tb.sources m tb.transitions with
    | .error f => .error f
    | .ok (m1, transitions) => .ok (m1, { tb with transitions := transitions })

/-- The Go `transitionsBuilder.When`. -/
def transitionsBuilder.When (tb : transitionsBuilder S E) (m : StateMap S E C A)
    (condition : Option (Condition C)) : StateMap S E C A :=
  tb.transitions.foldl (fun acc r => acc.modify r (fun x => { x with condition := condition })) m

/-- The Go `transitionsBuilder.Perform`. -/
def transitionsBuilder.Perform (tb : transitionsBuilder S E) (m : StateMap S E C A)
    (action : Option A) : StateMap S E C A :=
  tb.transitions.foldl (fun acc r => acc.modify r (fun x => { x with action := action })) m

end builder

/-! ## Programs over the exported API -/

/-- Which interface values of a chain object the caller has been handed so far. -/
structure Handles where
  /-- A `fromInterface` was returned: `To` can be called. -/
  fromI : Bool
  /-- A `toInterface` was returned: `On` can be called. -/
  toI : Bool
  /-- An `onInterface` was returned: `When` and `Perform` can be called. -/
  onI : Bool
  deriving DecidableEq, Repr

/-- A chain object together with the interface values handed out for it. -/
inductive Chain (S E : Type) where
  | single (h : Handles) (tb : transitionBuilder S E)
  | multi (h : Handles) (tb : transitionsBuilder S E)
  deriving DecidableEq, Repr

/-- The fields `Build` writes into the machine object of the Builder. -/
structure Built (S C H : Type) where
  machineId : String
  /-- Whether the Builder's map was allocated at the last `Build`: the machine then shares it,
  otherwise the machine's map is nil. -/
  shared : Bool
  failCallback : FailCallback H
  currentStateFetcher : Option (C → S)

/-- A Builder (`Builder`), the chain objects obtained from it and its machine object.
`declared` is a history variable, not a field of the program: the `(source, target, event)`
of every `addTransition` that succeeded, in order. -/
structure World (S E C A H : Type) where
  stateMap : Option (StateMap S E C A)
  statemachine : Option (Built S C H)
  failCallback : Option (FailCallback H)
  currentStateFetcher : Option (C → S)
  chains : List (Chain S E)
  declared : List (S × S × E)

/-- One call of the exported API; `k` names the chain object the call is made on. -/
inductive Call (S E C A H : Type) where
  | SetFailCallback (c : Option (FailCallback H))
  | SetCurrentStateFetcher (f : Option (C → S))
  | ExternalTransition
  | ExternalTransitions
  | InternalTransition
  | From (k : Nat) (stateId : S)
  | FromAmong (k : Nat) (stateIds : List S)
  | Within (k : Nat) (stateId : S)
  | To (k : Nat) (stateId : S)
  | On (k : Nat) (event : E)
  | When (k : Nat) (condition : Option (Condition C))
  | Perform (k : Nat) (action : Option A)
  | Build (machineId : String)
  | Verify (source : S) (event : E)
  | VerifyWithFetcher (event : E) (ctx : C)
  | FireEvent (source : S) (event : E) (ctx : C)
  | FireEventByFetcher (event : E) (ctx : C)

section api

variable {S E C A H : Type} [DecidableEq S] [DecidableEq E]

/-- A zero-value `Builder`. -/
def World.init : World S E C A H :=
  { stateMap := none, statemachine := none, failCallback := none,
    currentStateFetcher := none, chains := [], declared := [] }

/-- The map of the Builder after `if b.stateMap == nil { b.stateMap = make(..) }`. -/
def World.table (w : World S E C A H) : StateMap S E C A :=
  match w.stateMap with
  | some m => m
  | none => fun _ => none

/-- The machine object of the Builder as the run-time calls see it. -/
def World.machine (w : World S E C A H) : Option (StateMachine S E C A H) :=
  match w.statemachine with
  | none => none
  | some b =>
    some { machineId := b.machineId, stateMap := if b.shared then w.stateMap else none,
           ready := true, failCallback := some b.failCallback,
           currentStateFetcher := b.currentStateFetcher }

/-- The Go `Builder.Build`. -/
def World.Build (w : World S E C A H) (machineId : String) : World S E C A H :=
  let failCallback : FailCallback H :=
    match w.failCallback with
    | none => FailCallback.numb
    | some c => c
  let b : Built S C H :=
    { machineId := machineId, shared := w.stateMap.isSome, failCallback := failCallback,
      currentStateFetcher := w.currentStateFetcher }
  { w with statemachine := some b }

/-- The world after a run-time call on the machine that left the table `o.stateMap`. -/
def World.afterCall {R : Type} (w : World S E C A H) (o : Outcome S E C A H R) :
    Except Fault (World S E C A H) :=
  match o.result with
  | .error f => .error f
  | .ok _ =>
    match w.statemachine with
    | none => .ok w
    | some b => .ok (if b.shared then { w with stateMap := o.stateMap } else w)

/-- One call on the world; a call the interfaces do not offer yet is `notOffered`. -/
def step (w : World S E C A H) : Call S E C A H → Except Fault (World S E C A H)
  | .SetFailCallback c => .ok { w with failCallback := c }
  | .SetCurrentStateFetcher f => .ok { w with currentStateFetcher := f }
  | .ExternalTransition =>
    .ok { w with stateMap := some w.table, chains := w.chains ++
      [Chain.single ⟨false, false, false⟩ (newTransitionBuilder TransitionType.EXTERNAL)] }
  | .ExternalTransitions =>
    .ok { w with stateMap := some w.table, chains := w.chains ++
      [Chain.multi ⟨false, false, false⟩ (newExternalTransitionsBuilder TransitionType.EXTERNAL)] }
  | .InternalTransition =>
    .ok { w with stateMap := some w.table, chains := w.chains ++
      [Chain.single ⟨false, false, false⟩ (newTransitionBuilder TransitionType.INTERNAL)] }
  | .From k stateId =>
    match w.chains[k]? with
    | some (Chain.single h tb) =>
      if tb.t = TransitionType.INTERNAL then .error .notOffered
      else
        match tb.From w.table stateId with
        | .error f => .error f
        | .ok (m, tb1) =>
          .ok { w with stateMap := some m,
                       chains := w.chains.set k (Chain.single { h with fromI := true } tb1) }
    | _ => .error .notOffered
  | .FromAmong k stateIds =>
    match w.chains[k]? with
    | some (Chain.multi h tb) =>
      match tb.FromAmong w.table stateIds with
      | .error f => .error f
      | .ok (m, tb1) =>
        .ok { w with stateMap := some m,
                     chains := w.chains.set k (Chain.multi { h with fromI := true } tb1) }
    | _ => .error .notOffered
  | .Within k stateId =>
    match w.chains[k]? with
    | some (Chain.single h tb) =>
      if tb.t = TransitionType.INTERNAL then
        match tb.Within w.table stateId with
        | .error f => .error f
        | .ok (m, tb1) =>
          .ok { w with stateMap := some m,
                       chains := w.chains.set k (Chain.single { h with toI := true } tb1) }
      else .error .notOffered
    | _ => .error .notOffered
  | .To k stateId =>
    match w.chains[k]? with
    | some (Chain.single h tb) =>
      if h.fromI then
        match tb.To w.table stateId with
        | .error f => .error f
        | .ok (m, tb1) =>
          .ok { w with stateMap := some m,
                       chains := w.chains.set k (Chain.single { h with toI := true } tb1) }
      else .error .notOffered
    | some (Chain.multi h tb) =>
      if h.fromI then
        match tb.To w.table stateId with
        | .error f => .error f
        | .ok (m, tb1) =>
          .ok { w with stateMap := some m,
                       chains := w.chains.set k (Chain.multi { h with toI := true } tb1) }
      else .error .notOffered
    | none => .error .notOffered
  | .On k event =>
    match w.chains[k]? with
    | some (Chain.single h tb) =>
      if h.toI then
        match tb.On w.table event with
        | .error f => .error f
        | .ok (m, tb1) =>
          .ok { w with stateMap := some m,
                       chains := w.chains.set k (Chain.single { h with onI := true } tb1),
                       declared := w.declared ++
                         match tb.source, tb.target with
                         | some source, some target => [(source, target, event)]
                         | _, _ => [] }
      else .error .notOffered
    | some (Chain.multi h tb) =>
      if h.toI then
        match tb.On w.table event with
        | .error f => .error f
        | .ok (m, tb1) =>
          .ok { w with stateMap := some m,
                       chains := w.chains.set k (Chain.multi { h with onI := true } tb1),
                       declared := w.declared ++
                         match tb.target with
                         | some target => tb.sources.map (fun source => (source, target, event))
                         | none => [] }
      else .error .notOffered
    | none => .error .notOffered
  | .When k condition =>
    match w.chains[k]? with
    | some (Chain.single h tb) =>
      if h.onI then
        match tb.When w.table condition with
        | .error f => .error f
        | .ok m => .ok { w with stateMap := some m }
      else .error .notOffered
    | some (Chain.multi h tb) =>
      if h.onI then .ok { w with stateMap := some (tb.When w.table condition) }
      else .error .notOffered
    | none => .error .notOffered
  | .Perform k action =>
    match w.chains[k]? with
    | some (Chain.single h tb) =>
      if h.onI then
        match tb.Perform w.table action with
        | .error f => .error f
        | .ok m => .ok { w with stateMap := some m }
      else .error .notOffered
    | some (Chain.multi h tb) =>
      if h.onI then .ok { w with stateMap := some (tb.Perform w.table action) }
      else .error .notOffered
    | none => .error .notOffered
  | .Build machineId => .ok (w.Build machineId)
  | .Verify source event =>
    match w.machine with
    | none => .error .notOffered
    | some sm => w.afterCall (sm.Verify source event)
  | .VerifyWithFetcher event ctx =>
    match w.machine with
    | none => .error .notOffered
    | some sm => w.afterCall (sm.VerifyWithFetcher event ctx)
  | .FireEvent source event ctx =>
    match w.machine with
    | none => .error .notOffered
    | some sm => w.afterCall (sm.FireEvent source event ctx)
  | .FireEventByFetcher event ctx =>
    match w.machine with
    | none => .error .notOffered
    | some sm => w.afterCall (sm.FireEventByFetcher event ctx)

/-- A program: the calls in order, stopping at the first fault. -/
def run : World S E C A H → List (Call S E C A H) → Except Fault (World S E C A H)
  | w, [] => .ok w
  | w, c :: cs =>
    match step w c with
    | .error f => .error f
    | .ok w1 => run w1 cs

/-- The worlds a program over the exported API can be in. -/
def Reachable (w : World S E C A H) : Prop :=
  ∃ cs : List (Call S E C A H), run World.init cs = .ok w

end api

/-! ## Views used by the statements -/

section views

variable {S E C A H : Type} [DecidableEq S] [DecidableEq E]

/-- The candidate list the table holds for `(source, event)`; empty for an unknown state. -/
def candidates (m : StateMap S E C A) (source : S) (event : E) : List (transition S E C A) :=
  match m source with
  | some s => s.transitionsOfEvent event
  | none => []

/-- The candidate list as the first two lines of `routeTransition` read it. -/
def lookupCandidates (stateMap : Option (StateMap S E C A)) (source : S) (event : E) :
    Except Fault (List (transition S E C A)) :=
  match getState stateMap source with
  | .error f => .error f
  | .ok (_, sourceState) => .ok (sourceState.transitionsOfEvent event)

/-- Whether a candidate has a guard that holds on `ctx`. -/
def guardHolds (ctx : C) (x : transition S E C A) : Bool :=
  match x.condition with
  | some c => c ctx
  | none => false

/-- Whether a candidate has no guard. -/
def unguarded (x : transition S E C A) : Bool :=
  x.condition.isNone

/-- The machines the API hands out: the machine object of a world a program can reach. -/
def BuiltMachine (m : StateMachine S E C A H) : Prop :=
  ∃ w : World S E C A H, Reachable w ∧ w.machine = some m

/-- The machine object as `Build` leaves it (the body of `Builder.Build`). -/
def World.buildMachine (w : World S E C A H) (machineId : String) : StateMachine S E C A H :=
  { machineId := machineId, stateMap := w.stateMap, ready := true,
    failCallback := some (match w.failCallback with
      | none => FailCallback.numb
      | some c => c),
    currentStateFetcher := w.currentStateFetcher }

/-- The machine `m` with the guard of the record at `r` replaced by `g`. -/
def StateMachine.withGuard (m : StateMachine S E C A H) (r : TransitionRef S E)
    (g : Option (Condition C)) : StateMachine S E C A H :=
  { m with stateMap :=
      m.stateMap.map (fun (sm : StateMap S E C A) =>
        sm.modify r (fun x => { x with condition := g })) }

/-- The state `st` with `l` as its candidate list for `e`. -/
def state.withCandidates (st : state S E C A) (e : E) (l : List (transition S E C A)) :
    state S E C A :=
  { st with eventTransitions :=
      { transitions := Function.update st.eventTransitions.transitions e l } }

/-- The entry of the table for `s` (a fresh entry when `s` is not a known state). -/
def stateAt (w : World S E C A H) (s : S) : state S E C A :=
  match w.table s with
  | some st => st
  | none => { id := s, eventTransitions := { transitions := fun _ => [] } }

/-- The world a program leaves behind (the zero-value Builder if the program does not end). -/
def World.after (cs : List (Call S E C A H)) : World S E C A H :=
  match run World.init cs with
  | .ok w => w
  | .error _ => World.init

/-- The machine object after a program, with an unbuilt machine standing for none. -/
def machineAfter (cs : List (Call S E C A H)) : StateMachine S E C A H :=
  match (World.after cs).machine with
  | some m => m
  | none =>
    { machineId := "", stateMap := none, ready := false, failCallback := none,
      currentStateFetcher := none }

/-- Whether a recorded call is the evaluation of the guard of a transition with the key of `x`. -/
def Effect.isConditionOf (x : transition S E C A) : Effect S E C A H → Bool
  | .condition source target event _ _ =>
    decide (source = x.source) && decide (target = x.target) && decide (event = x.event)
  | _ => false

/-- Whether a recorded call is a guard evaluation. -/
def Effect.isCondition : Effect S E C A H → Bool
  | .condition _ _ _ _ _ => true
  | _ => false

/-- What `FireEvent` yields once the handler `cb` was called on `(s, e, ctx)`: the source,
unless the handler is the fatal one, which ends the process. -/
def afterOnFail (cb : FailCallback H) (s : S) : Except Fault S :=
  match cb with
  | FailCallback.alert => .error Fault.alertFatal
  | _ => .ok s

/-- Guard resolution in the words of the specification: the earliest candidate whose guard
holds; failing that, the last candidate without a guard; failing that, none. -/
def guardResolution (ctx : C) (ts : List (transition S E C A)) : Option (transition S E C A) :=
  match ts.find? (guardHolds ctx) with
  | some x => some x
  | none => (ts.filter unguarded).getLast?

/-- The fields of a record that `addTransition` fixes and no later call changes. -/
def transition.key (x : transition S E C A) : S × S × E × TransitionType :=
  (x.source, x.target, x.event, x.t)

/-- The record `addTransition` creates. -/
def newRecord (source : S) (event : E) (target : S) (t : TransitionType) : transition S E C A :=
  { source := source, target := target, event := event, condition := none, t := t,
    action := none }

/-- Every entry of the table is stored under its own id. -/
def KeysOk (m : StateMap S E C A) : Prop :=
  ∀ s st, m s = some st → st.id = s

/-- The keys of the candidates of `(s, e)`, in order. -/
def keysAt (m : StateMap S E C A) (s : S) (e : E) : List (S × S × E × TransitionType) :=
  (candidates m s e).map transition.key

/-- The targets in `declared` of the triples with source `s` and event `e`, in order. -/
def declaredTargets (declared : List (S × S × E)) (s : S) (e : E) : List S :=
  (declared.filter (fun d => decide (d.1 = s ∧ d.2.2 = e))).map (fun d => d.2.1)

/-- Invariant of the table: entries sit under their own id; a record sits in the index of its
source under its event; an INTERNAL record does not change state; the targets within a
candidate list are pairwise distinct and are the declared ones in declaration order. -/
structure TableInv (m : StateMap S E C A) (declared : List (S × S × E)) : Prop where
  keys : KeysOk m
  shape : ∀ s e, ∀ k ∈ keysAt m s e,
    k.1 = s ∧ k.2.2.1 = e ∧ (k.2.2.2 = TransitionType.INTERNAL → k.2.1 = s)
  nodup : ∀ s e, ((keysAt m s e).map (fun k => k.2.1)).Nodup
  hist : ∀ s e, (keysAt m s e).map (fun k => k.2.1) = declaredTargets declared s e

/-- Invariant of a chain object: its kind is the one of its constructor; an INTERNAL chain has
equal source and target and never offers `To`; held states are in the table; the fields an
offered call reads are set. -/
def ChainOk (m : StateMap S E C A) : Chain S E → Prop
  | .single h tb =>
    (tb.t = TransitionType.INTERNAL ∨ tb.t = TransitionType.EXTERNAL) ∧
    (tb.t = TransitionType.INTERNAL → tb.source = tb.target ∧ h.fromI = false) ∧
    (∀ s, tb.source = some s → (m s).isSome) ∧
    (h.fromI = true → tb.source.isSome) ∧
    (h.toI = true → tb.source.isSome ∧ tb.target.isSome) ∧
    (h.onI = true → tb.transition.isSome)
  | .multi h tb =>
    tb.t = TransitionType.EXTERNAL ∧ (∀ s ∈ tb.sources, (m s).isSome) ∧
    (h.toI = true → tb.target.isSome)

/-- Invariant of a world. -/
structure WorldInv (w : World S E C A H) : Prop where
  table : TableInv w.table w.declared
  chains : ∀ c ∈ w.chains, ChainOk w.table c

/-- The guard evaluation `routeTransition` records for a candidate. -/
def conditionEffect (ctx : C) (b : Bool) (x : transition S E C A) : Effect S E C A H :=
  Effect.condition x.source x.target x.event ctx b

/-- The table `getState` leaves behind when `s` is looked up in an allocated table. -/
def tableAfterLookup (sm : StateMap S E C A) (s : S) : StateMap S E C A :=
  match sm s with
  | some _ => sm
  | none =>
    Function.update sm s (some { id := s, eventTransitions := { transitions := fun _ => [] } })

/-- The program of the repository's test file (`init` in `statemachine_test.go`). -/
def testProgram : List (Call String String Nat String Unit) :=
  [ Call.ExternalTransition, Call.From 0 "bar", Call.To 0 "baz", Call.On 0 "hi",
    Call.Perform 0 (some "print"),
    Call.ExternalTransition, Call.From 1 "foo", Call.To 1 "bar", Call.On 1 "ping",
    Call.When 1 (some (fun _ => true)), Call.Perform 1 (some "print"),
    Call.ExternalTransitions, Call.FromAmong 2 ["foo", "bar"], Call.To 2 "zzz",
    Call.On 2 "sleep", Call.When 2 (some (fun _ => true)), Call.Perform 2 (some "print"),
    Call.InternalTransition, Call.Within 3 "foo", Call.On 3 "in", Call.Perform 3 (some "print"),
    Call.SetCurrentStateFetcher (some (fun _ => "foo")),
    Call.SetFailCallback (some FailCallback.numb), Call.Build "test" ]

/-- A machine with the fatal handler: one transition `foo -[ping]-> bar`. -/
def alertProgram : List (Call String String Nat String Unit) :=
  [ Call.SetFailCallback (some FailCallback.alert), Call.ExternalTransition, Call.From 0 "foo",
    Call.To 0 "bar", Call.On 0 "ping", Call.Build "alert" ]

/-- A machine whose only candidate for `(foo, ping)` has a guard that holds on no context but 7,
and a custom handler. -/
def guardedProgram : List (Call String String Nat String Unit) :=
  [ Call.ExternalTransition, Call.From 0 "foo", Call.To 0 "bar", Call.On 0 "ping",
    Call.When 0 (some (fun ctx => decide (ctx = 7))), Call.Perform 0 (some "print"),
    Call.SetFailCallback (some (FailCallback.custom ())), Call.Build "guarded" ]

/-- A Builder declaration with a guard that never holds; not built yet. -/
def falseGuardProgram : List (Call String String Nat String Unit) :=
  [ Call.ExternalTransition, Call.From 0 "foo", Call.To 0 "bar", Call.On 0 "ping",
    Call.When 0 (some (fun _ => false)) ]

/-- The calls `source.addTransition(event, t, kind)` for the pairs `(t, kind)` of a list, one
after another, on the state `source` of the table. -/
def declareAll (source : S) (event : E) :
    StateMap S E C A → List (S × TransitionType) → Except Fault (StateMap S E C A)
  | m, [] => .ok m
  | m, tk :: rest =>
    match addTransitionAt m source event tk.1 tk.2 with
    | .error f => .error f
    | .ok (m1, _) => declareAll source event m1 rest

/-- The calls of the chain `ExternalTransitions().FromAmong(ss...).To(t).On(e)`, followed by
`When` and by `Perform` when they are given; `k` is the number of chain objects obtained
before, so the chain object is a fresh one. -/
def fromAmongChain (k : Nat) (ss : List S) (t : S) (e : E)
    (optWhen : Option (Option (Condition C))) (optPerform : Option (Option A)) :
    List (Call S E C A H) :=
  [Call.ExternalTransitions, Call.FromAmong k ss, Call.To k t, Call.On k e]
    ++ (optWhen.map (Call.When k)).toList ++ (optPerform.map (Call.Perform k)).toList

/-- The chain object of `fromAmongChain` once `On` has returned. -/
def fromAmongObject (w : World S E C A H) (ss : List S) (t : S) (e : E) : Chain S E :=
  Chain.multi ⟨true, true, true⟩
    ⟨some t, TransitionType.EXTERNAL, ss,
      ss.map (fun s => TransitionRef.mk s e (candidates w.table s e).length)⟩

/-- The world after the first four calls of `fromAmongChain`, the table being `m`. -/
def afterFromAmongOn (w : World S E C A H) (m : StateMap S E C A) (ss : List S) (t : S) (e : E) :
    World S E C A H :=
  { w with stateMap := some m, chains := w.chains ++ [fromAmongObject w ss t e],
           declared := w.declared ++ ss.map (fun s => (s, t, e)) }

/-- The record a chain registers for source `s`: target `t`, event `e`, the kind of the chain,
the guard of `When` and the action of `Perform` when they were called. -/
def registered (s t : S) (e : E) (kind : TransitionType)
    (optWhen : Option (Option (Condition C))) (optPerform : Option (Option A)) :
    transition S E C A :=
  { source := s, target := t, event := e, condition := optWhen.join, t := kind,
    action := optPerform.join }

/-- The assignment `transition.condition = g`. -/
def withCondition (g : Option (Condition C)) (x : transition S E C A) : transition S E C A :=
  { x with condition := g }

/-- The assignment `transition.action = a`. -/
def withAction (a : Option A) (x : transition S E C A) : transition S E C A :=
  { x with action := a }

/-- The world `w` with `m` as the Builder's table. -/
def World.withTable (w : World S E C A H) (m : StateMap S E C A) : World S E C A H :=
  { w with stateMap := some m }

/-- The table after an optional assignment (`When` or `Perform`) through the places `rs`. -/
def optAssign {X : Type} (f : X → transition S E C A → transition S E C A)
    (rs : List (TransitionRef S E)) (ox : Option X) (m : StateMap S E C A) : StateMap S E C A :=
  match ox with
  | none => m
  | some x => rs.foldl (fun acc r => acc.modify r (f x)) m

/-- What an optional assignment does to a record. -/
def optApply {X : Type} (f : X → transition S E C A → transition S E C A) (ox : Option X)
    (x : transition S E C A) : transition S E C A :=
  match ox with
  | none => x
  | some v => f v x

/-- The chain of C9 on a table that already has `foo -[sleep]-> zzz`. -/
def duplicateChainProgram : List (Call String String Nat String Unit) :=
  [ Call.ExternalTransition, Call.From 0 "foo", Call.To 0 "zzz", Call.On 0 "sleep" ]
    ++ fromAmongChain 1 ["foo", "bar"] "zzz" "sleep" none none

/-- The calls of the chain `InternalTransition().Within(s).On(e)`, followed by `When` and by
`Perform` when they are given; `k` is the number of chain objects obtained before. -/
def withinChain (k : Nat) (s : S) (e : E) (optWhen : Option (Option (Condition C)))
    (optPerform : Option (Option A)) : List (Call S E C A H) :=
  [Call.InternalTransition, Call.Within k s, Call.On k e]
    ++ (optWhen.map (Call.When k)).toList ++ (optPerform.map (Call.Perform k)).toList

/-- The chain object of `withinChain` once `On` has returned. -/
def withinObject (w : World S E C A H) (s : S) (e : E) : Chain S E :=
  Chain.single ⟨false, true, true⟩
    ⟨some s, TransitionType.INTERNAL, some s,
      some (TransitionRef.mk s e (candidates w.table s e).length)⟩

/-- The world after the first three calls of `withinChain`, the table being `m`. -/
def afterWithinOn (w : World S E C A H) (m : StateMap S E C A) (s : S) (e : E) :
    World S E C A H :=
  { w with stateMap := some m, chains := w.chains ++ [withinObject w s e],
           declared := w.declared ++ [(s, s, e)] }

/-- An internal chain with a guard that never holds, then built. -/
def guardedInternalProgram : List (Call String String Nat String Unit) :=
  withinChain 0 "foo" "in" (some (some (fun _ => false))) (some (some "print"))
    ++ [Call.Build "internal"]

/-- A run-time call on a machine. -/
inductive Query (S E C : Type) where
  | Verify (source : S) (event : E)
  | VerifyWithFetcher (event : E) (ctx : C)
  | FireEvent (source : S) (event : E) (ctx : C)
  | FireEventByFetcher (event : E) (ctx : C)

/-- The machine with the table a call left in place of its own (the map is written in place). -/
def StateMachine.withStateMap (m : StateMachine S E C A H) (stateMap : Option (StateMap S E C A)) :
    StateMachine S E C A H :=
  { m with stateMap := stateMap }

/-- The machine after a run-time call that returned; the fault of the call otherwise. -/
def StateMachine.afterQuery (m : StateMachine S E C A H) :
    Query S E C → Except Fault (StateMachine S E C A H)
  | .Verify source event =>
    match (m.Verify source event).result with
    | .error f => .error f
    | .ok _ => .ok (m.withStateMap (m.Verify source event).stateMap)
  | .VerifyWithFetcher event ctx =>
    match (m.VerifyWithFetcher event ctx).result with
    | .error f => .error f
    | .ok _ => .ok (m.withStateMap (m.VerifyWithFetcher event ctx).stateMap)
  | .FireEvent source event ctx =>
    match (m.FireEvent source event ctx).result with
    | .error f => .error f
    | .ok _ => .ok (m.withStateMap (m.FireEvent source event ctx).stateMap)
  | .FireEventByFetcher event ctx =>
    match (m.FireEventByFetcher event ctx).result with
    | .error f => .error f
    | .ok _ => .ok (m.withStateMap (m.FireEventByFetcher event ctx).stateMap)

/-- The machine after a sequence of run-time calls, all of which returned. -/
def StateMachine.afterQueries :
    StateMachine S E C A H → List (Query S E C) → Except Fault (StateMachine S E C A H)
  | m, [] => .ok m
  | m, q :: qs =>
    match m.afterQuery q with
    | .error f => .error f
    | .ok m1 => m1.afterQueries qs

/-- The machine after a sequence of run-time calls (the machine itself if one does not return). -/
def StateMachine.afterQueriesD (m : StateMachine S E C A H) (qs : List (Query S E C)) :
    StateMachine S E C A H :=
  match m.afterQueries qs with
  | .ok m1 => m1
  | .error _ => m

/-- Two tables route alike: both nil, or both allocated with the same candidate lists. -/
def SameCandidates (a b : Option (StateMap S E C A)) : Prop :=
  match a, b with
  | some sm, some sm1 => ∀ s e, candidates sm1 s e = candidates sm s e
  | none, none => True
  | _, _ => False

/-- Run-time calls the test file makes or could make, with sources the table does not know. -/
def testQueries : List (Query String String Nat) :=
  [ Query.Verify "qux" "xxx", Query.FireEvent "nowhere" "ping" 0,
    Query.FireEventByFetcher "ping" 0, Query.VerifyWithFetcher "xxx" 0,
    Query.FireEvent "foo" "ping" 0 ]

/-- Whether `s` is a key of the table (a known state identity); no key on a nil map. -/
def knownState (stateMap : Option (StateMap S E C A)) (s : S) : Bool :=
  match stateMap with
  | some sm => (sm s).isSome
  | none => false

/-- A Builder on which no transition is declared: `b := Builder{}; b.Build("empty")`. -/
def emptyBuilderProgram : List (Call String String Nat String Unit) :=
  [ Call.Build "empty" ]

/-- The unguarded transition `foo -[ping]-> bar` of the two programs below. -/
def fallbackRecord : transition String String Nat String :=
  transition.mk "foo" "bar" "ping" none TransitionType.EXTERNAL (some "fallback")

/-- The guarded transition `foo -[ping]-> baz` of the two programs below; its guard holds on
the context 7 only. -/
def guardedRecord : transition String String Nat String :=
  transition.mk "foo" "baz" "ping" (some (fun ctx => decide (ctx = 7))) TransitionType.EXTERNAL
    (some "special")

/-- A machine for which the unguarded transition of `(foo, ping)` is declared first. -/
def fallbackFirstProgram : List (Call String String Nat String Unit) :=
  [ Call.ExternalTransition, Call.From 0 "foo", Call.To 0 "bar", Call.On 0 "ping",
    Call.Perform 0 (some "fallback"),
    Call.ExternalTransition, Call.From 1 "foo", Call.To 1 "baz", Call.On 1 "ping",
    Call.When 1 (some (fun ctx => decide (ctx = 7))), Call.Perform 1 (some "special"),
    Call.Build "fallbackFirst" ]

/-- The same machine with the unguarded transition of `(foo, ping)` declared last. -/
def fallbackLastProgram : List (Call String String Nat String Unit) :=
  [ Call.ExternalTransition, Call.From 0 "foo", Call.To 0 "baz", Call.On 0 "ping",
    Call.When 0 (some (fun ctx => decide (ctx = 7))), Call.Perform 0 (some "special"),
    Call.ExternalTransition, Call.From 1 "foo", Call.To 1 "bar", Call.On 1 "ping",
    Call.Perform 1 (some "fallback"),
    Call.Build "fallbackLast" ]

/-- The selection among the guarded candidates `gs` with the fallback `u`: the first of `gs`
whose guard holds on `ctx`, and `u` if there is none. -/
def selectWithFallback (ctx : C) (gs : List (transition S E C A)) (u : transition S E C A) :
    transition S E C A :=
  match gs.find? (guardHolds ctx) with
  | some x => x
  | none => u

/-- The two errors the Factory returns (the values of its two `fmt.Errorf` calls). -/
inductive FactoryError where
  /-- The error of `Register`: "the state machine with id [%s] is already built, ...". -/
  | alreadyBuilt (machineId : String)
  /-- The error of `Get`: "there is no stateMachine instance for %s, ...". -/
  | noInstance (machineId : String)
  deriving DecidableEq, Repr

/-- The Go `Factory`. `P` is the type of the addresses of machine objects (the non-nil values
of `*StateMachine`); the container is `none` while the map is nil. -/
structure Factory (P : Type) where
  container : Option (String → Option P)

/-- A zero-value `Factory`. -/
def Factory.zero {P : Type} : Factory P :=
  { container := none }

/-- The entries of the container; a nil map has none. -/
def Factory.table {P : Type} (f : Factory P) : String → Option P :=
  match f.container with
  | some c => c
  | none => fun _ => none

/-- The test `lo.Contains(lo.Keys(f.container), machineId)`. -/
def Factory.keysContain {P : Type} (f : Factory P) (machineId : String) : Bool :=
  match f.container with
  | some c => (c machineId).isSome
  | none => false

/-- The Go `Factory.Register`: the Factory after the call and the error returned. `heap` gives
the machine object at an address when the call is made; the argument `s` is `none` for a nil
pointer, on which reading `s.machineId` faults. -/
def Factory.Register {P : Type} (f : Factory P) (heap : P → StateMachine S E C A H)
    (s : Option P) : Except Fault (Factory P × Option FactoryError) :=
  match s with
  | none => .error .nilDeref
  | some p =>
    let machineId := (heap p).machineId
    let f1 : Factory P :=
      match f.container with
      | none => { container := some (fun _ => none) }
      | some _ => f
    if f1.keysContain machineId then .ok (f1, some (FactoryError.alreadyBuilt machineId))
    else .ok ({ container := some (Function.update f1.table machineId (some p)) }, none)

/-- The Go `Factory.Get`: the pointer returned (`none` for nil) and the error returned. -/
def Factory.Get {P : Type} (f : Factory P) (machineId : String) :
    Option P × Option FactoryError :=
  if !f.keysContain machineId then (none, some (FactoryError.noInstance machineId))
  else (f.table machineId, none)

/-- A sequence of `Register` calls, each with the heap of its moment: the Factory after the
last call and the `(id, address)` of the calls that returned no error, first call first. -/
def Factory.registerAll {P : Type} :
    Factory P → List ((P → StateMachine S E C A H) × Option P) →
      Except Fault (Factory P × List (String × P))
  | f, [] => .ok (f, [])
  | f, (heap, s) :: rest =>
    match f.Register heap s with
    | .error e => .error e
    | .ok (f1, r) =>
      match f1.registerAll rest with
      | .error e => .error e
      | .ok (f2, stored) =>
        match r, s with
        | none, some p => .ok (f2, ((heap p).machineId, p) :: stored)
        | _, _ => .ok (f2, stored)

/-- A heap for the test file: the machine of `init` at every address. -/
def testHeap : Nat → StateMachine String String Nat String Unit :=
  fun _ => machineAfter testProgram

/-- The registration of the test file (`f.Register(statemachine)` in `init`, the machine at
address 0), followed by a second machine with the same id at address 1. -/
def testRegistrations :
    List ((Nat → StateMachine String String Nat String Unit) × Option Nat) :=
  [ (testHeap, some 0), (testHeap, some 1) ]

/-- The fetcher field of the Builder after a call, `old` being the field before it: only
`SetCurrentStateFetcher` assigns it. -/
def fetcherAfter (old : Option (C → S)) : Call S E C A H → Option (C → S)
  | .SetCurrentStateFetcher f => f
  | _ => old

/-- The argument of the last `SetCurrentStateFetcher` call of a program; `none` if the program
has no such call or the last one passed nil. -/
def lastFetcher (cs : List (Call S E C A H)) : Option (C → S) :=
  cs.foldl fetcherAfter none

/-- Whether a call is `SetCurrentStateFetcher` with a non-nil fetcher. -/
def Call.setsFetcher : Call S E C A H → Bool
  | .SetCurrentStateFetcher (some _) => true
  | _ => false

/-- Whether a program calls `SetCurrentStateFetcher` with a non-nil fetcher. -/
def calledWithFetcher (cs : List (Call S E C A H)) : Bool :=
  cs.any Call.setsFetcher

/-- The declarations of a machine, `SetCurrentStateFetcher` with a fetcher and then
`SetCurrentStateFetcher(nil)`. -/
def fetcherUnsetProgram : List (Call String String Nat String Unit) :=
  [ Call.ExternalTransition, Call.From 0 "foo", Call.To 0 "bar", Call.On 0 "ping",
    Call.SetCurrentStateFetcher (some (fun _ => "foo")), Call.SetCurrentStateFetcher none ]

/-- The declarations of a machine with no `SetCurrentStateFetcher` call. -/
def noFetcherProgram : List (Call String String Nat String Unit) :=
  [ Call.ExternalTransition, Call.From 0 "foo", Call.To 0 "bar", Call.On 0 "ping" ]

/-- An INTERNAL record with differing source and target, a guard that holds and an action; no
call of the Builder API stores such a record. -/
def invalidInternalRecord : transition String String Nat String :=
  transition.mk "foo" "bar" "ping" (some (fun _ => true)) TransitionType.INTERNAL (some "print")

/-- The value on `ctx` of the guard of each record of a list (`none` for a record with no
guard). -/
def guardValues (ctx : C) (l : List (transition S E C A)) : List (Option Bool) :=
  l.map (fun x => x.condition.map (fun g => g ctx))

/-- The action of each record of a list. -/
def actionsOf (l : List (transition S E C A)) : List (Option A) :=
  l.map (fun x => x.action)

/-- The calls `x := ExternalTransitions().FromAmong("foo", "bar").To("zzz")` and
`x.On("sleep").When(g1).Perform("first")`, the guard `g1` holding on every context. -/
def multiFirstOnProgram : List (Call String String Nat String Unit) :=
  [ Call.ExternalTransitions, Call.FromAmong 0 ["foo", "bar"], Call.To 0 "zzz",
    Call.On 0 "sleep", Call.When 0 (some (fun _ => true)), Call.Perform 0 (some "first") ]

/-- The calls of `multiFirstOnProgram` followed by `x.On("wake").When(g2).Perform("second")` on
the same object `x`, the guard `g2` holding on no context. -/
def multiReusedProgram : List (Call String String Nat String Unit) :=
  multiFirstOnProgram ++
    [ Call.On 0 "wake", Call.When 0 (some (fun _ => false)), Call.Perform 0 (some "second") ]

/-- The calls `x := ExternalTransition().From("foo").To("zzz")` and
`x.On("sleep").When(g1).Perform("first")`, the guard `g1` holding on every context. -/
def singleFirstOnProgram : List (Call String String Nat String Unit) :=
  [ Call.ExternalTransition, Call.From 0 "foo", Call.To 0 "zzz",
    Call.On 0 "sleep", Call.When 0 (some (fun _ => true)), Call.Perform 0 (some "first") ]

/-- The calls of `singleFirstOnProgram` followed by `x.On("wake").When(g2).Perform("second")`
on the same object `x`, the guard `g2` holding on no context. -/
def singleReusedProgram : List (Call String String Nat String Unit) :=
  singleFirstOnProgram ++
    [ Call.On 0 "wake", Call.When 0 (some (fun _ => false)), Call.Perform 0 (some "second") ]

end views

/-! ## Routing -/

section routing

set_option linter.unusedSectionVars false

variable {S E C A H : Type} [DecidableEq S] [DecidableEq E]

theorem routeLoop_select (ctx : C) (ts : List (transition S E C A))
    (acc : Option (transition S E C A)) :
    (routeLoop (H := H) ctx ts acc).2 =
      match ts.find? (guardHolds ctx) with
      | some x => some x
      | none => ((ts.filter unguarded).getLast?).or acc := by
  induction ts generalizing acc with
  | nil => simp [routeLoop]
  | cons x rest ih =>
    cases hc : x.condition with
    | none =>
      have hg : guardHolds ctx x = false := by simp [guardHolds, hc]
      have hu : unguarded x = true := by simp [unguarded, hc]
      simp only [routeLoop, hc, ih, List.find?_cons, hg, List.filter_cons, hu, if_true]
      cases List.find? (guardHolds ctx) rest with
      | some y => rfl
      | none =>
        cases hl : (List.filter unguarded rest).getLast? with
        | none =>
          have : List.filter unguarded rest = [] := List.getLast?_eq_none_iff.mp hl
          simp [this]
        | some z =>
          simp only [Option.or_some]
          rw [List.getLast?_cons, hl]
          simp
    | some c =>
      have hu : unguarded x = false := by simp [unguarded, hc]
      by_cases hcc : c ctx = true
      · have hg : guardHolds ctx x = true := by simp [guardHolds, hc, hcc]
        simp [routeLoop, hc, hcc, List.find?_cons, hg]
      · have hg : guardHolds ctx x = false := by simp [guardHolds, hc, hcc]
        simp [routeLoop, hc, hcc, List.find?_cons, hg, List.filter_cons, hu, ih]

theorem routeLoop_guardResolution (ctx : C) (ts : List (transition S E C A)) :
    (routeLoop (H := H) ctx ts none).2 = guardResolution ctx ts := by
  rw [routeLoop_select, guardResolution]
  cases List.find? (guardHolds ctx) ts <;> simp

theorem routeTransition_result (m : StateMachine S E C A H) (s : S) (e : E) (ctx : C) :
    (m.routeTransition s e ctx).result =
      (lookupCandidates m.stateMap s e).map (guardResolution ctx) := by
  unfold StateMachine.routeTransition lookupCandidates
  cases hgs : getState m.stateMap s with
  | error f => rfl
  | ok p =>
    obtain ⟨m1, st⟩ := p
    by_cases hemp : (st.transitionsOfEvent e).isEmpty = true
    · have : st.transitionsOfEvent e = [] := List.isEmpty_iff.mp hemp
      simp [hemp, this, Except.map, guardResolution]
    · simp [hemp, Except.map, routeLoop_guardResolution]

theorem lookupCandidates_some (sm : StateMap S E C A) (s : S) (e : E) :
    lookupCandidates (some sm) s e = .ok (candidates sm s e) := by
  unfold lookupCandidates getState candidates
  cases h : sm s <;> simp [h, state.transitionsOfEvent, eventTransitions.get]

/-- C1. Guard resolution of `routeTransition`: on every machine the transition selected is the
guard resolution of the candidate list the lookup yields (on an allocated table, the list the
table holds for `(s, e)`): the earliest candidate whose guard holds on `ctx`, wherever the
unguarded ones sit; otherwise the last unguarded candidate; otherwise none.  In particular a
false guard and a fallback select the fallback, a true guard and a fallback select the guarded
one, and of two true guards the earlier one is selected. -/
theorem C1_guard_resolution (m : StateMachine S E C A H) (s : S) (e : E) (ctx : C) :
    (m.routeTransition s e ctx).result
        = (lookupCandidates m.stateMap s e).map (guardResolution ctx)
    ∧ (∀ sm, m.stateMap = some sm →
        (m.routeTransition s e ctx).result = .ok (guardResolution ctx (candidates sm s e)))
    ∧ (∀ ts : List (transition S E C A),
        (∀ pre x post, ts = pre ++ x :: post → guardHolds ctx x = true →
            (∀ y ∈ pre, guardHolds ctx y = false) → guardResolution ctx ts = some x)
        ∧ (∀ pre u post, ts = pre ++ u :: post → (∀ y ∈ ts, guardHolds ctx y = false) →
            unguarded u = true → (∀ y ∈ post, unguarded y = false) →
            guardResolution ctx ts = some u)
        ∧ ((∀ y ∈ ts, guardHolds ctx y = false ∧ unguarded y = false) →
            guardResolution ctx ts = none))
    ∧ (∀ g u : transition S E C A, guardHolds ctx g = false → unguarded g = false →
        unguarded u = true →
        guardResolution ctx [g, u] = some u ∧ guardResolution ctx [u, g] = some u)
    ∧ (∀ g u : transition S E C A, guardHolds ctx g = true → unguarded u = true →
        guardResolution ctx [g, u] = some g ∧ guardResolution ctx [u, g] = some g)
    ∧ (∀ g1 g2 : transition S E C A, guardHolds ctx g1 = true → guardHolds ctx g2 = true →
        guardResolution ctx [g1, g2] = some g1) := by
  refine ⟨routeTransition_result m s e ctx, ?_, ?_, ?_, ?_, ?_⟩
  · intro sm hsm
    rw [routeTransition_result, hsm, lookupCandidates_some]
    rfl
  · intro ts
    refine ⟨?_, ?_, ?_⟩
    · intro pre x post hts hx hpre
      have hfind : List.find? (guardHolds ctx) ts = some x := by
        rw [hts, List.find?_append]
        have : List.find? (guardHolds ctx) pre = none := by
          rw [List.find?_eq_none]
          intro y hy
          simp [hpre y hy]
        simp [this, List.find?_cons, hx]
      simp [guardResolution, hfind]
    · intro pre u post hts hall hu hpost
      have hfind : List.find? (guardHolds ctx) ts = none := by
        rw [List.find?_eq_none]
        intro y hy
        simp [hall y hy]
      have hf : List.filter unguarded post = [] := by
        rw [List.filter_eq_nil_iff]
        intro y hy
        simp [hpost y hy]
      unfold guardResolution
      rw [hfind]
      simp [hts, List.filter_cons, hu, hf]
    · intro hall
      have hfind : List.find? (guardHolds ctx) ts = none := by
        rw [List.find?_eq_none]
        intro y hy
        simp [(hall y hy).1]
      have hf : List.filter unguarded ts = [] := by
        rw [List.filter_eq_nil_iff]
        intro y hy
        simp [(hall y hy).2]
      simp [guardResolution, hfind, hf]
  · intro g u hg hgu hu
    have hug : guardHolds ctx u = false := by
      unfold unguarded at hu
      unfold guardHolds
      cases hc : u.condition <;> simp_all
    simp [guardResolution, List.find?_cons, hg, hug, List.filter_cons, hu, hgu]
  · intro g u hg hu
    have hug : guardHolds ctx u = false := by
      unfold unguarded at hu
      unfold guardHolds
      cases hc : u.condition <;> simp_all
    simp [guardResolution, List.find?_cons, hg, hug]
  · intro g1 g2 h1 _
    simp [guardResolution, List.find?_cons, h1]

end routing

/-! ## How the operations change the candidate lists -/

section table

set_option linter.unusedSectionVars false

variable {S E C A H : Type} [DecidableEq S] [DecidableEq E]

theorem candidates_of_some {m : StateMap S E C A} {s : S} {st : state S E C A}
    (h : m s = some st) (e : E) : candidates m s e = st.eventTransitions.transitions e := by
  simp [candidates, h, state.transitionsOfEvent, eventTransitions.get]

theorem candidates_of_none {m : StateMap S E C A} {s : S} (h : m s = none) (e : E) :
    candidates m s e = [] := by
  simp [candidates, h]

theorem candidates_update_ne (m : StateMap S E C A) (s s1 : S) (v : Option (state S E C A))
    (e : E) (h : s1 ≠ s) : candidates (Function.update m s v) s1 e = candidates m s1 e := by
  simp [candidates, Function.update_noteq h]

theorem getState_some_cases (m : StateMap S E C A) (s : S) :
    (∃ st, m s = some st ∧ getState (some m) s = .ok (m, st)) ∨
    (m s = none ∧ getState (some m) s =
      .ok (Function.update m s (some { id := s, eventTransitions := { transitions := fun _ => [] } }),
           { id := s, eventTransitions := { transitions := fun _ => [] } })) := by
  unfold getState
  cases h : m s with
  | none => right; simp [h]
  | some st => left; exact ⟨st, rfl, by simp [h]⟩

/-- What `getState` guarantees on an allocated table. -/
theorem getState_spec (m : StateMap S E C A) (s : S) (hk : KeysOk m) :
    ∃ m1 st, getState (some m) s = .ok (m1, st) ∧ m1 s = some st ∧ st.id = s ∧ KeysOk m1 ∧
      (∀ s1 e, candidates m1 s1 e = candidates m s1 e) ∧
      (∀ s1, (m s1).isSome → (m1 s1).isSome) ∧
      (∀ s1, (m1 s1).isSome → (m s1).isSome ∨ s1 = s) := by
  rcases getState_some_cases m s with ⟨st, hst, hg⟩ | ⟨hn, hg⟩
  · exact ⟨m, st, hg, hst, hk s st hst, hk, fun _ _ => rfl, fun _ h => h, fun _ h => Or.inl h⟩
  · refine ⟨_, _, hg, by simp, rfl, ?_, ?_, ?_, ?_⟩
    · intro s1 st1 h1
      by_cases hs : s1 = s
      · subst hs
        simp at h1
        rw [← h1]
      · rw [Function.update_noteq hs] at h1
        exact hk s1 st1 h1
    · intro s1 e
      by_cases hs : s1 = s
      · subst hs
        rw [candidates_of_none hn]
        simp [candidates, state.transitionsOfEvent, eventTransitions.get]
      · exact candidates_update_ne m s s1 _ e hs
    · intro s1 h1
      by_cases hs : s1 = s
      · subst hs; simp
      · rw [Function.update_noteq hs]; exact h1
    · intro s1 h1
      by_cases hs : s1 = s
      · exact Or.inr hs
      · rw [Function.update_noteq hs] at h1; exact Or.inl h1

theorem verify_ok_iff (l : List (transition S E C A)) (t : transition S E C A) :
    eventTransitions.verify l t = .ok () ↔ ∀ x ∈ l, sameTransition x t = false := by
  induction l with
  | nil => simp [eventTransitions.verify]
  | cons x rest ih =>
    unfold eventTransitions.verify
    by_cases hx : sameTransition x t = true
    · simp [hx]
    · simp [hx, ih]

theorem verify_cases (l : List (transition S E C A)) (t : transition S E C A) :
    eventTransitions.verify l t = .ok () ∨ eventTransitions.verify l t = .error .alreadyExist := by
  induction l with
  | nil => left; simp [eventTransitions.verify]
  | cons x rest ih =>
    unfold eventTransitions.verify
    by_cases hx : sameTransition x t = true
    · right; simp [hx]
    · simpa [hx] using ih

theorem put_eq (et : eventTransitions S E C A) (event : E) (t : transition S E C A) :
    et.put event t =
      match eventTransitions.verify (et.transitions event) t with
      | .error f => .error f
      | .ok _ => .ok { transitions :=
          Function.update et.transitions event (et.transitions event ++ [t]) } := by
  unfold eventTransitions.put
  cases h : et.transitions event with
  | nil => simp [eventTransitions.verify]
  | cons x rest => rfl

/-- The effect of `addTransitionAt` when it returns. -/
theorem addTransitionAt_ok {m m1 : StateMap S E C A} {source target : S} {event : E}
    {t : TransitionType} {r : TransitionRef S E} (hk : KeysOk m)
    (h : addTransitionAt m source event target t = .ok (m1, r)) :
    (m source).isSome ∧ KeysOk m1 ∧
    r = { source := source, event := event, index := (candidates m source event).length } ∧
    (∀ x ∈ candidates m source event,
        sameTransition x (newRecord (C := C) (A := A) source event target t) = false) ∧
    candidates m1 source event = candidates m source event ++ [newRecord source event target t] ∧
    (∀ s1 e1, ¬ (s1 = source ∧ e1 = event) → candidates m1 s1 e1 = candidates m s1 e1) ∧
    (∀ s1, (m1 s1).isSome ↔ (m s1).isSome) := by
  unfold addTransitionAt at h
  cases hs : m source with
  | none => simp [hs] at h
  | some st =>
    have hid : st.id = source := hk source st hs
    simp only [hs, state.addTransition, put_eq, hid] at h
    rcases verify_cases (st.eventTransitions.transitions event)
        ({ source := source, target := target, event := event, condition := none, t := t,
           action := none } : transition S E C A) with hv | hv
    · rw [hv] at h
      simp only [Except.ok.injEq, Prod.mk.injEq] at h
      obtain ⟨hm1, hr⟩ := h
      subst hm1
      refine ⟨by simp, ?_, ?_, ?_, ?_, ?_, ?_⟩
      · intro s1 st1 h1
        by_cases hs1 : s1 = source
        · subst hs1
          simp at h1
          rw [← h1]
        · rw [Function.update_noteq hs1] at h1
          exact hk s1 st1 h1
      · rw [← hr, candidates_of_some hs]
        rfl
      · rw [candidates_of_some hs]
        exact (verify_ok_iff _ _).mp hv
      · rw [candidates_of_some hs]
        simp [candidates, state.transitionsOfEvent, eventTransitions.get, newRecord]
      · intro s1 e1 hne
        by_cases hs1 : s1 = source
        · subst hs1
          have he : e1 ≠ event := fun he => hne ⟨rfl, he⟩
          rw [candidates_of_some hs]
          simp [candidates, state.transitionsOfEvent, eventTransitions.get,
            Function.update_noteq he]
        · exact candidates_update_ne m source s1 _ e1 hs1
      · intro s1
        by_cases hs1 : s1 = source
        · subst hs1; simp [hs]
        · simp [Function.update_noteq hs1]
    · rw [hv] at h
      simp at h

/-- When `addTransitionAt` returns: the state is in the table and no candidate has the target. -/
theorem addTransitionAt_isOk (m : StateMap S E C A) (source target : S) (event : E)
    (t : TransitionType) (hs : (m source).isSome) (hk : KeysOk m)
    (hnew : ∀ x ∈ candidates m source event,
        sameTransition x (newRecord (C := C) (A := A) source event target t) = false) :
    ∃ m1 r, addTransitionAt m source event target t = .ok (m1, r) := by
  unfold addTransitionAt
  cases hst : m source with
  | none => simp [hst] at hs
  | some st =>
    have hid : st.id = source := hk source st hst
    rw [candidates_of_some hst] at hnew
    have hv := (verify_ok_iff _ _).mpr hnew
    simp only [state.addTransition, put_eq, hid]
    unfold newRecord at hv
    rw [hv]
    exact ⟨_, _, rfl⟩

/-- Assignment through a place changes no key and no other place. -/
theorem modify_candidates (m : StateMap S E C A) (r : TransitionRef S E)
    (f : transition S E C A → transition S E C A) (s : S) (e : E) :
    candidates (m.modify r f) s e =
      if s = r.source ∧ e = r.event then (candidates m s e).modify f r.index
      else candidates m s e := by
  unfold StateMap.modify
  cases hs : m r.source with
  | none =>
    by_cases h : s = r.source ∧ e = r.event
    · obtain ⟨h1, h2⟩ := h
      subst h1
      simp [candidates, hs]
    · simp [h]
  | some st =>
    by_cases h1 : s = r.source
    · subst h1
      by_cases h2 : e = r.event
      · subst h2
        simp [candidates, hs, state.transitionsOfEvent, eventTransitions.get]
      · simp [candidates, hs, state.transitionsOfEvent, eventTransitions.get, h2,
          Function.update_noteq h2]
    · simp [h1, candidates, Function.update_noteq h1]

theorem modify_isSome (m : StateMap S E C A) (r : TransitionRef S E)
    (f : transition S E C A → transition S E C A) (s : S) :
    ((m.modify r f) s).isSome = (m s).isSome := by
  unfold StateMap.modify
  cases hs : m r.source with
  | none => rfl
  | some st =>
    by_cases h1 : s = r.source
    · subst h1; simp [hs]
    · simp [Function.update_noteq h1]

theorem modify_keysOk (m : StateMap S E C A) (r : TransitionRef S E)
    (f : transition S E C A → transition S E C A) (hk : KeysOk m) : KeysOk (m.modify r f) := by
  unfold StateMap.modify
  cases hs : m r.source with
  | none => exact hk
  | some st =>
    intro s st1 h
    simp only at h
    by_cases h1 : s = r.source
    · subst h1
      simp at h
      rw [← h]
      exact hk r.source st hs
    · rw [Function.update_noteq h1] at h
      exact hk s st1 h

theorem map_key_modify (l : List (transition S E C A)) (f : transition S E C A → transition S E C A)
    (n : Nat) (hf : ∀ x, (f x).key = x.key) :
    (l.modify f n).map transition.key = l.map transition.key := by
  induction l generalizing n with
  | nil => simp
  | cons x rest ih =>
    cases n with
    | zero => simp [List.modify_zero_cons, hf]
    | succ n => simp [List.modify_succ_cons, ih]

theorem modify_keys (m : StateMap S E C A) (r : TransitionRef S E)
    (f : transition S E C A → transition S E C A) (hf : ∀ x, (f x).key = x.key) (s : S) (e : E) :
    (candidates (m.modify r f) s e).map transition.key =
      (candidates m s e).map transition.key := by
  rw [modify_candidates]
  split
  · exact map_key_modify _ f _ hf
  · rfl

theorem TableInv.ofEmpty : TableInv (fun _ => none : StateMap S E C A) [] := by
  refine ⟨?_, ?_, ?_, ?_⟩
  · intro s st h; simp at h
  · intro s e k hk; simp [keysAt, candidates] at hk
  · intro s e; simp [keysAt, candidates]
  · intro s e; simp [keysAt, candidates, declaredTargets]

theorem TableInv.congr {m m1 : StateMap S E C A} {d : List (S × S × E)} (h : TableInv m d)
    (hk : KeysOk m1) (hc : ∀ s e, keysAt m1 s e = keysAt m s e) : TableInv m1 d := by
  refine ⟨hk, ?_, ?_, ?_⟩
  · intro s e; rw [hc]; exact h.shape s e
  · intro s e; rw [hc]; exact h.nodup s e
  · intro s e; rw [hc]; exact h.hist s e

theorem sameTransition_newRecord (x : transition S E C A) (source target : S) (event : E)
    (t : TransitionType) (hx : x.source = source ∧ x.event = event) :
    sameTransition x (newRecord source event target t) = decide (x.target = target) := by
  simp [sameTransition, newRecord, hx.1, hx.2]

theorem declaredTargets_append (d d1 : List (S × S × E)) (s : S) (e : E) :
    declaredTargets (d ++ d1) s e = declaredTargets d s e ++ declaredTargets d1 s e := by
  simp [declaredTargets]

/-- A successful `addTransitionAt` keeps the invariant, with the new triple declared. -/
theorem TableInv.addTransitionAt {m m1 : StateMap S E C A} {d : List (S × S × E)}
    {source target : S} {event : E} {t : TransitionType} {r : TransitionRef S E}
    (h : TableInv m d) (ht : t = TransitionType.INTERNAL → target = source)
    (hok : addTransitionAt m source event target t = .ok (m1, r)) :
    TableInv m1 (d ++ [(source, target, event)]) := by
  obtain ⟨_, hk1, _, hnew, happ, hother, _⟩ := addTransitionAt_ok h.keys hok
  have hfresh : target ∉ (keysAt m source event).map (fun k => k.2.1) := by
    intro hmem
    simp only [keysAt, List.map_map, List.mem_map] at hmem
    obtain ⟨x, hx, hxt⟩ := hmem
    have hsh := h.shape source event x.key (List.mem_map_of_mem _ hx)
    have := hnew x hx
    rw [sameTransition_newRecord x source target event t ⟨hsh.1, hsh.2.1⟩] at this
    simp [transition.key] at hxt
    simp [hxt] at this
  have hkeys : keysAt m1 source event = keysAt m source event ++ [(source, target, event, t)] := by
    simp [keysAt, happ, newRecord, transition.key]
  have hkeys2 : ∀ s e, ¬ (s = source ∧ e = event) → keysAt m1 s e = keysAt m s e := by
    intro s e hne
    simp [keysAt, hother s e hne]
  refine ⟨hk1, ?_, ?_, ?_⟩
  · intro s e k hk
    by_cases hse : s = source ∧ e = event
    · obtain ⟨hs, he⟩ := hse
      subst hs he
      rw [hkeys, List.mem_append] at hk
      rcases hk with hk | hk
      · exact h.shape _ _ k hk
      · simp at hk
        subst hk
        exact ⟨rfl, rfl, ht⟩
    · rw [hkeys2 s e hse] at hk
      exact h.shape s e k hk
  · intro s e
    by_cases hse : s = source ∧ e = event
    · obtain ⟨hs, he⟩ := hse
      subst hs he
      rw [hkeys, List.map_append, List.nodup_append]
      refine ⟨h.nodup _ _, by simp, ?_⟩
      intro a ha hb
      simp at hb
      subst hb
      exact hfresh ha
    · rw [hkeys2 s e hse]
      exact h.nodup s e
  · intro s e
    rw [declaredTargets_append]
    by_cases hse : s = source ∧ e = event
    · obtain ⟨hs, he⟩ := hse
      subst hs he
      rw [hkeys, List.map_append, h.hist]
      simp [declaredTargets]
    · rw [hkeys2 s e hse, h.hist]
      have : declaredTargets [(source, target, event)] s e = [] := by
        simp only [declaredTargets, List.filter_cons, List.filter_nil]
        have : ¬ (source = s ∧ event = e) := fun hh => hse ⟨hh.1.symm, hh.2.symm⟩
        simp [this]
      simp [this]

/-- Assignment of a guard or an action through a place keeps the invariant. -/
theorem TableInv.modify {m : StateMap S E C A} {d : List (S × S × E)} (h : TableInv m d)
    (r : TransitionRef S E) (f : transition S E C A → transition S E C A)
    (hf : ∀ x, (f x).key = x.key) : TableInv (m.modify r f) d :=
  h.congr (modify_keysOk m r f h.keys) (fun s e => modify_keys m r f hf s e)

theorem TableInv.foldl_modify {d : List (S × S × E)} (rs : List (TransitionRef S E))
    (f : transition S E C A → transition S E C A) (hf : ∀ x, (f x).key = x.key) :
    ∀ (m : StateMap S E C A), TableInv m d →
      TableInv (rs.foldl (fun acc r => acc.modify r f) m) d ∧
      ∀ s, ((rs.foldl (fun acc r => acc.modify r f) m) s).isSome = (m s).isSome := by
  induction rs with
  | nil => intro m h; exact ⟨h, fun _ => rfl⟩
  | cons r rest ih =>
    intro m h
    obtain ⟨h1, h2⟩ := ih (m.modify r f) (h.modify r f hf)
    refine ⟨h1, ?_⟩
    intro s
    rw [List.foldl_cons, h2 s, modify_isSome]

end table

/-! ## Invariant of the worlds a program can reach -/

section invariant

set_option linter.unusedSectionVars false

variable {S E C A H : Type} [DecidableEq S] [DecidableEq E]

theorem ChainOk.mono {m m1 : StateMap S E C A} (hmono : ∀ s, (m s).isSome → (m1 s).isSome)
    {c : Chain S E} (h : ChainOk m c) : ChainOk m1 c := by
  cases c with
  | single hd tb =>
    obtain ⟨h1, h2, h3, h4, h5, h6⟩ := h
    exact ⟨h1, h2, fun s hs => hmono s (h3 s hs), h4, h5, h6⟩
  | multi hd tb =>
    obtain ⟨h1, h2, h3⟩ := h
    exact ⟨h1, fun s hs => hmono s (h2 s hs), h3⟩

theorem chains_set {m m1 : StateMap S E C A} {cs : List (Chain S E)} {k : Nat} {c1 : Chain S E}
    (hmono : ∀ s, (m s).isSome → (m1 s).isSome) (hall : ∀ c ∈ cs, ChainOk m c)
    (h1 : ChainOk m1 c1) : ∀ c ∈ cs.set k c1, ChainOk m1 c := by
  intro c hc
  rcases List.mem_or_eq_of_mem_set hc with hc | hc
  · exact (hall c hc).mono hmono
  · rw [hc]; exact h1

theorem chains_same {m m1 : StateMap S E C A} {cs : List (Chain S E)}
    (hmono : ∀ s, (m s).isSome → (m1 s).isSome) (hall : ∀ c ∈ cs, ChainOk m c) :
    ∀ c ∈ cs, ChainOk m1 c :=
  fun c hc => (hall c hc).mono hmono

theorem TableInv.getState {m m1 : StateMap S E C A} {d : List (S × S × E)} {s : S}
    {st : state S E C A} (h : TableInv m d) (hg : getState (some m) s = .ok (m1, st)) :
    TableInv m1 d ∧ st.id = s ∧ m1 s = some st ∧ (∀ s1, (m s1).isSome → (m1 s1).isSome) ∧
      (∀ s1 e, candidates m1 s1 e = candidates m s1 e) := by
  obtain ⟨m2, st2, hg2, h1, h2, h3, h4, h5, _⟩ := getState_spec m s h.keys
  rw [hg2] at hg
  simp only [Except.ok.injEq, Prod.mk.injEq] at hg
  obtain ⟨rfl, rfl⟩ := hg
  exact ⟨h.congr h3 (fun s1 e => by simp [keysAt, h4]), h2, h1, h5, h4⟩

/-- The loop of `FromAmong` keeps the invariant and collects states of the table. -/
theorem fromAmongLoop_inv {d : List (S × S × E)} (ids : List S) :
    ∀ (m m1 : StateMap S E C A) (acc acc1 : List S), TableInv m d →
      fromAmongLoop ids m acc = .ok (m1, acc1) → (∀ s ∈ acc, (m s).isSome) →
      TableInv m1 d ∧ acc1 = acc ++ ids ∧ (∀ s ∈ acc1, (m1 s).isSome) ∧
        (∀ s, (m s).isSome → (m1 s).isSome) ∧
        (∀ s e, candidates m1 s e = candidates m s e) := by
  induction ids with
  | nil =>
    intro m m1 acc acc1 h hl hacc
    simp only [fromAmongLoop, Except.ok.injEq, Prod.mk.injEq] at hl
    obtain ⟨rfl, rfl⟩ := hl
    exact ⟨h, by simp, hacc, fun _ hs => hs, fun _ _ => rfl⟩
  | cons x rest ih =>
    intro m m1 acc acc1 h hl hacc
    unfold fromAmongLoop at hl
    cases hg : statemachine.getState (some m) x with
    | error f => simp [hg] at hl
    | ok p =>
      obtain ⟨m2, st⟩ := p
      simp only [hg] at hl
      obtain ⟨h2, hid, hin, hmono, hc⟩ := h.getState hg
      have hacc2 : ∀ s ∈ acc ++ [st.id], (m2 s).isSome := by
        intro s hs
        rw [List.mem_append] at hs
        rcases hs with hs | hs
        · exact hmono s (hacc s hs)
        · simp at hs
          rw [hs, hid, hin]
          rfl
      obtain ⟨r1, r2, r3, r4, r5⟩ := ih m2 m1 _ acc1 h2 hl hacc2
      refine ⟨r1, ?_, r3, fun s hs => r4 s (hmono s hs), fun s e => by rw [r5, hc]⟩
      rw [r2, hid]
      simp

/-- The loop of the multi-source `On` keeps the invariant, declaring one triple per source. -/
theorem onLoop_inv (event : E) (target : S) (t : TransitionType)
    (ht : t ≠ TransitionType.INTERNAL) (sources : List S) :
    ∀ (m m1 : StateMap S E C A) (d : List (S × S × E)) (acc acc1 : List (TransitionRef S E)),
      TableInv m d → onLoop event target t sources m acc = .ok (m1, acc1) →
      TableInv m1 (d ++ sources.map (fun source => (source, target, event))) ∧
        (∀ s, (m1 s).isSome ↔ (m s).isSome) := by
  induction sources with
  | nil =>
    intro m m1 d acc acc1 h hl
    simp only [onLoop, Except.ok.injEq, Prod.mk.injEq] at hl
    obtain ⟨rfl, rfl⟩ := hl
    simpa using h
  | cons x rest ih =>
    intro m m1 d acc acc1 h hl
    unfold onLoop at hl
    cases ha : addTransitionAt m x event target t with
    | error f => simp [ha] at hl
    | ok p =>
      obtain ⟨m2, r⟩ := p
      simp only [ha] at hl
      have h2 := h.addTransitionAt (fun hh => absurd hh ht) ha
      obtain ⟨_, _, _, _, _, _, hsome⟩ := addTransitionAt_ok h.keys ha
      obtain ⟨r1, r2⟩ := ih m2 m1 _ _ acc1 h2 hl
      refine ⟨?_, fun s => (r2 s).trans (hsome s)⟩
      simpa using r1

theorem routeTransition_stateMap (sm : StateMachine S E C A H) (s : S) (e : E) (ctx : C)
    (v : Option (transition S E C A)) (h : (sm.routeTransition s e ctx).result = .ok v) :
    ∃ m m1 st, sm.stateMap = some m ∧ getState (some m) s = .ok (m1, st) ∧
      (sm.routeTransition s e ctx).stateMap = some m1 := by
  unfold StateMachine.routeTransition at h ⊢
  cases hm : sm.stateMap with
  | none => simp [hm, getState] at h
  | some m =>
    cases hg : getState (some m) s with
    | error f => simp [hm, hg] at h
    | ok p =>
      obtain ⟨m1, st⟩ := p
      refine ⟨m, m1, st, rfl, hg, ?_⟩
      simp only [hg]
      split <;> rfl

theorem fire_stateMap (sm : StateMachine S E C A H) (s : S) (e : E) (ctx : C) (v : S)
    (h : (sm.fire s e ctx).result = .ok v) :
    ∃ m m1 st, sm.stateMap = some m ∧ getState (some m) s = .ok (m1, st) ∧
      (sm.fire s e ctx).stateMap = some m1 := by
  unfold StateMachine.fire at h ⊢
  cases hr : (sm.routeTransition s e ctx).result with
  | error f => simp [hr] at h
  | ok v1 =>
    obtain ⟨m, m1, st, h1, h2, h3⟩ := routeTransition_stateMap sm s e ctx v1 hr
    refine ⟨m, m1, st, h1, h2, ?_⟩
    simp only [hr]
    cases v1 with
    | some t => exact h3
    | none =>
      simp only
      cases hcb : sm.failCallback with
      | none => exact h3
      | some cb =>
        simp only
        split <;> exact h3

theorem Verify_stateMap (sm : StateMachine S E C A H) (s : S) (e : E) (v : Bool)
    (h : (sm.Verify s e).result = .ok v) :
    ∃ m m1 st, sm.stateMap = some m ∧ getState (some m) s = .ok (m1, st) ∧
      (sm.Verify s e).stateMap = some m1 := by
  unfold StateMachine.Verify at h ⊢
  by_cases hr : sm.ready = true
  · simp only [hr, Bool.not_true, Bool.false_eq_true, if_false] at h ⊢
    cases hm : sm.stateMap with
    | none => simp [hm, getState] at h
    | some m =>
      cases hg : getState (some m) s with
      | error f => simp [hm, hg] at h
      | ok p =>
        obtain ⟨m1, st⟩ := p
        refine ⟨m, m1, st, rfl, hg, ?_⟩
        simp only [hg]
  · simp [hr] at h

/-- A run-time call that returns leaves the table with at most one more, empty, entry. -/
theorem afterCall_inv {R : Type} {w w1 : World S E C A H} (sm : StateMachine S E C A H)
    (o : Outcome S E C A H R) (hw : WorldInv w) (hsm : w.machine = some sm)
    (ho : ∀ v, o.result = .ok v → ∃ m m1 s st, sm.stateMap = some m ∧
      getState (some m) s = .ok (m1, st) ∧ o.stateMap = some m1)
    (h : w.afterCall o = .ok w1) : WorldInv w1 := by
  unfold World.afterCall at h
  cases hr : o.result with
  | error f => simp [hr] at h
  | ok v =>
    obtain ⟨m, m1, s, st, h1, h2, h3⟩ := ho v hr
    simp only [hr] at h
    unfold World.machine at hsm
    cases hb : w.statemachine with
    | none => simp [hb] at hsm
    | some b =>
      simp only [hb, Option.some.injEq] at hsm h
      by_cases hsh : b.shared = true
      · simp only [hsh, if_true, Except.ok.injEq] at h
        subst h
        rw [← hsm] at h1
        simp only [hsh, if_true] at h1
        have htab : w.table = m := by simp [World.table, h1]
        have hwt := hw.table
        rw [htab] at hwt
        obtain ⟨g1, _, _, g4, _⟩ := hwt.getState h2
        refine ⟨?_, ?_⟩
        · simpa [World.table, h3] using g1
        · have hc := hw.chains
          rw [htab] at hc
          simpa [World.table, h3] using chains_same g4 hc
      · simp only [hsh, Bool.false_eq_true, if_false, Except.ok.injEq] at h
        subst h
        exact hw

theorem table_set (w : World S E C A H) (m : StateMap S E C A) (cs : List (Chain S E))
    (d : List (S × S × E)) :
    ({ w with stateMap := some m, chains := cs, declared := d } : World S E C A H).table = m :=
  rfl

theorem mem_of_index {α : Type} {l : List α} {k : Nat} {a : α} (h : l[k]? = some a) : a ∈ l :=
  List.mem_iff_getElem?.mpr ⟨k, h⟩

theorem step_inv_From {w w1 : World S E C A H} (hw : WorldInv w) (k : Nat) (stateId : S)
    (h : step w (Call.From k stateId) = .ok w1) : WorldInv w1 := by
  simp only [step] at h
  split at h
  · rename_i hd tb hk
    have hc : ChainOk w.table (Chain.single hd tb) := hw.chains _ (mem_of_index hk)
    obtain ⟨c1, c2, c3, c4, c5, c6⟩ := hc
    split at h
    · simp at h
    · rename_i hni
      unfold transitionBuilder.From at h
      cases hg : getState (some w.table) stateId with
      | error f => simp [hg] at h
      | ok p =>
        obtain ⟨m1, st⟩ := p
        simp only [hg, Except.ok.injEq] at h
        subst h
        obtain ⟨g1, g2, g3, g4, _⟩ := hw.table.getState hg
        refine ⟨g1, chains_set g4 hw.chains ?_⟩
        refine ⟨c1, fun hh => absurd hh hni, ?_, fun _ => rfl, ?_, c6⟩
        · intro s hs
          simp only [Option.some.injEq] at hs
          show (m1 s).isSome = true
          rw [← hs, g2, g3]; rfl
        · intro ht
          exact ⟨rfl, (c5 ht).2⟩
  · simp at h

theorem step_inv_Within {w w1 : World S E C A H} (hw : WorldInv w) (k : Nat) (stateId : S)
    (h : step w (Call.Within k stateId) = .ok w1) : WorldInv w1 := by
  simp only [step] at h
  split at h
  · rename_i hd tb hk
    have hc : ChainOk w.table (Chain.single hd tb) := hw.chains _ (mem_of_index hk)
    obtain ⟨c1, c2, c3, c4, c5, c6⟩ := hc
    split at h
    · rename_i hi
      unfold transitionBuilder.Within at h
      cases hg : getState (some w.table) stateId with
      | error f => simp [hg] at h
      | ok p =>
        obtain ⟨m1, st⟩ := p
        obtain ⟨g1, g2, g3, g4, _⟩ := hw.table.getState hg
        cases hg2 : getState (some m1) stateId with
        | error f => simp [hg, hg2] at h
        | ok p2 =>
          obtain ⟨m2, st2⟩ := p2
          simp only [hg, hg2, Except.ok.injEq] at h
          subst h
          obtain ⟨q1, q2, q3, q4, _⟩ := g1.getState hg2
          refine ⟨q1, chains_set (fun s hs => q4 s (g4 s hs)) hw.chains ?_⟩
          refine ⟨c1, fun _ => ⟨by simp [g2, q2], (c2 hi).2⟩, ?_, fun _ => rfl, fun _ => ⟨rfl, rfl⟩,
            c6⟩
          intro s hs
          simp only [Option.some.injEq] at hs
          show (m2 s).isSome = true
          rw [← hs, g2, q3]; rfl
    · simp at h
  · simp at h

theorem step_inv_FromAmong {w w1 : World S E C A H} (hw : WorldInv w) (k : Nat)
    (stateIds : List S) (h : step w (Call.FromAmong k stateIds) = .ok w1) : WorldInv w1 := by
  simp only [step] at h
  split at h
  · rename_i hd tb hk
    have hc : ChainOk w.table (Chain.multi hd tb) := hw.chains _ (mem_of_index hk)
    obtain ⟨c1, c2, c3⟩ := hc
    unfold transitionsBuilder.FromAmong at h
    cases hl : fromAmongLoop stateIds w.table tb.sources with
    | error f => simp [hl] at h
    | ok p =>
      obtain ⟨m1, srcs⟩ := p
      simp only [hl, Except.ok.injEq] at h
      subst h
      obtain ⟨g1, _, g3, g4, _⟩ := fromAmongLoop_inv stateIds _ _ _ _ hw.table hl c2
      exact ⟨g1, chains_set g4 hw.chains ⟨c1, g3, c3⟩⟩
  · simp at h

theorem step_inv_To {w w1 : World S E C A H} (hw : WorldInv w) (k : Nat) (stateId : S)
    (h : step w (Call.To k stateId) = .ok w1) : WorldInv w1 := by
  simp only [step] at h
  split at h
  · rename_i hd tb hk
    have hc : ChainOk w.table (Chain.single hd tb) := hw.chains _ (mem_of_index hk)
    obtain ⟨c1, c2, c3, c4, c5, c6⟩ := hc
    split at h
    · rename_i hfrom
      unfold transitionBuilder.To at h
      cases hg : getState (some w.table) stateId with
      | error f => simp [hg] at h
      | ok p =>
        obtain ⟨m1, st⟩ := p
        simp only [hg, Except.ok.injEq] at h
        subst h
        obtain ⟨g1, g2, g3, g4, _⟩ := hw.table.getState hg
        refine ⟨g1, chains_set g4 hw.chains ?_⟩
        refine ⟨c1, ?_, fun s hs => g4 s (c3 s hs), c4, fun _ => ⟨c4 hfrom, rfl⟩, c6⟩
        intro hi
        have := (c2 hi).2
        rw [hfrom] at this
        exact absurd this (by simp)
    · simp at h
  · rename_i hd tb hk
    have hc : ChainOk w.table (Chain.multi hd tb) := hw.chains _ (mem_of_index hk)
    obtain ⟨c1, c2, c3⟩ := hc
    split at h
    · unfold transitionsBuilder.To at h
      cases hg : getState (some w.table) stateId with
      | error f => simp [hg] at h
      | ok p =>
        obtain ⟨m1, st⟩ := p
        simp only [hg, Except.ok.injEq] at h
        subst h
        obtain ⟨g1, g2, g3, g4, _⟩ := hw.table.getState hg
        exact ⟨g1, chains_set g4 hw.chains ⟨c1, fun s hs => g4 s (c2 s hs), fun _ => rfl⟩⟩
    · simp at h
  · simp at h

theorem step_inv_On {w w1 : World S E C A H} (hw : WorldInv w) (k : Nat) (event : E)
    (h : step w (Call.On k event) = .ok w1) : WorldInv w1 := by
  simp only [step] at h
  split at h
  · rename_i hd tb hk
    have hc : ChainOk w.table (Chain.single hd tb) := hw.chains _ (mem_of_index hk)
    obtain ⟨c1, c2, c3, c4, c5, c6⟩ := hc
    split at h
    · rename_i hto
      unfold transitionBuilder.On at h
      cases hs : tb.source with
      | none => simp [hs] at h
      | some source =>
        cases ht : tb.target with
        | none => simp [hs, ht] at h
        | some target =>
          simp only [hs, ht] at h
          cases ha : addTransitionAt w.table source event target tb.t with
          | error f => simp [ha] at h
          | ok p =>
            obtain ⟨m1, r⟩ := p
            simp only [ha, Except.ok.injEq] at h
            subst h
            have hint : tb.t = TransitionType.INTERNAL → target = source := by
              intro hi
              have := (c2 hi).1
              rw [hs, ht] at this
              simp only [Option.some.injEq] at this
              exact this.symm
            have g1 := hw.table.addTransitionAt hint ha
            obtain ⟨_, _, _, _, _, _, gsome⟩ := addTransitionAt_ok hw.table.keys ha
            refine ⟨g1, chains_set (fun s hs => (gsome s).mpr hs) hw.chains ?_⟩
            refine ⟨c1, ?_, ?_, fun _ => rfl, fun _ => ⟨rfl, rfl⟩, fun _ => rfl⟩
            · intro hi
              have := c2 hi
              rw [hs, ht] at this
              exact this
            · intro s hs2
              exact (gsome s).mpr (c3 s (hs.trans hs2))
    · simp at h
  · rename_i hd tb hk
    have hc : ChainOk w.table (Chain.multi hd tb) := hw.chains _ (mem_of_index hk)
    obtain ⟨c1, c2, c3⟩ := hc
    split at h
    · unfold transitionsBuilder.On at h
      cases ht : tb.target with
      | none => simp [ht] at h
      | some target =>
        simp only [ht] at h
        cases hl : onLoop event target tb.t tb.sources w.table tb.transitions with
        | error f => simp [hl] at h
        | ok p =>
          obtain ⟨m1, rs⟩ := p
          simp only [hl, Except.ok.injEq] at h
          subst h
          obtain ⟨g1, g2⟩ := onLoop_inv event target tb.t (by rw [c1]; simp) tb.sources _ _ _ _ _
            hw.table hl
          refine ⟨g1, chains_set (fun s hs => (g2 s).mpr hs) hw.chains ?_⟩
          exact ⟨c1, fun s hs => (g2 s).mpr (c2 s hs), fun _ => by simp [ht]⟩
    · simp at h
  · simp at h

theorem step_inv_assign {w w1 : World S E C A H} (hw : WorldInv w) (k : Nat)
    (f : transition S E C A → transition S E C A) (hf : ∀ x, (f x).key = x.key)
    (h : (match w.chains[k]? with
      | some (Chain.single hd tb) =>
        if hd.onI then
          match (match tb.transition with
            | none => Except.error Fault.nilDeref
            | some r => Except.ok (w.table.modify r f)) with
          | .error e => Except.error e
          | .ok m => Except.ok { w with stateMap := some m }
        else .error .notOffered
      | some (Chain.multi hd tb) =>
        if hd.onI then
          .ok { w with stateMap := some (tb.transitions.foldl (fun acc r => acc.modify r f) w.table) }
        else .error .notOffered
      | none => .error .notOffered) = Except.ok w1) : WorldInv w1 := by
  split at h
  · split at h
    · rename_i hd tb hk hon
      cases ht : tb.transition with
      | none => simp [ht] at h
      | some r =>
        simp only [ht, Except.ok.injEq] at h
        subst h
        refine ⟨hw.table.modify r f hf, ?_⟩
        have hmono : ∀ s, (w.table s).isSome → ((w.table.modify r f) s).isSome :=
          fun s hs => by rw [modify_isSome]; exact hs
        exact chains_same hmono hw.chains
    · simp at h
  · split at h
    · rename_i hd tb hk hon
      simp only [Except.ok.injEq] at h
      subst h
      obtain ⟨g1, g2⟩ := TableInv.foldl_modify tb.transitions f hf w.table hw.table
      have hmono : ∀ s, (w.table s).isSome →
          ((tb.transitions.foldl (fun acc r => acc.modify r f) w.table) s).isSome :=
        fun s hs => by rw [g2]; exact hs
      exact ⟨g1, chains_same hmono hw.chains⟩
    · simp at h
  · simp at h

/-- Every call that returns keeps the invariant. -/
theorem step_inv {w w1 : World S E C A H} (hw : WorldInv w) (c : Call S E C A H)
    (h : step w c = .ok w1) : WorldInv w1 := by
  cases c with
  | SetFailCallback cb =>
    simp only [step, Except.ok.injEq] at h
    subst h
    exact ⟨hw.table, hw.chains⟩
  | SetCurrentStateFetcher f =>
    simp only [step, Except.ok.injEq] at h
    subst h
    exact ⟨hw.table, hw.chains⟩
  | ExternalTransition =>
    simp only [step, Except.ok.injEq] at h
    subst h
    refine ⟨hw.table, ?_⟩
    intro c hc
    simp only [List.mem_append, List.mem_singleton] at hc
    rcases hc with hc | hc
    · exact hw.chains c hc
    · subst hc
      simp [ChainOk, newTransitionBuilder]
  | ExternalTransitions =>
    simp only [step, Except.ok.injEq] at h
    subst h
    refine ⟨hw.table, ?_⟩
    intro c hc
    simp only [List.mem_append, List.mem_singleton] at hc
    rcases hc with hc | hc
    · exact hw.chains c hc
    · subst hc
      simp [ChainOk, newExternalTransitionsBuilder]
  | InternalTransition =>
    simp only [step, Except.ok.injEq] at h
    subst h
    refine ⟨hw.table, ?_⟩
    intro c hc
    simp only [List.mem_append, List.mem_singleton] at hc
    rcases hc with hc | hc
    · exact hw.chains c hc
    · subst hc
      simp [ChainOk, newTransitionBuilder]
  | From k stateId => exact step_inv_From hw k stateId h
  | FromAmong k stateIds => exact step_inv_FromAmong hw k stateIds h
  | Within k stateId => exact step_inv_Within hw k stateId h
  | To k stateId => exact step_inv_To hw k stateId h
  | On k event => exact step_inv_On hw k event h
  | When k condition =>
    exact step_inv_assign hw k (fun x => { x with condition := condition }) (fun _ => rfl) h
  | Perform k action =>
    exact step_inv_assign hw k (fun x => { x with action := action }) (fun _ => rfl) h
  | Build machineId =>
    simp only [step, Except.ok.injEq] at h
    subst h
    exact ⟨hw.table, hw.chains⟩
  | Verify source event =>
    simp only [step] at h
    cases hm : w.machine with
    | none => simp [hm] at h
    | some sm =>
      simp only [hm] at h
      refine afterCall_inv sm _ hw hm ?_ h
      intro v hv
      obtain ⟨m, m1, st, h1, h2, h3⟩ := Verify_stateMap sm source event v hv
      exact ⟨m, m1, source, st, h1, h2, h3⟩
  | VerifyWithFetcher event ctx =>
    simp only [step] at h
    cases hm : w.machine with
    | none => simp [hm] at h
    | some sm =>
      simp only [hm] at h
      refine afterCall_inv sm _ hw hm ?_ h
      intro v hv
      unfold StateMachine.VerifyWithFetcher at hv ⊢
      by_cases hr : sm.ready = true
      · simp only [hr, Bool.not_true, Bool.false_eq_true, if_false] at hv ⊢
        cases hf : sm.currentStateFetcher with
        | none => simp [hf] at hv
        | some f =>
          simp only [hf] at hv ⊢
          obtain ⟨m, m1, st, h1, h2, h3⟩ := Verify_stateMap sm (f ctx) event v hv
          exact ⟨m, m1, f ctx, st, h1, h2, h3⟩
      · simp [hr] at hv
  | FireEvent source event ctx =>
    simp only [step] at h
    cases hm : w.machine with
    | none => simp [hm] at h
    | some sm =>
      simp only [hm] at h
      refine afterCall_inv sm _ hw hm ?_ h
      intro v hv
      unfold StateMachine.FireEvent at hv ⊢
      by_cases hr : sm.ready = true
      · simp only [hr, Bool.not_true, Bool.false_eq_true, if_false] at hv ⊢
        obtain ⟨m, m1, st, h1, h2, h3⟩ := fire_stateMap sm source event ctx v hv
        exact ⟨m, m1, source, st, h1, h2, h3⟩
      · simp [hr] at hv
  | FireEventByFetcher event ctx =>
    simp only [step] at h
    cases hm : w.machine with
    | none => simp [hm] at h
    | some sm =>
      simp only [hm] at h
      refine afterCall_inv sm _ hw hm ?_ h
      intro v hv
      unfold StateMachine.FireEventByFetcher at hv ⊢
      by_cases hr : sm.ready = true
      · simp only [hr, Bool.not_true, Bool.false_eq_true, if_false] at hv ⊢
        cases hf : sm.currentStateFetcher with
        | none => simp [hf] at hv
        | some f =>
          simp only [hf] at hv ⊢
          obtain ⟨m, m1, st, h1, h2, h3⟩ := fire_stateMap sm (f ctx) event ctx v hv
          exact ⟨m, m1, f ctx, st, h1, h2, h3⟩
      · simp [hr] at hv

theorem run_inv (cs : List (Call S E C A H)) :
    ∀ (w w1 : World S E C A H), WorldInv w → run w cs = .ok w1 → WorldInv w1 := by
  induction cs with
  | nil =>
    intro w w1 hw h
    simp only [run, Except.ok.injEq] at h
    subst h
    exact hw
  | cons c rest ih =>
    intro w w1 hw h
    unfold run at h
    cases hs : step w c with
    | error f => simp [hs] at h
    | ok w2 =>
      simp only [hs] at h
      exact ih w2 w1 (step_inv hw c hs) h

theorem WorldInv.ofInit : WorldInv (World.init : World S E C A H) := by
  refine ⟨?_, ?_⟩
  · exact TableInv.ofEmpty
  · intro c hc
    simp [World.init] at hc

/-- Every world a program can reach satisfies the invariant. -/
theorem Reachable.inv {w : World S E C A H} (h : Reachable w) : WorldInv w := by
  obtain ⟨cs, hcs⟩ := h
  exact run_inv cs _ _ WorldInv.ofInit hcs

theorem reachable_after (cs : List (Call S E C A H))
    (h : (run (World.init : World S E C A H) cs).isOk = true) : Reachable (World.after cs) := by
  refine ⟨cs, ?_⟩
  unfold World.after
  cases hr : run (World.init : World S E C A H) cs with
  | error f => simp [hr, Except.isOk, Except.toBool] at h
  | ok w => rfl

theorem built_after (cs : List (Call S E C A H))
    (h : (run (World.init : World S E C A H) cs).isOk = true)
    (hm : (World.after cs).machine.isSome = true) : BuiltMachine (machineAfter cs) := by
  refine ⟨World.after cs, reachable_after cs h, ?_⟩
  unfold machineAfter
  cases hmm : (World.after cs).machine with
  | none => simp [hmm] at hm
  | some m => rfl

/-- A built machine is ready, has a handler, and its table, when allocated, is the Builder's. -/
theorem built_fields {w : World S E C A H} {m : StateMachine S E C A H}
    (hm : w.machine = some m) :
    m.ready = true ∧ (∃ cb, m.failCallback = some cb) ∧
      (∀ sm, m.stateMap = some sm → w.table = sm) := by
  unfold World.machine at hm
  cases hb : w.statemachine with
  | none => simp [hb] at hm
  | some b =>
    simp only [hb, Option.some.injEq] at hm
    subst hm
    refine ⟨rfl, ⟨b.failCallback, rfl⟩, ?_⟩
    intro sm hsm
    by_cases hsh : b.shared = true
    · simp only [hsh, if_true] at hsm
      simp [World.table, hsm]
    · simp [hsh] at hsm

theorem built_table {m : StateMachine S E C A H} (hb : BuiltMachine m)
    {sm : StateMap S E C A} (hsm : m.stateMap = some sm) :
    m.ready = true ∧ (∃ cb, m.failCallback = some cb) ∧ ∃ d, TableInv sm d := by
  obtain ⟨w, hr, hm⟩ := hb
  obtain ⟨h1, h2, h3⟩ := built_fields hm
  refine ⟨h1, h2, w.declared, ?_⟩
  rw [← h3 sm hsm]
  exact hr.inv.table

end invariant

/-! ## Firing -/

section firing

set_option linter.unusedSectionVars false

variable {S E C A H : Type} [DecidableEq S] [DecidableEq E]

theorem tableAfterLookup_candidates (sm : StateMap S E C A) (s s1 : S) (e1 : E) :
    candidates (tableAfterLookup sm s) s1 e1 = candidates sm s1 e1 := by
  unfold tableAfterLookup
  cases h : sm s with
  | some st => rfl
  | none =>
    by_cases hs : s1 = s
    · subst hs
      simp [candidates, h, state.transitionsOfEvent, eventTransitions.get]
    · exact candidates_update_ne sm s s1 _ e1 hs

theorem tableAfterLookup_isSome (sm : StateMap S E C A) (s s1 : S) :
    ((tableAfterLookup sm s) s1).isSome = true ↔ ((sm s1).isSome = true ∨ s1 = s) := by
  unfold tableAfterLookup
  cases h : sm s with
  | some st =>
    constructor
    · intro h1; exact Or.inl h1
    · intro h1
      rcases h1 with h1 | h1
      · exact h1
      · subst h1; simp [h]
  | none =>
    by_cases hs : s1 = s
    · subst hs; simp
    · simp [Function.update_noteq hs, hs]

theorem getState_alloc (sm : StateMap S E C A) (s : S) :
    ∃ st, getState (some sm) s = .ok (tableAfterLookup sm s, st) ∧
      ∀ e, st.transitionsOfEvent e = candidates sm s e := by
  unfold tableAfterLookup
  rcases getState_some_cases sm s with ⟨st, hst, hg⟩ | ⟨hn, hg⟩
  · refine ⟨st, by simp [hst, hg], ?_⟩
    intro e
    simp [candidates, hst]
  · refine ⟨{ id := s, eventTransitions := { transitions := fun _ => [] } }, ?_, ?_⟩
    · simp only [hn, hg]
    · intro e
      simp [candidates, hn, state.transitionsOfEvent, eventTransitions.get]

/-- The whole outcome of `routeTransition` on an allocated table. -/
theorem routeTransition_alloc (m : StateMachine S E C A H) (sm : StateMap S E C A)
    (hsm : m.stateMap = some sm) (s : S) (e : E) (ctx : C) :
    m.routeTransition s e ctx =
      { stateMap := some (tableAfterLookup sm s),
        trace := (routeLoop (H := H) ctx (candidates sm s e) none).1,
        result := .ok (routeLoop (H := H) ctx (candidates sm s e) none).2 } := by
  obtain ⟨st, hg, hc⟩ := getState_alloc sm s
  unfold StateMachine.routeTransition
  rw [hsm, hg]
  simp only [hc]
  by_cases hemp : (candidates sm s e).isEmpty = true
  · have : candidates sm s e = [] := List.isEmpty_iff.mp hemp
    simp [this, routeLoop]
  · simp [hemp]

theorem routeLoop_none (ctx : C) (ts : List (transition S E C A))
    (acc : Option (transition S E C A))
    (hno : ∀ x ∈ ts, unguarded x = false ∧ guardHolds ctx x = false) :
    routeLoop (H := H) ctx ts acc = (ts.map (conditionEffect ctx false), acc) := by
  induction ts with
  | nil => rfl
  | cons x rest ih =>
    have hx := hno x (List.mem_cons_self _ _)
    have hrest := ih (fun y hy => hno y (List.mem_cons_of_mem _ hy))
    cases hc : x.condition with
    | none => simp [unguarded, hc] at hx
    | some c =>
      have : c ctx = false := by simpa [guardHolds, hc] using hx.2
      simp [routeLoop, hc, this, hrest, conditionEffect]

theorem routeLoop_trace_conditions (ctx : C) (ts : List (transition S E C A))
    (acc : Option (transition S E C A)) :
    ∀ ef ∈ (routeLoop (H := H) ctx ts acc).1, Effect.isCondition ef = true := by
  induction ts generalizing acc with
  | nil => simp [routeLoop]
  | cons x rest ih =>
    cases hc : x.condition with
    | none => simpa [routeLoop, hc] using ih (some x)
    | some c =>
      by_cases hcc : c ctx = true
      · simp [routeLoop, hc, hcc, Effect.isCondition]
      · simpa [routeLoop, hc, hcc, Effect.isCondition] using ih acc

/-- Each guard is evaluated at most as often as its key occurs among the candidates. -/
theorem routeLoop_trace_count (ctx : C) (t : transition S E C A)
    (ts : List (transition S E C A)) (acc : Option (transition S E C A))
    (hts : ∀ x ∈ ts, x.source = t.source ∧ x.event = t.event) :
    ((routeLoop (H := H) ctx ts acc).1.filter (Effect.isConditionOf t)).length ≤
      (ts.map (fun x => x.target)).count t.target := by
  induction ts generalizing acc with
  | nil => simp [routeLoop]
  | cons x rest ih =>
    have hrest : ∀ y ∈ rest, y.source = t.source ∧ y.event = t.event :=
      fun y hy => hts y (List.mem_cons_of_mem _ hy)
    have hx := hts x (List.mem_cons_self _ _)
    have hcount : List.count t.target (List.map (fun x => x.target) rest) ≤
        List.count t.target (List.map (fun x => x.target) (x :: rest)) := by
      rw [List.map_cons, List.count_cons]
      exact Nat.le_add_right _ _
    cases hc : x.condition with
    | none =>
      simp only [routeLoop, hc]
      exact le_trans (ih (some x) hrest) hcount
    | some c =>
      by_cases hm : Effect.isConditionOf (H := H) t
          (Effect.condition x.source x.target x.event ctx (c ctx)) = true
      · have hxt : x.target = t.target := by
          simp only [Effect.isConditionOf, Bool.and_eq_true, decide_eq_true_eq] at hm
          exact hm.1.2
        have hone : List.count t.target (List.map (fun x => x.target) (x :: rest)) =
            List.count t.target (List.map (fun x => x.target) rest) + 1 := by
          rw [List.map_cons, List.count_cons]
          simp [hxt]
        rw [hone]
        by_cases hcc : c ctx = true
        · rw [hcc] at hm
          simp [routeLoop, hc, hcc, List.filter_cons, hm]
        · have hcf : c ctx = false := by simpa using hcc
          rw [hcf] at hm
          simp only [routeLoop, hc, hcf, Bool.false_eq_true, if_false, List.filter_cons, hm,
            if_true, List.length_cons]
          exact Nat.succ_le_succ (ih acc hrest)
      · have hnot : Effect.isConditionOf (H := H) t
            (Effect.condition x.source x.target x.event ctx (c ctx)) = false := by
          simpa using hm
        by_cases hcc : c ctx = true
        · rw [hcc] at hnot
          simp [routeLoop, hc, hcc, List.filter_cons, hnot]
        · have hcf : c ctx = false := by simpa using hcc
          rw [hcf] at hnot
          simp only [routeLoop, hc, hcf, Bool.false_eq_true, if_false, List.filter_cons, hnot]
          exact le_trans (ih acc hrest) hcount

/-- The whole outcome of `FireEvent` on a built machine with an allocated table. -/
theorem FireEvent_alloc (m : StateMachine S E C A H) (sm : StateMap S E C A)
    (hready : m.ready = true) (hsm : m.stateMap = some sm) (s : S) (e : E) (ctx : C) :
    m.FireEvent s e ctx = m.fire s e ctx ∧
    (m.fire s e ctx).stateMap = some (tableAfterLookup sm s) := by
  refine ⟨by simp [StateMachine.FireEvent, hready], ?_⟩
  unfold StateMachine.fire
  rw [routeTransition_alloc m sm hsm]
  simp only
  split
  · rename_i h; simp at h
  · split
    · rfl
    · split <;> rfl
  · rfl

theorem candidates_shape {sm : StateMap S E C A} {d : List (S × S × E)} (h : TableInv sm d)
    {s : S} {e : E} {x : transition S E C A} (hx : x ∈ candidates sm s e) :
    x.source = s ∧ x.event = e ∧ (x.t = TransitionType.INTERNAL → x.target = s) :=
  h.shape s e x.key (List.mem_map_of_mem _ hx)

theorem targets_nodup {sm : StateMap S E C A} {d : List (S × S × E)} (h : TableInv sm d)
    (s : S) (e : E) : ((candidates sm s e).map (fun x => x.target)).Nodup := by
  have := h.nodup s e
  simpa [keysAt, List.map_map, Function.comp_def, transition.key] using this

theorem routeLoop_mem (ctx : C) (ts : List (transition S E C A))
    (acc : Option (transition S E C A)) (t : transition S E C A)
    (h : (routeLoop (H := H) ctx ts acc).2 = some t) : t ∈ ts ∨ acc = some t := by
  induction ts generalizing acc with
  | nil => right; simpa [routeLoop] using h
  | cons x rest ih =>
    cases hc : x.condition with
    | none =>
      simp only [routeLoop, hc] at h
      rcases ih (some x) h with h1 | h1
      · exact Or.inl (List.mem_cons_of_mem _ h1)
      · simp only [Option.some.injEq] at h1
        exact Or.inl (h1 ▸ List.mem_cons_self _ _)
    | some c =>
      by_cases hcc : c ctx = true
      · simp only [routeLoop, hc, hcc, if_true, Option.some.injEq] at h
        exact Or.inl (h ▸ List.mem_cons_self _ _)
      · simp only [routeLoop, hc, hcc] at h
        rcases ih acc h with h1 | h1
        · exact Or.inl (List.mem_cons_of_mem _ h1)
        · exact Or.inr h1

/-- The calls `transit` makes for a valid transition when the guard is not checked again. -/
theorem transit_valid (t : transition S E C A) (ctx : C)
    (hv : t.t = TransitionType.INTERNAL → t.target = t.source) :
    t.transit (H := H) ctx false =
      (t.action.toList.map (fun a => Effect.action a t.source t.target t.event ctx), t.target) := by
  have hver : t.verify = .ok () := by
    unfold transition.verify
    by_cases hi : t.t = TransitionType.INTERNAL
    · simp [hi, (hv hi).symm]
    · simp [hi]
  unfold transition.transit
  rw [hver]
  cases ha : t.action <;> simp

/-- C3. On a machine built through the Builder API, when routing selects the transition `t`
for `(s, e)` on `ctx`, `FireEvent(s, e, ctx)` returns the target of `t`; after the guard
evaluations of the routing it makes exactly one call, the action of `t` with
`(s, t.target, e, ctx)`, when `t` has an action, and no call when it has none; the guard of
`t` is evaluated at most once in the whole call. -/
theorem C3_fire_selected (m : StateMachine S E C A H) (hb : BuiltMachine m) (s : S) (e : E)
    (ctx : C) (t : transition S E C A)
    (hsel : (m.routeTransition s e ctx).result = .ok (some t)) :
    (m.FireEvent s e ctx).result = .ok t.target ∧
    (m.FireEvent s e ctx).trace = (m.routeTransition s e ctx).trace ++
      t.action.toList.map (fun a => Effect.action a s t.target e ctx) ∧
    (∀ ef ∈ (m.routeTransition s e ctx).trace, Effect.isCondition ef = true) ∧
    ((m.FireEvent s e ctx).trace.filter (Effect.isConditionOf t)).length ≤ 1 := by
  obtain ⟨sm, _, _, hsm, _, _⟩ := routeTransition_stateMap m s e ctx (some t) hsel
  obtain ⟨hready, _, d, hinv⟩ := built_table hb hsm
  obtain ⟨hfe, _⟩ := FireEvent_alloc m sm hready hsm s e ctx
  have hroute := routeTransition_alloc m sm hsm s e ctx
  rw [hroute] at hsel
  simp only [Except.ok.injEq] at hsel
  have hmem : t ∈ candidates sm s e := by
    rcases routeLoop_mem ctx _ none t hsel with h1 | h1
    · exact h1
    · simp at h1
  obtain ⟨hsrc, hev, hint⟩ := candidates_shape hinv hmem
  have htr := transit_valid (H := H) t ctx (fun hi => by rw [hint hi, hsrc])
  have hfire : m.fire s e ctx =
      { stateMap := some (tableAfterLookup sm s),
        trace := (routeLoop (H := H) ctx (candidates sm s e) none).1 ++
          t.action.toList.map (fun a => Effect.action a s t.target e ctx),
        result := .ok t.target } := by
    unfold StateMachine.fire
    rw [hroute]
    simp only [hsel, htr, hsrc, hev]
  rw [hfe, hfire, hroute]
  refine ⟨rfl, rfl, routeLoop_trace_conditions ctx _ none, ?_⟩
  simp only [List.filter_append, List.length_append]
  have hact : (t.action.toList.map
      (fun a => Effect.action (H := H) a s t.target e ctx)).filter (Effect.isConditionOf t)
      = [] := by
    cases t.action <;> simp [Effect.isConditionOf]
  rw [hact]
  have hcount := routeLoop_trace_count (H := H) ctx t (candidates sm s e) none
    (fun x hx => by
      obtain ⟨h1, h2, _⟩ := candidates_shape hinv hx
      exact ⟨h1.trans hsrc.symm, h2.trans hev.symm⟩)
  have hnd := List.nodup_iff_count_le_one.mp (targets_nodup hinv s e) t.target
  simpa using le_trans hcount hnd

/-- Witness for C3: the test machine fired on `(foo, ping)`. -/
theorem C3_fire_selected_witness :
    ((machineAfter testProgram).routeTransition "foo" "ping" 0).result =
      .ok (some { source := "foo", target := "bar", event := "ping",
                  condition := some (fun _ => true), t := TransitionType.EXTERNAL,
                  action := some "print" }) ∧
    ((machineAfter testProgram).FireEvent "foo" "ping" 0).result = .ok "bar" ∧
    ((machineAfter testProgram).FireEvent "foo" "ping" 0).trace =
      ((machineAfter testProgram).routeTransition "foo" "ping" 0).trace ++
        [Effect.action "print" "foo" "bar" "ping" 0] :=
  have h := C3_fire_selected (machineAfter testProgram) (built_after testProgram rfl rfl)
    "foo" "ping" 0
    { source := "foo", target := "bar", event := "ping", condition := some (fun _ => true),
      t := TransitionType.EXTERNAL, action := some "print" } rfl
  ⟨rfl, h.1, h.2.1⟩

/-- C2 as stated fails.  With the fatal handler (`AlertFailCallback`) configured, firing an
event that has no transition calls `OnFail`, which ends the process: `FireEvent` does not
return the source.  And with the no-op handler the call has an effect besides returning the
source: a source the table did not know is a known state afterwards. -/
theorem C2_counterexample_alert :
    BuiltMachine (machineAfter alertProgram) ∧
    (machineAfter alertProgram).stateMap.isSome = true ∧
    (candidates (World.after alertProgram).table "foo" "xxx").length = 0 ∧
    ((machineAfter alertProgram).FireEvent "foo" "xxx" 0).result ≠ .ok "foo" ∧
    ((machineAfter alertProgram).FireEvent "foo" "xxx" 0).result = .error Fault.alertFatal ∧
    ((machineAfter alertProgram).FireEvent "foo" "xxx" 0).trace
      = [Effect.onFail FailCallback.alert "foo" "xxx" 0] ∧
    BuiltMachine (machineAfter testProgram) ∧
    (machineAfter testProgram).failCallback = some FailCallback.numb ∧
    (machineAfter testProgram).stateMap.map (fun sm => (sm "qux").isSome) = some false ∧
    ((machineAfter testProgram).FireEvent "qux" "xxx" 0).result = .ok "qux" ∧
    ((machineAfter testProgram).FireEvent "qux" "xxx" 0).stateMap.map
      (fun sm => (sm "qux").isSome) = some true := by
  refine ⟨built_after alertProgram rfl rfl, rfl, rfl, by decide, rfl, rfl,
    built_after testProgram rfl rfl, rfl, rfl, rfl, rfl⟩

/-- C2, amended. On a built machine whose table is allocated, when no transition applies to
`(s, e)` on `ctx` (none is declared, or every candidate is guarded and every guard is false):
`FireEvent` evaluates each candidate's guard once, calls `OnFail` of the machine's handler
exactly once, with exactly `(s, e, ctx)`, and calls no action; it returns `s` unless the
handler is the fatal one, whose `OnFail` ends the process; the candidate lists are unchanged
and the only change to the table is that `s` is now a known state.  A Builder on which no
handler was set gives the machine the no-op handler. -/
theorem C2_no_transition_amended (m : StateMachine S E C A H) (hb : BuiltMachine m)
    (sm : StateMap S E C A) (hsm : m.stateMap = some sm) (s : S) (e : E) (ctx : C)
    (hno : ∀ x ∈ candidates sm s e, unguarded x = false ∧ guardHolds ctx x = false) :
    ∃ cb, m.failCallback = some cb ∧
      (m.FireEvent s e ctx).trace =
        (candidates sm s e).map (conditionEffect ctx false) ++ [Effect.onFail cb s e ctx] ∧
      (m.FireEvent s e ctx).result = afterOnFail cb s ∧
      (∃ sm1, (m.FireEvent s e ctx).stateMap = some sm1 ∧
        (∀ s1 e1, candidates sm1 s1 e1 = candidates sm s1 e1) ∧
        (∀ s1, (sm1 s1).isSome = true ↔ ((sm s1).isSome = true ∨ s1 = s))) ∧
      (∀ (w0 : World S E C A H) (machineId : String), w0.failCallback = none →
        (w0.Build machineId).statemachine.map (fun b => b.failCallback)
          = some FailCallback.numb) := by
  obtain ⟨hready, ⟨cb, hcb⟩, _⟩ := built_table hb hsm
  obtain ⟨hfe, hmap⟩ := FireEvent_alloc m sm hready hsm s e ctx
  refine ⟨cb, hcb, ?_, ?_, ⟨tableAfterLookup sm s, ?_, tableAfterLookup_candidates sm s,
    tableAfterLookup_isSome sm s⟩, ?_⟩
  · rw [hfe]
    unfold StateMachine.fire
    rw [routeTransition_alloc m sm hsm, routeLoop_none ctx _ none hno]
    simp only [hcb]
    cases cb <;> simp [FailCallback.OnFail]
  · rw [hfe]
    unfold StateMachine.fire
    rw [routeTransition_alloc m sm hsm, routeLoop_none ctx _ none hno]
    simp only [hcb]
    cases cb <;> simp [FailCallback.OnFail, afterOnFail]
  · rw [hfe]; exact hmap
  · intro w0 machineId h0
    simp [World.Build, h0]

/-- Witness for C2, amended: the guarded machine fired on `(foo, ping)` with a context on which
the guard is false. -/
theorem C2_no_transition_amended_witness :
    (∀ x ∈ candidates (World.after guardedProgram).table "foo" "ping",
        unguarded x = false ∧ guardHolds 3 x = false) ∧
    ∃ cb, (machineAfter guardedProgram).failCallback = some cb ∧
      ((machineAfter guardedProgram).FireEvent "foo" "ping" 3).trace =
        (candidates (World.after guardedProgram).table "foo" "ping").map
            (conditionEffect 3 false) ++ [Effect.onFail cb "foo" "ping" 3] ∧
      ((machineAfter guardedProgram).FireEvent "foo" "ping" 3).result = afterOnFail cb "foo" ∧
      (∃ sm1, ((machineAfter guardedProgram).FireEvent "foo" "ping" 3).stateMap = some sm1 ∧
        (∀ s1 e1, candidates sm1 s1 e1
            = candidates (World.after guardedProgram).table s1 e1) ∧
        (∀ s1, (sm1 s1).isSome = true ↔
            (((World.after guardedProgram).table s1).isSome = true ∨ s1 = "foo"))) ∧
      (∀ (w0 : World String String Nat String Unit) (machineId : String),
        w0.failCallback = none →
        (w0.Build machineId).statemachine.map (fun b => b.failCallback)
          = some FailCallback.numb) := by
  have hno : ∀ x ∈ candidates (World.after guardedProgram).table "foo" "ping",
      unguarded x = false ∧ guardHolds 3 x = false := by
    intro x hx
    have hc : candidates (World.after guardedProgram).table "foo" "ping" =
        [{ source := "foo", target := "bar", event := "ping",
           condition := some (fun ctx => decide (ctx = 7)),
           t := TransitionType.EXTERNAL, action := some "print" }] := rfl
    rw [hc] at hx
    simp only [List.mem_singleton] at hx
    subst hx
    exact ⟨rfl, rfl⟩
  exact ⟨hno, C2_no_transition_amended (machineAfter guardedProgram)
    (built_after guardedProgram rfl rfl) (World.after guardedProgram).table rfl
    "foo" "ping" 3 hno⟩

end firing

/-! ## Verify -/

section verifying

set_option linter.unusedSectionVars false

variable {S E C A H : Type} [DecidableEq S] [DecidableEq E]

theorem isEmpty_of_length_eq {α : Type} (l l1 : List α) (h : l.length = l1.length) :
    l.isEmpty = l1.isEmpty := by
  cases l <;> cases l1 <;> simp_all

theorem run_append (cs : List (Call S E C A H)) (c : Call S E C A H) :
    ∀ (w w1 w2 : World S E C A H), run w cs = .ok w1 → step w1 c = .ok w2 →
      run w (cs ++ [c]) = .ok w2 := by
  induction cs with
  | nil =>
    intro w w1 w2 h1 h2
    simp only [run, Except.ok.injEq] at h1
    subst h1
    simp [run, h2]
  | cons x rest ih =>
    intro w w1 w2 h1 h2
    unfold run at h1
    cases hs : step w x with
    | error f => simp [hs] at h1
    | ok w3 =>
      simp only [hs] at h1
      simp only [List.cons_append, run, hs]
      exact ih w3 w1 w2 h1 h2

theorem Reachable.step {w w1 : World S E C A H} (hr : Reachable w) (c : Call S E C A H)
    (h : step w c = .ok w1) : Reachable w1 := by
  obtain ⟨cs, hcs⟩ := hr
  exact ⟨cs ++ [c], run_append cs c _ _ _ hcs h⟩

theorem Build_machine (w : World S E C A H) (machineId : String) :
    (w.Build machineId).machine = some (w.buildMachine machineId) := by
  unfold World.machine World.Build World.buildMachine
  cases h : w.stateMap <;> simp [h]

theorem built_buildMachine {w : World S E C A H} (hr : Reachable w) (machineId : String) :
    BuiltMachine (w.buildMachine machineId) :=
  ⟨w.Build machineId, hr.step (Call.Build machineId) rfl, Build_machine w machineId⟩

/-- The whole outcome of `Verify` on a built machine with an allocated table. -/
theorem Verify_alloc (m : StateMachine S E C A H) (sm : StateMap S E C A)
    (hready : m.ready = true) (hsm : m.stateMap = some sm) (s : S) (e : E) :
    m.Verify s e =
      { stateMap := some (tableAfterLookup sm s), trace := [],
        result := .ok (!(candidates sm s e).isEmpty) } := by
  obtain ⟨st, hg, hc⟩ := getState_alloc sm s
  unfold StateMachine.Verify
  simp [hready, hsm, hg, hc]

theorem Verify_nil (m : StateMachine S E C A H) (hready : m.ready = true)
    (hsm : m.stateMap = none) (s : S) (e : E) :
    (m.Verify s e).result = .error Fault.nilMapWrite ∧ (m.Verify s e).trace = [] := by
  unfold StateMachine.Verify
  simp [hready, hsm, getState]

theorem declaredTargets_ne_nil (d : List (S × S × E)) (s : S) (e : E) :
    declaredTargets d s e ≠ [] ↔ ∃ t, (s, t, e) ∈ d := by
  unfold declaredTargets
  rw [Ne, List.map_eq_nil_iff, List.filter_eq_nil_iff]
  constructor
  · intro h
    by_contra hne
    apply h
    intro x hx hdec
    simp only [decide_eq_true_eq] at hdec
    apply hne
    refine ⟨x.2.1, ?_⟩
    obtain ⟨x1, x2, x3⟩ := x
    simp only at hdec
    rw [← hdec.1, ← hdec.2]
    exact hx
  · rintro ⟨t, ht⟩ h
    exact h (s, t, e) ht (by simp)

/-- C4. For the machine `Build` returns from any reachable Builder: `Verify(s, e)` returns true
if and only if a transition with source `s` and event `e` was declared; on an allocated table
it returns a boolean, true exactly when one was declared; it evaluates no guard and makes no
call, takes no context, and returns the same whatever guard any record of the table is given. -/
theorem C4_verify_iff_declared (w : World S E C A H) (hr : Reachable w) (machineId : String)
    (s : S) (e : E) :
    BuiltMachine (w.buildMachine machineId) ∧
    (((w.buildMachine machineId).Verify s e).result = .ok true ↔ ∃ t, (s, t, e) ∈ w.declared) ∧
    (w.stateMap.isSome = true →
      ((w.buildMachine machineId).Verify s e).result
        = .ok (decide (declaredTargets w.declared s e ≠ []))) ∧
    ((w.buildMachine machineId).Verify s e).trace = [] ∧
    (∀ (r : TransitionRef S E) (g : Option (Condition C)),
      (((w.buildMachine machineId).withGuard r g).Verify s e).result
        = ((w.buildMachine machineId).Verify s e).result) := by
  have hinv := hr.inv.table
  refine ⟨built_buildMachine hr machineId, ?_⟩
  cases hsm : w.stateMap with
  | none =>
    have htab : w.table = fun _ => none := by simp [World.table, hsm]
    have hnone : ¬ ∃ t, (s, t, e) ∈ w.declared := by
      rw [← declaredTargets_ne_nil, ← hinv.hist s e, htab]
      simp [keysAt, candidates]
    obtain ⟨h1, h2⟩ := Verify_nil (w.buildMachine machineId) rfl hsm s e
    refine ⟨?_, by simp, h2, ?_⟩
    · rw [h1]
      simp [hnone]
    · intro r g
      rw [h1]
      exact (Verify_nil ((w.buildMachine machineId).withGuard r g) rfl
        (by simp [StateMachine.withGuard, World.buildMachine, hsm]) s e).1
  | some sm =>
    have htab : w.table = sm := by simp [World.table, hsm]
    rw [htab] at hinv
    have hv := Verify_alloc (w.buildMachine machineId) sm rfl hsm s e
    have hlen : (candidates sm s e).isEmpty = (declaredTargets w.declared s e).isEmpty := by
      rw [← hinv.hist s e]
      unfold keysAt
      cases candidates sm s e <;> simp
    have hdec : (!(candidates sm s e).isEmpty) = decide (declaredTargets w.declared s e ≠ []) := by
      rw [hlen]
      cases declaredTargets w.declared s e <;> simp
    refine ⟨?_, ?_, ?_, ?_⟩
    · rw [hv, ← declaredTargets_ne_nil]
      simp only [hdec, Except.ok.injEq, decide_eq_true_eq]
    · intro _
      rw [hv, hdec]
    · rw [hv]
    · intro r g
      rw [hv]
      have hv2 := Verify_alloc ((w.buildMachine machineId).withGuard r g)
        (sm.modify r (fun x => { x with condition := g })) rfl
        (by simp [StateMachine.withGuard, World.buildMachine, hsm]) s e
      rw [hv2]
      simp only [modify_candidates, Except.ok.injEq]
      split
      · have hl := List.length_modify
          (fun (x : transition S E C A) => { x with condition := g }) r.index (candidates sm s e)
        rw [isEmpty_of_length_eq _ _ hl]
      · rfl

/-- Witness for C4: a Builder whose only declaration has a guard that never holds; the machine
built from it verifies `(foo, ping)`. -/
theorem C4_verify_iff_declared_witness :
    Reachable (World.after falseGuardProgram) ∧
    (candidates (World.after falseGuardProgram).table "foo" "ping").map (guardHolds 0) = [false] ∧
    (((World.after falseGuardProgram).buildMachine "m").Verify "foo" "ping").result = .ok true :=
  have h := C4_verify_iff_declared (World.after falseGuardProgram)
    (reachable_after falseGuardProgram rfl) "m" "foo" "ping"
  ⟨reachable_after falseGuardProgram rfl, rfl, h.2.1.mpr ⟨"bar", by decide⟩⟩

end verifying

/-! ## Declaring transitions -/

section declaring

set_option linter.unusedSectionVars false

variable {S E C A H : Type} [DecidableEq S] [DecidableEq E]

theorem addTransition_error_iff (st : state S E C A) (e : E) (t : S) (kind : TransitionType)
    (hshape : ∀ x ∈ st.transitionsOfEvent e, x.source = st.id ∧ x.event = e) :
    (st.addTransition e t kind = .error Fault.alreadyExist ↔
      ∃ x ∈ st.transitionsOfEvent e, x.target = t) ∧
    ((¬ ∃ x ∈ st.transitionsOfEvent e, x.target = t) →
      st.addTransition e t kind = .ok
        (st.withCandidates e (st.transitionsOfEvent e ++ [newRecord st.id e t kind]),
         newRecord st.id e t kind)) := by
  have hsame : ∀ x ∈ st.transitionsOfEvent e,
      sameTransition x (newRecord (C := C) (A := A) st.id e t kind) = decide (x.target = t) :=
    fun x hx => sameTransition_newRecord x st.id t e kind (hshape x hx)
  have hok : eventTransitions.verify (st.transitionsOfEvent e)
      (newRecord (C := C) (A := A) st.id e t kind) = .ok () ↔
      ¬ ∃ x ∈ st.transitionsOfEvent e, x.target = t := by
    rw [verify_ok_iff]
    constructor
    · rintro h ⟨x, hx, hxt⟩
      have := h x hx
      rw [hsame x hx] at this
      simp [hxt] at this
    · intro h x hx
      rw [hsame x hx]
      simp only [decide_eq_false_iff_not]
      exact fun hxt => h ⟨x, hx, hxt⟩
  have hadd : st.addTransition e t kind =
      match eventTransitions.verify (st.transitionsOfEvent e)
          (newRecord (C := C) (A := A) st.id e t kind) with
      | .error f => .error f
      | .ok _ => .ok
        (st.withCandidates e (st.transitionsOfEvent e ++ [newRecord st.id e t kind]),
         newRecord st.id e t kind) := by
    unfold state.addTransition
    simp only [put_eq]
    unfold newRecord state.transitionsOfEvent eventTransitions.get state.withCandidates
    cases eventTransitions.verify (st.eventTransitions.transitions e)
      ({ source := st.id, target := t, event := e, condition := none, t := kind,
         action := none } : transition S E C A) <;> rfl
  rcases verify_cases (st.transitionsOfEvent e)
      (newRecord (C := C) (A := A) st.id e t kind) with hv | hv
  · have hne := hok.mp hv
    rw [hadd, hv]
    exact ⟨⟨fun h => by simp at h, fun h => absurd h hne⟩, fun _ => rfl⟩
  · have hex : ∃ x ∈ st.transitionsOfEvent e, x.target = t := by
      by_contra hne
      rw [hok.mpr hne] at hv
      simp at hv
    rw [hadd, hv]
    exact ⟨⟨fun _ => hex, fun _ => rfl⟩, fun h => absurd hex h⟩

/-- C5. In every table a program can reach, for every state `s` of it, target `t`, event `e`
and kind: `addTransition(e, t, kind)` on `s` ends with the construction error exactly when the
candidate list of `s` for `e` already holds a transition with target `t`, whatever its kind,
guard and action; otherwise it returns. -/
theorem C5_duplicate_rejected (w : World S E C A H) (hr : Reachable w) (s : S)
    (st : state S E C A) (hst : w.table s = some st) (e : E) (t : S) (kind : TransitionType) :
    (st.addTransition e t kind = .error Fault.alreadyExist ↔
      ∃ x ∈ st.transitionsOfEvent e, x.target = t) ∧
    ((¬ ∃ x ∈ st.transitionsOfEvent e, x.target = t) →
      ∃ st1 tr, st.addTransition e t kind = .ok (st1, tr)) := by
  have hinv := hr.inv.table
  have hid : st.id = s := hinv.keys s st hst
  have hc : candidates w.table s e = st.transitionsOfEvent e := by
    simp [candidates, hst]
  have hshape : ∀ x ∈ st.transitionsOfEvent e, x.source = st.id ∧ x.event = e := by
    intro x hx
    rw [← hc] at hx
    obtain ⟨h1, h2, _⟩ := candidates_shape hinv hx
    exact ⟨h1.trans hid.symm, h2⟩
  obtain ⟨h1, h2⟩ := addTransition_error_iff st e t kind hshape
  exact ⟨h1, fun hne => ⟨_, _, h2 hne⟩⟩

/-- Witness for C5: in the table of the test program, `foo -[ping]-> bar` cannot be declared
again, whatever the kind. -/
theorem C5_duplicate_rejected_witness :
    (World.after testProgram).table "foo" = some (stateAt (World.after testProgram) "foo") ∧
    (stateAt (World.after testProgram) "foo").addTransition "ping" "bar" TransitionType.LOCAL
      = .error Fault.alreadyExist :=
  ⟨rfl, (C5_duplicate_rejected (World.after testProgram) (reachable_after testProgram rfl)
      "foo" (stateAt (World.after testProgram) "foo") rfl "ping" "bar"
      TransitionType.LOCAL).1.mpr
    ⟨{ source := "foo", target := "bar", event := "ping", condition := some (fun _ => true),
       t := TransitionType.EXTERNAL, action := some "print" }, mem_of_index (k := 0) rfl, rfl⟩⟩

/-- The loop of declarations on one `(source, event)` with fresh, pairwise different targets
returns and appends one record per target, in order, touching nothing else. -/
theorem declareAll_spec (source : S) (event : E) (decls : List (S × TransitionType)) :
    ∀ (m : StateMap S E C A), KeysOk m → (m source).isSome = true →
      (∀ x ∈ candidates m source event, x.source = source ∧ x.event = event) →
      (decls.map (fun tk => tk.1)).Nodup →
      (∀ x ∈ candidates m source event, x.target ∉ decls.map (fun tk => tk.1)) →
      ∃ m1, declareAll source event m decls = .ok m1 ∧
        candidates m1 source event = candidates m source event ++
          decls.map (fun tk => newRecord source event tk.1 tk.2) ∧
        (∀ s1 e1, ¬ (s1 = source ∧ e1 = event) → candidates m1 s1 e1 = candidates m s1 e1) ∧
        (∀ s1, (m1 s1).isSome ↔ (m s1).isSome) := by
  induction decls with
  | nil =>
    intro m _ _ _ _ _
    exact ⟨m, rfl, by simp, fun _ _ _ => rfl, fun _ => Iff.rfl⟩
  | cons tk rest ih =>
    intro m hk hs hshape hnd hfresh
    have hnew : ∀ x ∈ candidates m source event,
        sameTransition x (newRecord (C := C) (A := A) source event tk.1 tk.2) = false := by
      intro x hx
      rw [sameTransition_newRecord x source tk.1 event tk.2 (hshape x hx)]
      simp only [decide_eq_false_iff_not]
      intro hxt
      exact hfresh x hx (by simp [hxt])
    obtain ⟨m1, r, hadd⟩ := addTransitionAt_isOk m source tk.1 event tk.2 hs hk hnew
    obtain ⟨_, hk1, _, _, happ, hother, hsome⟩ := addTransitionAt_ok hk hadd
    rw [List.map_cons] at hnd
    have hnd2 := List.nodup_cons.mp hnd
    obtain ⟨m2, h1, h2, h3, h4⟩ := ih m1 hk1 ((hsome source).mpr hs)
      (by
        intro x hx
        rw [happ, List.mem_append] at hx
        rcases hx with hx | hx
        · exact hshape x hx
        · simp only [List.mem_singleton] at hx
          subst hx
          exact ⟨rfl, rfl⟩)
      hnd2.2
      (by
        intro x hx
        rw [happ, List.mem_append] at hx
        rcases hx with hx | hx
        · exact fun hmem => hfresh x hx (by
            rw [List.map_cons]
            exact List.mem_cons_of_mem _ hmem)
        · simp only [List.mem_singleton] at hx
          subst hx
          exact hnd2.1)
    refine ⟨m2, ?_, ?_, ?_, ?_⟩
    · simp only [declareAll, hadd]
      exact h1
    · rw [h2, happ]
      simp
    · intro s1 e1 hne
      rw [h3 s1 e1 hne, hother s1 e1 hne]
    · intro s1
      exact (h4 s1).trans (hsome s1)

/-- C6. In a table a program can reach, declaring `(s, e)` for pairwise different targets none
of which is already a candidate's target returns, and afterwards the candidate list of `s` for
`e` is the earlier list followed by one new record per declaration, in declaration order
(exactly those records when there was no earlier candidate); every other candidate list and
the set of known states are unchanged.  Any `addTransition` that returns appends its record at
the end of the list for its event and leaves everything else unchanged. -/
theorem C6_declaration_order (w : World S E C A H) (hr : Reachable w) (s : S)
    (hs : (w.table s).isSome = true) (e : E) (decls : List (S × TransitionType))
    (hnd : (decls.map (fun tk => tk.1)).Nodup)
    (hfresh : ∀ x ∈ candidates w.table s e, x.target ∉ decls.map (fun tk => tk.1)) :
    (∃ m1, declareAll s e w.table decls = .ok m1 ∧
      candidates m1 s e = candidates w.table s e ++
        decls.map (fun tk => newRecord s e tk.1 tk.2) ∧
      (candidates w.table s e = [] →
        candidates m1 s e = decls.map (fun tk => newRecord s e tk.1 tk.2)) ∧
      (∀ s1 e1, ¬ (s1 = s ∧ e1 = e) → candidates m1 s1 e1 = candidates w.table s1 e1) ∧
      (∀ s1, (m1 s1).isSome ↔ (w.table s1).isSome)) ∧
    (∀ t kind m1 r, addTransitionAt w.table s e t kind = .ok (m1, r) →
      candidates m1 s e = candidates w.table s e ++ [newRecord s e t kind] ∧
      (∀ s1 e1, ¬ (s1 = s ∧ e1 = e) → candidates m1 s1 e1 = candidates w.table s1 e1) ∧
      (∀ s1, (m1 s1).isSome ↔ (w.table s1).isSome)) := by
  have hinv := hr.inv.table
  refine ⟨?_, ?_⟩
  · obtain ⟨m1, h1, h2, h3, h4⟩ := declareAll_spec s e decls w.table hinv.keys hs
      (fun x hx => by
        obtain ⟨a, b, _⟩ := candidates_shape hinv hx
        exact ⟨a, b⟩) hnd hfresh
    exact ⟨m1, h1, h2, fun hnil => by rw [h2, hnil]; rfl, h3, h4⟩
  · intro t kind m1 r hadd
    obtain ⟨_, _, _, _, happ, hother, hsome⟩ := addTransitionAt_ok hinv.keys hadd
    exact ⟨happ, hother, hsome⟩

/-- Witness for C6: in the table of the test program, `(bar, hi)` declared for two more
targets. -/
theorem C6_declaration_order_witness :
    ((candidates (World.after testProgram).table "bar" "hi").map (fun x => x.target) = ["baz"]) ∧
    ∃ m1, declareAll "bar" "hi" (World.after testProgram).table
        [("foo", TransitionType.EXTERNAL), ("zzz", TransitionType.LOCAL)] = .ok m1 ∧
      candidates m1 "bar" "hi" = candidates (World.after testProgram).table "bar" "hi" ++
        [newRecord "bar" "hi" "foo" TransitionType.EXTERNAL,
         newRecord "bar" "hi" "zzz" TransitionType.LOCAL] := by
  have hc : candidates (World.after testProgram).table "bar" "hi" =
      [{ source := "bar", target := "baz", event := "hi", condition := none,
         t := TransitionType.EXTERNAL, action := some "print" }] := rfl
  obtain ⟨m1, h1, h2, _⟩ := (C6_declaration_order (World.after testProgram)
    (reachable_after testProgram rfl) "bar" rfl "hi"
    [("foo", TransitionType.EXTERNAL), ("zzz", TransitionType.LOCAL)]
    (by decide)
    (by
      intro x hx
      rw [hc] at hx
      simp only [List.mem_singleton] at hx
      subst hx
      decide)).1
  exact ⟨rfl, m1, h1, h2⟩

/-- C7. In every table a program over the Builder API can reach without a construction
error: every transition stored in the index of `s` under `e` has source `s` and event `e`; the
targets within each candidate list are pairwise distinct; hence no two distinct records of the
table share a `(source, target, event)` triple.  Each call keeps this: it holds again in the
world after any further call that returns. -/
theorem C7_no_duplicate_triple (w : World S E C A H) (hr : Reachable w) :
    (∀ s e, ∀ x ∈ candidates w.table s e, x.source = s ∧ x.event = e) ∧
    (∀ s e, ((candidates w.table s e).map (fun x => x.target)).Nodup) ∧
    (∀ (s1 : S) (e1 : E) (i : Nat) (s2 : S) (e2 : E) (j : Nat) (x y : transition S E C A),
      (candidates w.table s1 e1)[i]? = some x → (candidates w.table s2 e2)[j]? = some y →
      x.source = y.source → x.target = y.target → x.event = y.event →
      s1 = s2 ∧ e1 = e2 ∧ i = j) ∧
    (∀ c w1, step w c = .ok w1 →
      (∀ s e, ∀ x ∈ candidates w1.table s e, x.source = s ∧ x.event = e) ∧
      (∀ s e, ((candidates w1.table s e).map (fun x => x.target)).Nodup)) := by
  have hinv := hr.inv.table
  have hshape : ∀ s e, ∀ x ∈ candidates w.table s e, x.source = s ∧ x.event = e := by
    intro s e x hx
    obtain ⟨a, b, _⟩ := candidates_shape hinv hx
    exact ⟨a, b⟩
  refine ⟨hshape, targets_nodup hinv, ?_, ?_⟩
  · intro s1 e1 i s2 e2 j x y hx hy hsrc htgt hev
    obtain ⟨a1, b1⟩ := hshape s1 e1 x (mem_of_index hx)
    obtain ⟨a2, b2⟩ := hshape s2 e2 y (mem_of_index hy)
    have hs : s1 = s2 := by rw [← a1, ← a2]; exact hsrc
    have he : e1 = e2 := by rw [← b1, ← b2]; exact hev
    subst hs he
    refine ⟨rfl, rfl, ?_⟩
    have hlt : i < ((candidates w.table s1 e1).map (fun x => x.target)).length := by
      rw [List.length_map]
      exact (List.getElem?_eq_some.mp hx).1
    refine List.getElem?_inj hlt (targets_nodup hinv s1 e1) ?_
    rw [List.getElem?_map, List.getElem?_map, hx, hy]
    simp [htgt]
  · intro c w1 hstep
    have hinv1 := (hr.step c hstep).inv.table
    refine ⟨?_, targets_nodup hinv1⟩
    intro s e x hx
    obtain ⟨a, b, _⟩ := candidates_shape hinv1 hx
    exact ⟨a, b⟩

/-- Witness for C7: the table of the test program. -/
theorem C7_no_duplicate_triple_witness :
    Reachable (World.after testProgram) ∧
    (∀ s e, ((candidates (World.after testProgram).table s e).map (fun x => x.target)).Nodup) :=
  ⟨reachable_after testProgram rfl,
    (C7_no_duplicate_triple (World.after testProgram) (reachable_after testProgram rfl)).2.1⟩

/-- C8. In every table a program over the Builder API can reach, every transition of kind
INTERNAL has its source equal to its target; hence the validation of `transit` succeeds on
every record of the table, and `transit` returns the target of the record after calling its
action: the branch that stays in the source because the record is invalid is never taken. -/
theorem C8_internal_same_state (w : World S E C A H) (hr : Reachable w) :
    (∀ s e, ∀ x ∈ candidates w.table s e,
      x.t = TransitionType.INTERNAL → x.source = x.target) ∧
    (∀ s e, ∀ x ∈ candidates w.table s e, x.verify = .ok ()) ∧
    (∀ s e, ∀ x ∈ candidates w.table s e, ∀ ctx : C,
      x.transit (H := H) ctx false =
        (x.action.toList.map (fun a => Effect.action a x.source x.target x.event ctx),
         x.target)) := by
  have hinv := hr.inv.table
  have h1 : ∀ s e, ∀ x ∈ candidates w.table s e,
      x.t = TransitionType.INTERNAL → x.source = x.target := by
    intro s e x hx hi
    obtain ⟨a, _, c⟩ := candidates_shape hinv hx
    rw [a, c hi]
  refine ⟨h1, ?_, ?_⟩
  · intro s e x hx
    unfold transition.verify
    by_cases hi : x.t = TransitionType.INTERNAL
    · simp [hi, h1 s e x hx hi]
    · simp [hi]
  · intro s e x hx ctx
    exact transit_valid x ctx (fun hi => (h1 s e x hx hi).symm)

/-- Witness for C8: the table of the test program, whose `(foo, in)` record is INTERNAL. -/
theorem C8_internal_same_state_witness :
    (candidates (World.after testProgram).table "foo" "in").map (fun x => (x.t, x.source, x.target))
      = [(TransitionType.INTERNAL, "foo", "foo")] ∧
    (∀ s e, ∀ x ∈ candidates (World.after testProgram).table s e,
      x.t = TransitionType.INTERNAL → x.source = x.target) :=
  ⟨rfl, (C8_internal_same_state (H := Unit) (World.after testProgram)
    (reachable_after testProgram rfl)).1⟩

end declaring

/-! ## The multi-source chain -/

section chains

set_option linter.unusedSectionVars false

variable {S E C A H : Type} [DecidableEq S] [DecidableEq E]

theorem chain_get {α : Type} (pre : List α) (c : α) : (pre ++ [c])[pre.length]? = some c :=
  List.getElem?_concat_length pre c

theorem chain_set {α : Type} (pre : List α) (c c1 : α) :
    (pre ++ [c]).set pre.length c1 = pre ++ [c1] := by
  induction pre with
  | nil => rfl
  | cons x r ih => simp [ih]

theorem modify_last {α : Type} (f : α → α) (l : List α) (a : α) :
    (l ++ [a]).modify f l.length = l ++ [f a] := by
  induction l with
  | nil => rfl
  | cons x r ih => simp [List.modify_succ_cons, ih]

theorem run_append_ok (cs cs2 : List (Call S E C A H)) :
    ∀ (w w1 : World S E C A H), run w cs = .ok w1 → run w (cs ++ cs2) = run w1 cs2 := by
  induction cs with
  | nil =>
    intro w w1 h
    simp only [run, Except.ok.injEq] at h
    subst h
    rfl
  | cons x rest ih =>
    intro w w1 h
    unfold run at h
    cases hs : step w x with
    | error f => simp [hs] at h
    | ok w3 =>
      simp only [hs] at h
      simp only [List.cons_append, run, hs]
      exact ih w3 w1 h

theorem fromAmongLoop_isOk (ids : List S) :
    ∀ (m : StateMap S E C A) (acc : List S), ∃ m1 acc1, fromAmongLoop ids m acc = .ok (m1, acc1) := by
  induction ids with
  | nil => intro m acc; exact ⟨m, acc, rfl⟩
  | cons x rest ih =>
    intro m acc
    unfold fromAmongLoop
    rcases getState_some_cases m x with ⟨st, _, hg⟩ | ⟨_, hg⟩
    · rw [hg]; exact ih _ _
    · rw [hg]; exact ih _ _

/-- The loop of the multi-source `On` on pairwise different sources with a fresh target:
it returns, collects the places of the new records, and appends one record per source. -/
theorem onLoop_spec (event : E) (target : S) (kind : TransitionType) (sources : List S) :
    ∀ (m : StateMap S E C A) (acc : List (TransitionRef S E)), KeysOk m →
      (∀ s ∈ sources, (m s).isSome = true) → sources.Nodup →
      (∀ s ∈ sources, ∀ x ∈ candidates m s event, x.source = s ∧ x.event = event) →
      (∀ s ∈ sources, ∀ x ∈ candidates m s event, x.target ≠ target) →
      ∃ m1, onLoop event target kind sources m acc =
          .ok (m1, acc ++ sources.map
            (fun s => TransitionRef.mk s event (candidates m s event).length)) ∧
        KeysOk m1 ∧
        (∀ s ∈ sources, candidates m1 s event =
          candidates m s event ++ [newRecord s event target kind]) ∧
        (∀ s1 e1, ¬ (s1 ∈ sources ∧ e1 = event) → candidates m1 s1 e1 = candidates m s1 e1) ∧
        (∀ s1, (m1 s1).isSome ↔ (m s1).isSome) := by
  induction sources with
  | nil =>
    intro m acc hk _ _ _ _
    exact ⟨m, by simp [onLoop], hk, by simp, fun _ _ _ => rfl, fun _ => Iff.rfl⟩
  | cons s rest ih =>
    intro m acc hk hsome hnd hshape hfresh
    have hnd2 := List.nodup_cons.mp hnd
    have hnew : ∀ x ∈ candidates m s event,
        sameTransition x (newRecord (C := C) (A := A) s event target kind) = false := by
      intro x hx
      rw [sameTransition_newRecord x s target event kind
        (hshape s (List.mem_cons_self _ _) x hx)]
      simp only [decide_eq_false_iff_not]
      exact hfresh s (List.mem_cons_self _ _) x hx
    obtain ⟨m1, r, hadd⟩ := addTransitionAt_isOk m s target event kind
      (hsome s (List.mem_cons_self _ _)) hk hnew
    obtain ⟨_, hk1, hr, _, happ, hother, hsm⟩ := addTransitionAt_ok hk hadd
    have hsame : ∀ s1 ∈ rest, candidates m1 s1 event = candidates m s1 event := by
      intro s1 hs1
      apply hother
      rintro ⟨h1, _⟩
      exact hnd2.1 (h1 ▸ hs1)
    obtain ⟨m2, h1, h2, h3, h4, h5⟩ := ih m1 (acc ++ [r]) hk1
      (fun s1 hs1 => (hsm s1).mpr (hsome s1 (List.mem_cons_of_mem _ hs1))) hnd2.2
      (fun s1 hs1 x hx => by
        rw [hsame s1 hs1] at hx
        exact hshape s1 (List.mem_cons_of_mem _ hs1) x hx)
      (fun s1 hs1 x hx => by
        rw [hsame s1 hs1] at hx
        exact hfresh s1 (List.mem_cons_of_mem _ hs1) x hx)
    refine ⟨m2, ?_, h2, ?_, ?_, fun s1 => (h5 s1).trans (hsm s1)⟩
    · have hmap : rest.map (fun s1 => TransitionRef.mk s1 event (candidates m1 s1 event).length) =
          rest.map (fun s1 => TransitionRef.mk s1 event (candidates m s1 event).length) :=
        List.map_congr_left (fun s1 hs1 => by rw [hsame s1 hs1])
      simp only [onLoop, hadd]
      rw [h1, hmap, hr]
      simp
    · intro s1 hs1
      rcases List.mem_cons.mp hs1 with hs1 | hs1
      · subst hs1
        rw [h4 s1 event (fun hh => hnd2.1 hh.1), happ]
      · rw [h3 s1 hs1, hsame s1 hs1]
    · intro s1 e1 hne
      have hne1 : ¬ (s1 ∈ rest ∧ e1 = event) :=
        fun hh => hne ⟨List.mem_cons_of_mem _ hh.1, hh.2⟩
      have hne2 : ¬ (s1 = s ∧ e1 = event) :=
        fun hh => hne ⟨hh.1 ▸ List.mem_cons_self _ _, hh.2⟩
      rw [h4 s1 e1 hne1, hother s1 e1 hne2]

/-- Assignment through the places of pairwise different sources reaches exactly those places. -/
theorem foldl_modify_spec (event : E) (f : transition S E C A → transition S E C A)
    (idx : S → Nat) (sources : List S) (hnd : sources.Nodup) :
    ∀ (m : StateMap S E C A) (s1 : S) (e1 : E),
      candidates ((sources.map (fun s => TransitionRef.mk s event (idx s))).foldl
          (fun acc r => acc.modify r f) m) s1 e1 =
        if s1 ∈ sources ∧ e1 = event then (candidates m s1 e1).modify f (idx s1)
        else candidates m s1 e1 := by
  induction sources with
  | nil => intro m s1 e1; simp
  | cons s rest ih =>
    intro m s1 e1
    have hnd2 := List.nodup_cons.mp hnd
    simp only [List.map_cons, List.foldl_cons]
    rw [ih hnd2.2, modify_candidates]
    by_cases he : e1 = event
    · by_cases hs : s1 = s
      · subst hs
        simp [he, hnd2.1]
      · by_cases hr : s1 ∈ rest
        · simp [he, hs, hr]
        · simp [he, hs, hr]
    · simp [he]

theorem step_FromAmong_eq (w : World S E C A H) (k : Nat) (h : Handles)
    (tb : transitionsBuilder S E) (hk : w.chains[k]? = some (Chain.multi h tb)) (ids : List S)
    (m1 : StateMap S E C A) (acc1 : List S)
    (hl : fromAmongLoop ids w.table tb.sources = .ok (m1, acc1)) :
    step w (Call.FromAmong k ids) = .ok
      { w with stateMap := some m1,
               chains := w.chains.set k
                 (Chain.multi ⟨true, h.toI, h.onI⟩ ⟨tb.target, tb.t, acc1, tb.transitions⟩) } := by
  simp only [step, hk, transitionsBuilder.FromAmong, hl]

theorem step_To_multi_eq (w : World S E C A H) (k : Nat) (h : Handles)
    (tb : transitionsBuilder S E) (hk : w.chains[k]? = some (Chain.multi h tb))
    (hf : h.fromI = true) (t : S) (m1 : StateMap S E C A) (st : state S E C A)
    (hg : getState (some w.table) t = .ok (m1, st)) :
    step w (Call.To k t) = .ok
      { w with stateMap := some m1,
               chains := w.chains.set k
                 (Chain.multi ⟨h.fromI, true, h.onI⟩
                   ⟨some st.id, tb.t, tb.sources, tb.transitions⟩) } := by
  simp only [step, hk, hf, if_true, transitionsBuilder.To, hg]

theorem step_On_multi_eq (w : World S E C A H) (k : Nat) (h : Handles)
    (tb : transitionsBuilder S E) (hk : w.chains[k]? = some (Chain.multi h tb))
    (ht : h.toI = true) (e : E) (target : S) (htg : tb.target = some target)
    (m1 : StateMap S E C A) (rs : List (TransitionRef S E))
    (hl : onLoop e target tb.t tb.sources w.table tb.transitions = .ok (m1, rs)) :
    step w (Call.On k e) = .ok
      { w with stateMap := some m1,
               chains := w.chains.set k
                 (Chain.multi ⟨h.fromI, h.toI, true⟩ ⟨tb.target, tb.t, tb.sources, rs⟩),
               declared := w.declared ++ tb.sources.map (fun s => (s, target, e)) } := by
  simp only [step, hk, ht, if_true, transitionsBuilder.On, htg, hl]

theorem step_When_multi_eq (w : World S E C A H) (k : Nat) (h : Handles)
    (tb : transitionsBuilder S E) (hk : w.chains[k]? = some (Chain.multi h tb))
    (ho : h.onI = true) (g : Option (Condition C)) :
    step w (Call.When k g) = .ok { w with stateMap := some (tb.When w.table g) } := by
  simp only [step, hk, ho, if_true]

theorem step_Perform_multi_eq (w : World S E C A H) (k : Nat) (h : Handles)
    (tb : transitionsBuilder S E) (hk : w.chains[k]? = some (Chain.multi h tb))
    (ho : h.onI = true) (a : Option A) :
    step w (Call.Perform k a) = .ok { w with stateMap := some (tb.Perform w.table a) } := by
  simp only [step, hk, ho, if_true]

theorem fromAmong_On_run (w : World S E C A H) (hw : WorldInv w) (ss : List S) (t : S) (e : E)
    (hnd : ss.Nodup) (hfresh : ∀ s ∈ ss, ∀ x ∈ candidates w.table s e, x.target ≠ t) :
    ∃ m4, run w [Call.ExternalTransitions, Call.FromAmong w.chains.length ss,
        Call.To w.chains.length t, Call.On w.chains.length e] =
          .ok (afterFromAmongOn w m4 ss t e) ∧
      KeysOk m4 ∧
      (∀ s ∈ ss, candidates m4 s e =
        candidates w.table s e ++ [newRecord s e t TransitionType.EXTERNAL]) ∧
      (∀ s1 e1, ¬ (s1 ∈ ss ∧ e1 = e) → candidates m4 s1 e1 = candidates w.table s1 e1) := by
  obtain ⟨m2, acc2, hloop⟩ := fromAmongLoop_isOk ss w.table ([] : List S)
  obtain ⟨hinv2, hacc2, hsome2, _, hcand2⟩ :=
    fromAmongLoop_inv ss _ _ _ _ hw.table hloop (by simp)
  simp only [List.nil_append] at hacc2
  subst hacc2
  obtain ⟨m3, st3, hg3, _, hid3, hk3, hcand3, hsome3, _⟩ := getState_spec m2 t hinv2.keys
  have hc : ∀ s1 e1, candidates m3 s1 e1 = candidates w.table s1 e1 :=
    fun s1 e1 => (hcand3 s1 e1).trans (hcand2 s1 e1)
  obtain ⟨m4, hon, hk4, happ, hother, _⟩ := onLoop_spec e t TransitionType.EXTERNAL acc2 m3
    ([] : List (TransitionRef S E)) hk3 (fun s hs => hsome3 s (hsome2 s hs)) hnd
    (fun s _ x hx => by
      rw [hc] at hx
      obtain ⟨a, b, _⟩ := candidates_shape hw.table hx
      exact ⟨a, b⟩)
    (fun s hs x hx => by
      rw [hc] at hx
      exact hfresh s hs x hx)
  have hrefs : acc2.map (fun s => TransitionRef.mk s e (candidates m3 s e).length) =
      acc2.map (fun s => TransitionRef.mk s e (candidates w.table s e).length) :=
    List.map_congr_left (fun s _ => by rw [hc])
  rw [List.nil_append, hrefs] at hon
  refine ⟨m4, ?_, hk4, ?_, ?_⟩
  · have h1 : step w (Call.ExternalTransitions : Call S E C A H) = .ok
        { w with stateMap := some w.table, chains := w.chains ++
          [Chain.multi ⟨false, false, false⟩
            (newExternalTransitionsBuilder TransitionType.EXTERNAL)] } := rfl
    have h2 := step_FromAmong_eq
      ({ w with stateMap := some w.table, chains := w.chains ++
          [Chain.multi ⟨false, false, false⟩
            (newExternalTransitionsBuilder TransitionType.EXTERNAL)] } : World S E C A H)
      w.chains.length _ _ (chain_get _ _) acc2 m2 acc2 hloop
    rw [chain_set] at h2
    have h3 := step_To_multi_eq
      ({ w with stateMap := some m2, chains := w.chains ++
          [Chain.multi ⟨true, false, false⟩
            ⟨none, TransitionType.EXTERNAL, acc2, []⟩] } : World S E C A H)
      w.chains.length _ _ (chain_get _ _) rfl t m3 st3 hg3
    rw [chain_set, hid3] at h3
    have h4 := step_On_multi_eq
      ({ w with stateMap := some m3, chains := w.chains ++
          [Chain.multi ⟨true, true, false⟩
            ⟨some t, TransitionType.EXTERNAL, acc2, []⟩] } : World S E C A H)
      w.chains.length _ _ (chain_get _ _) rfl e t rfl m4 _ hon
    rw [chain_set] at h4
    simp only [run, h1]
    simp only [newExternalTransitionsBuilder] at h2 ⊢
    simp only [h2, h3, h4]
    rfl
  · intro s hs
    rw [happ s hs, hc]
  · intro s1 e1 hne
    rw [hother s1 e1 hne, hc]

/-- Assignment through the places of the last records of pairwise different sources. -/
theorem assign_last (e : E) (f : transition S E C A → transition S E C A) (ss : List S)
    (hnd : ss.Nodup) (m : StateMap S E C A) (old : S → List (transition S E C A))
    (new : S → transition S E C A)
    (hm : ∀ s1 e1, candidates m s1 e1 =
      if s1 ∈ ss ∧ e1 = e then old s1 ++ [new s1] else old s1) (s1 : S) (e1 : E) :
    candidates ((ss.map (fun s => TransitionRef.mk s e (old s).length)).foldl
        (fun acc r => acc.modify r f) m) s1 e1 =
      if s1 ∈ ss ∧ e1 = e then old s1 ++ [f (new s1)] else candidates m s1 e1 := by
  rw [foldl_modify_spec e f (fun s => (old s).length) ss hnd m s1 e1]
  by_cases h : s1 ∈ ss ∧ e1 = e
  · obtain ⟨h1, h2⟩ := h
    subst h2
    simp only [h1, and_self, if_true]
    rw [hm s1 e1]
    simp only [h1, and_self, if_true]
    rw [modify_last]
  · simp [h]

theorem optAssign_last {X : Type} (e : E) (f : X → transition S E C A → transition S E C A)
    (ox : Option X) (ss : List S) (hnd : ss.Nodup) (m : StateMap S E C A)
    (old : S → List (transition S E C A)) (new : S → transition S E C A)
    (other : S → E → List (transition S E C A))
    (hm : ∀ s1 e1, candidates m s1 e1 =
      if s1 ∈ ss ∧ e1 = e then old s1 ++ [new s1] else other s1 e1) (s1 : S) (e1 : E) :
    candidates (optAssign f (ss.map (fun s => TransitionRef.mk s e (old s).length)) ox m) s1 e1 =
      if s1 ∈ ss ∧ e1 = e then old s1 ++ [optApply f ox (new s1)] else other s1 e1 := by
  cases ox with
  | none => exact hm s1 e1
  | some x =>
    simp only [optAssign, optApply]
    rw [foldl_modify_spec e (f x) (fun s => (old s).length) ss hnd m s1 e1]
    by_cases h : s1 ∈ ss ∧ e1 = e
    · have h1 := h.1
      have h2 := h.2
      subst h2
      simp only [h1, and_self, if_true]
      rw [hm s1 e1]
      simp only [h1, and_self, if_true]
      rw [modify_last]
    · simp only [h, if_false]
      rw [hm s1 e1]
      simp only [h, if_false]

/-- Firing on a pair whose only candidate is valid and has no guard or a guard that holds:
the target is returned after the guard evaluation, if any, and the action call, if any. -/
theorem fire_single_candidate (m : StateMachine S E C A H) (sm : StateMap S E C A)
    (hready : m.ready = true) (hsm : m.stateMap = some sm) (s : S) (e : E) (ctx : C)
    (x : transition S E C A) (hc : candidates sm s e = [x])
    (hv : x.t = TransitionType.INTERNAL → x.target = x.source)
    (hg : x.condition = none ∨ ∃ g, x.condition = some g ∧ g ctx = true) :
    (m.FireEvent s e ctx).result = .ok x.target ∧
    (m.FireEvent s e ctx).trace =
      (x.condition.toList.map (fun _ => conditionEffect ctx true x)) ++
        x.action.toList.map (fun a => Effect.action a x.source x.target x.event ctx) := by
  obtain ⟨hfe, _⟩ := FireEvent_alloc m sm hready hsm s e ctx
  have htr := transit_valid (H := H) x ctx hv
  rw [hfe]
  unfold StateMachine.fire
  rw [routeTransition_alloc m sm hsm, hc]
  rcases hg with hg | ⟨g, hg, hgc⟩
  · simp [routeLoop, hg, htr]
  · simp [routeLoop, hg, hgc, htr, conditionEffect]

/-- C9 as stated fails: on a table in which `foo -[sleep]-> zzz` is already declared, the
fresh chain `FromAmong(foo, bar).To(zzz).On(sleep)`, whose sources are pairwise distinct, ends
in the duplicate error of `put` and registers no record. -/
theorem C9_counterexample_duplicate :
    (run (World.init : World String String Nat String Unit)
      [ Call.ExternalTransition, Call.From 0 "foo", Call.To 0 "zzz", Call.On 0 "sleep" ]).isOk
        = true ∧
    (World.after [ Call.ExternalTransition, Call.From 0 "foo", Call.To 0 "zzz",
      (Call.On 0 "sleep" : Call String String Nat String Unit) ]).chains.length = 1 ∧
    ["foo", "bar"].Nodup ∧
    run (World.init : World String String Nat String Unit) duplicateChainProgram
      = .error Fault.alreadyExist := by
  refine ⟨rfl, rfl, by decide, rfl⟩

/-- C9, amended. From any reachable Builder, a chain freshly obtained from
`ExternalTransitions()`, `FromAmong(s1..sn).To(t).On(e)` followed by optional `When(g)` and
optional `Perform(a)`, with pairwise distinct sources none of which already has a candidate
for `e` with target `t`, returns and registers exactly one new record at the end of the
candidate list of each `si` for `e`, with source `si`, target `t`, event `e`, kind EXTERNAL,
guard `g` and action `a`; every other candidate list is unchanged.  On the machine built
afterwards, and on every built machine in which the new record is the only candidate for
`(si, e)`, `FireEvent(si, e, ctx)` returns `t`, after calling the action, whenever `g` is
absent or holds on `ctx` and `(si, e)` has no other candidate. -/
theorem C9_fromAmong_chain_amended (w : World S E C A H) (hr : Reachable w) (ss : List S)
    (t : S) (e : E) (optWhen : Option (Option (Condition C))) (optPerform : Option (Option A))
    (hnd : ss.Nodup) (hfresh : ∀ s ∈ ss, ∀ x ∈ candidates w.table s e, x.target ≠ t) :
    ∃ w1, run w (fromAmongChain w.chains.length ss t e optWhen optPerform) = .ok w1 ∧
      (∀ s ∈ ss, candidates w1.table s e = candidates w.table s e ++
        [registered s t e TransitionType.EXTERNAL optWhen optPerform]) ∧
      (∀ s1 e1, ¬ (s1 ∈ ss ∧ e1 = e) → candidates w1.table s1 e1 = candidates w.table s1 e1) ∧
      (∀ s ∈ ss, candidates w.table s e = [] → ∀ (ctx : C) (machineId : String),
        (optWhen.join = none ∨ ∃ g, optWhen.join = some g ∧ g ctx = true) →
        ((w1.buildMachine machineId).FireEvent s e ctx).result = .ok t ∧
        ((w1.buildMachine machineId).FireEvent s e ctx).trace =
          (optWhen.join.toList.map (fun _ => Effect.condition s t e ctx true)) ++
            optPerform.join.toList.map (fun a => Effect.action a s t e ctx)) ∧
      (∀ (m : StateMachine S E C A H) (sm : StateMap S E C A), BuiltMachine m →
        m.stateMap = some sm → ∀ s ∈ ss,
        candidates sm s e = [registered s t e TransitionType.EXTERNAL optWhen optPerform] →
        ∀ ctx : C, (optWhen.join = none ∨ ∃ g, optWhen.join = some g ∧ g ctx = true) →
          (m.FireEvent s e ctx).result = .ok t ∧
          (m.FireEvent s e ctx).trace =
            (optWhen.join.toList.map (fun _ => Effect.condition s t e ctx true)) ++
              optPerform.join.toList.map (fun a => Effect.action a s t e ctx)) := by
  obtain ⟨m4, hrun4, _, happ4, hother4⟩ := fromAmong_On_run w hr.inv ss t e hnd hfresh
  have hm4 : ∀ s1 e1, candidates m4 s1 e1 =
      if s1 ∈ ss ∧ e1 = e then candidates w.table s1 e ++
        [newRecord s1 e t TransitionType.EXTERNAL]
      else candidates w.table s1 e1 := by
    intro s1 e1
    by_cases h : s1 ∈ ss ∧ e1 = e
    · obtain ⟨h1, h2⟩ := h
      subst h2
      simp only [h1, and_self, if_true]
      exact happ4 s1 h1
    · simp only [h, if_false]
      exact hother4 s1 e1 h
  have hW := optAssign_last e withCondition optWhen ss hnd m4
    (fun s => candidates w.table s e)
    (fun s => newRecord s e t TransitionType.EXTERNAL) (candidates w.table) hm4
  have hP := optAssign_last e withAction optPerform ss hnd _
    (fun s => candidates w.table s e) _ (candidates w.table) hW
  have hrec : ∀ s, optApply withAction optPerform
      (optApply withCondition optWhen (newRecord s e t TransitionType.EXTERNAL)) =
      registered s t e TransitionType.EXTERNAL optWhen optPerform := by
    intro s
    cases optWhen <;> cases optPerform <;> rfl
  simp only [hrec] at hP
  have hrun : run w (fromAmongChain w.chains.length ss t e optWhen optPerform) = .ok
      ((afterFromAmongOn w m4 ss t e).withTable
        (optAssign withAction
          (ss.map (fun s => TransitionRef.mk s e (candidates w.table s e).length)) optPerform
          (optAssign withCondition
            (ss.map (fun s => TransitionRef.mk s e (candidates w.table s e).length))
            optWhen m4))) := by
    unfold fromAmongChain
    rw [List.append_assoc, run_append_ok _ _ w _ hrun4]
    cases optWhen <;> cases optPerform <;>
      simp [run, step, afterFromAmongOn, fromAmongObject, chain_get, World.table, optAssign,
        transitionsBuilder.When, transitionsBuilder.Perform, World.withTable] <;> rfl
  refine ⟨_, hrun, ?_, ?_, ?_, ?_⟩
  · intro s hs
    have := hP s e
    simp only [hs, and_self, if_true] at this
    exact this
  · intro s1 e1 hne
    have := hP s1 e1
    simp only [hne, if_false] at this
    exact this
  · intro s hs hnil ctx machineId hg
    have hc := hP s e
    simp only [hs, and_self, if_true, hnil, List.nil_append] at hc
    have := fire_single_candidate (H := H)
      (World.buildMachine ((afterFromAmongOn w m4 ss t e).withTable
        (optAssign withAction
          (ss.map (fun s => TransitionRef.mk s e (candidates w.table s e).length)) optPerform
          (optAssign withCondition
            (ss.map (fun s => TransitionRef.mk s e (candidates w.table s e).length))
            optWhen m4))) machineId)
      _ rfl rfl s e ctx _ hc (fun hi => by simp [registered] at hi) hg
    simpa [registered, conditionEffect] using this
  · intro m sm hb hsm s _ hc ctx hg
    obtain ⟨hready, _, _⟩ := built_table hb hsm
    have := fire_single_candidate m sm hready hsm s e ctx _ hc
      (fun hi => by simp [registered] at hi) hg
    simpa [registered, conditionEffect] using this

/-- Witness for C9, amended: the multi-source chain of the test file on an empty Builder. -/
theorem C9_fromAmong_chain_amended_witness :
    Reachable (World.init : World String String Nat String Unit) ∧ ["foo", "bar"].Nodup ∧
    ∃ w1, run (World.init : World String String Nat String Unit)
        (fromAmongChain 0 ["foo", "bar"] "zzz" "sleep" (some (some (fun _ => true)))
          (some (some "print"))) = .ok w1 ∧
      ((w1.buildMachine "test").FireEvent "foo" "sleep" 0).result = .ok "zzz" ∧
      ((w1.buildMachine "test").FireEvent "bar" "sleep" 0).result = .ok "zzz" ∧
      ((w1.buildMachine "test").FireEvent "bar" "sleep" 0).trace =
        [Effect.condition "bar" "zzz" "sleep" 0 true, Effect.action "print" "bar" "zzz" "sleep" 0] := by
  have hreach : Reachable (World.init : World String String Nat String Unit) := ⟨[], rfl⟩
  obtain ⟨w1, h1, _, _, h4, _⟩ := C9_fromAmong_chain_amended
    (World.init : World String String Nat String Unit) hreach ["foo", "bar"] "zzz" "sleep"
    (some (some (fun _ => true))) (some (some "print")) (by decide)
    (fun s _ x hx => by simp [candidates, World.init, World.table] at hx)
  have hfoo := h4 "foo" (by simp) rfl 0 "test" (Or.inr ⟨_, rfl, rfl⟩)
  have hbar := h4 "bar" (by simp) rfl 0 "test" (Or.inr ⟨_, rfl, rfl⟩)
  exact ⟨hreach, by decide, w1, h1, hfoo.1, hbar.1, hbar.2⟩

end chains

/-! ## The internal chain -/

section internal

set_option linter.unusedSectionVars false

variable {S E C A H : Type} [DecidableEq S] [DecidableEq E]

theorem step_Within_eq (w : World S E C A H) (k : Nat) (h : Handles)
    (tb : transitionBuilder S E) (hk : w.chains[k]? = some (Chain.single h tb))
    (hi : tb.t = TransitionType.INTERNAL) (s : S) (m1 m2 : StateMap S E C A)
    (st1 st2 : state S E C A) (hg1 : getState (some w.table) s = .ok (m1, st1))
    (hg2 : getState (some m1) s = .ok (m2, st2)) :
    step w (Call.Within k s) = .ok
      { w with stateMap := some m2,
               chains := w.chains.set k
                 (Chain.single ⟨h.fromI, true, h.onI⟩
                   ⟨some st2.id, tb.t, some st1.id, tb.transition⟩) } := by
  simp only [step, hk, hi, if_true, transitionBuilder.Within, hg1, hg2]

theorem step_On_single_eq (w : World S E C A H) (k : Nat) (h : Handles)
    (tb : transitionBuilder S E) (hk : w.chains[k]? = some (Chain.single h tb))
    (ht : h.toI = true) (e : E) (source target : S) (hsrc : tb.source = some source)
    (htg : tb.target = some target) (m1 : StateMap S E C A) (r : TransitionRef S E)
    (ha : addTransitionAt w.table source e target tb.t = .ok (m1, r)) :
    step w (Call.On k e) = .ok
      { w with stateMap := some m1,
               chains := w.chains.set k
                 (Chain.single ⟨h.fromI, h.toI, true⟩ ⟨tb.target, tb.t, tb.source, some r⟩),
               declared := w.declared ++ [(source, target, e)] } := by
  simp only [step, hk, ht, if_true, transitionBuilder.On, hsrc, htg, ha]

theorem within_On_run (w : World S E C A H) (hw : WorldInv w) (s : S) (e : E)
    (hfresh : ∀ x ∈ candidates w.table s e, x.target ≠ s) :
    ∃ m3, run w [Call.InternalTransition, Call.Within w.chains.length s,
        Call.On w.chains.length e] = .ok (afterWithinOn w m3 s e) ∧
      ∀ s1 e1, candidates m3 s1 e1 =
        if s1 = s ∧ e1 = e then candidates w.table s1 e ++
          [newRecord s1 e s TransitionType.INTERNAL]
        else candidates w.table s1 e1 := by
  obtain ⟨m1, st1, hg1, _, hid1, hk1, hcand1, _, _⟩ := getState_spec w.table s hw.table.keys
  obtain ⟨m2, st2, hg2, hin2, hid2, hk2, hcand2, _, _⟩ := getState_spec m1 s hk1
  have hc : ∀ s1 e1, candidates m2 s1 e1 = candidates w.table s1 e1 :=
    fun s1 e1 => (hcand2 s1 e1).trans (hcand1 s1 e1)
  have hnew : ∀ x ∈ candidates m2 s e,
      sameTransition x (newRecord (C := C) (A := A) s e s TransitionType.INTERNAL) = false := by
    intro x hx
    rw [hc] at hx
    obtain ⟨a, b, _⟩ := candidates_shape hw.table hx
    rw [sameTransition_newRecord x s s e TransitionType.INTERNAL ⟨a, b⟩]
    simp only [decide_eq_false_iff_not]
    exact hfresh x hx
  obtain ⟨m3, r, hadd⟩ := addTransitionAt_isOk m2 s s e TransitionType.INTERNAL
    (by rw [hin2]; rfl) hk2 hnew
  obtain ⟨_, _, hr, _, happ, hother, _⟩ := addTransitionAt_ok hk2 hadd
  rw [hc] at hr
  refine ⟨m3, ?_, ?_⟩
  · have h1 : step w (Call.InternalTransition : Call S E C A H) = .ok
        { w with stateMap := some w.table, chains := w.chains ++
          [Chain.single ⟨false, false, false⟩
            (newTransitionBuilder TransitionType.INTERNAL)] } := rfl
    have h2 := step_Within_eq
      ({ w with stateMap := some w.table, chains := w.chains ++
          [Chain.single ⟨false, false, false⟩
            (newTransitionBuilder TransitionType.INTERNAL)] } : World S E C A H)
      w.chains.length _ _ (chain_get _ _) rfl s m1 m2 st1 st2 hg1 hg2
    rw [chain_set, hid1, hid2] at h2
    have h3 := step_On_single_eq
      ({ w with stateMap := some m2, chains := w.chains ++
          [Chain.single ⟨false, true, false⟩
            ⟨some s, TransitionType.INTERNAL, some s, none⟩] } : World S E C A H)
      w.chains.length _ _ (chain_get _ _) rfl e s s rfl rfl m3 r hadd
    rw [chain_set, hr] at h3
    simp only [run, h1]
    simp only [newTransitionBuilder] at h2 ⊢
    simp only [h2, h3]
    rfl
  · intro s1 e1
    by_cases h : s1 = s ∧ e1 = e
    · obtain ⟨a, b⟩ := h
      subst a b
      simp only [and_self, if_true]
      rw [happ, hc]
    · simp only [h, if_false]
      rw [hother s1 e1 h, hc]

/-- C10 as stated fails.  The chain `Within(foo).On(in)` can be followed by `When`: with a
guard that is false the transition is still the only candidate for `(foo, in)`, yet firing
runs no action and calls the failure handler.  And on a table in which `foo -[in]-> foo` is
already declared the chain registers nothing: `On` ends in the duplicate error. -/
theorem C10_counterexample_guard :
    (candidates (World.after guardedInternalProgram).table "foo" "in").map
        (fun x => (x.t, x.source, x.target, x.event, x.action))
      = [(TransitionType.INTERNAL, "foo", "foo", "in", some "print")] ∧
    ((machineAfter guardedInternalProgram).FireEvent "foo" "in" 0).trace
      = [Effect.condition "foo" "foo" "in" 0 false,
         Effect.onFail FailCallback.numb "foo" "in" 0] ∧
    run (World.init : World String String Nat String Unit)
      (withinChain 0 "foo" "in" none none ++ withinChain 1 "foo" "in" none none)
      = .error Fault.alreadyExist := by
  refine ⟨rfl, rfl, rfl⟩

/-- C10, amended. From any reachable Builder in which `s -[e]-> s` is not declared yet, the
chain `InternalTransition().Within(s).On(e)`, followed by optional `When(g)` and optional
`Perform(a)`, returns and registers exactly one record, at the end of the candidate list of
`(s, e)`: kind INTERNAL, source and target `s`, event `e`, guard `g`, action `a`; every other
candidate list is unchanged.  On every built machine in which this record is the only candidate
for `(s, e)`, whenever the record has no guard or its guard holds on `ctx`, `FireEvent(s, e,
ctx)` returns `s` and makes, after the guard evaluation if any, exactly the action call
`(s, s, e, ctx)` when an action was given and no call otherwise: the failure handler is not
called. -/
theorem C10_within_chain_amended (w : World S E C A H) (hr : Reachable w) (s : S) (e : E)
    (optWhen : Option (Option (Condition C))) (optPerform : Option (Option A))
    (hfresh : ∀ x ∈ candidates w.table s e, x.target ≠ s) :
    (∃ w1, run w (withinChain w.chains.length s e optWhen optPerform) = .ok w1 ∧
      candidates w1.table s e = candidates w.table s e ++
        [registered s s e TransitionType.INTERNAL optWhen optPerform] ∧
      (∀ s1 e1, ¬ (s1 = s ∧ e1 = e) → candidates w1.table s1 e1 = candidates w.table s1 e1)) ∧
    (∀ (m : StateMachine S E C A H) (sm : StateMap S E C A), BuiltMachine m →
      m.stateMap = some sm →
      candidates sm s e = [registered s s e TransitionType.INTERNAL optWhen optPerform] →
      ∀ ctx : C, (optWhen.join = none ∨ ∃ g, optWhen.join = some g ∧ g ctx = true) →
        (m.FireEvent s e ctx).result = .ok s ∧
        (m.FireEvent s e ctx).trace =
          (optWhen.join.toList.map (fun _ => Effect.condition s s e ctx true)) ++
            optPerform.join.toList.map (fun a => Effect.action a s s e ctx)) := by
  refine ⟨?_, ?_⟩
  · obtain ⟨m3, hrun3, hm3⟩ := within_On_run w hr.inv s e hfresh
    have hm3' : ∀ s1 e1, candidates m3 s1 e1 =
        if s1 ∈ [s] ∧ e1 = e then candidates w.table s1 e ++
          [newRecord s1 e s TransitionType.INTERNAL]
        else candidates w.table s1 e1 := by
      intro s1 e1
      rw [hm3 s1 e1]
      simp only [List.mem_singleton]
    have hW := optAssign_last e withCondition optWhen [s] (by simp) m3
      (fun s1 => candidates w.table s1 e)
      (fun s1 => newRecord s1 e s TransitionType.INTERNAL) (candidates w.table) hm3'
    have hP := optAssign_last e withAction optPerform [s] (by simp) _
      (fun s1 => candidates w.table s1 e) _ (candidates w.table) hW
    have hrec : optApply withAction optPerform
        (optApply withCondition optWhen (newRecord s e s TransitionType.INTERNAL)) =
        registered s s e TransitionType.INTERNAL optWhen optPerform := by
      cases optWhen <;> cases optPerform <;> rfl
    have hrun : run w (withinChain w.chains.length s e optWhen optPerform) = .ok
        ((afterWithinOn w m3 s e).withTable
          (optAssign withAction
            ([s].map (fun s1 => TransitionRef.mk s1 e (candidates w.table s1 e).length))
            optPerform
            (optAssign withCondition
              ([s].map (fun s1 => TransitionRef.mk s1 e (candidates w.table s1 e).length))
              optWhen m3))) := by
      unfold withinChain
      rw [List.append_assoc, run_append_ok _ _ w _ hrun3]
      cases optWhen <;> cases optPerform <;>
        simp [run, step, afterWithinOn, withinObject, chain_get, World.table, optAssign,
          transitionBuilder.When, transitionBuilder.Perform, World.withTable] <;> rfl
    refine ⟨_, hrun, ?_, ?_⟩
    · have := hP s e
      simp only [List.mem_singleton, and_self, if_true, hrec] at this
      exact this
    · intro s1 e1 hne
      have := hP s1 e1
      simp only [List.mem_singleton, hne, if_false] at this
      exact this
  · intro m sm hb hsm hc ctx hg
    obtain ⟨hready, _, _⟩ := built_table hb hsm
    have := fire_single_candidate m sm hready hsm s e ctx _ hc (fun _ => rfl) hg
    simpa [registered, conditionEffect] using this

/-- Witness for C10, amended: the internal chain of the test file on an empty Builder. -/
theorem C10_within_chain_amended_witness :
    Reachable (World.init : World String String Nat String Unit) ∧
    ∃ w1, run (World.init : World String String Nat String Unit)
        (withinChain 0 "foo" "in" none (some (some "print"))) = .ok w1 ∧
      (candidates w1.table "foo" "in").map
          (fun x => (x.t, x.source, x.target, x.event, x.action))
        = [(TransitionType.INTERNAL, "foo", "foo", "in", some "print")] ∧
      ((machineAfter testProgram).FireEvent "foo" "in" 0).result = .ok "foo" ∧
      ((machineAfter testProgram).FireEvent "foo" "in" 0).trace =
        [Effect.action "print" "foo" "foo" "in" 0] := by
  have hreach : Reachable (World.init : World String String Nat String Unit) := ⟨[], rfl⟩
  obtain ⟨⟨w1, h1, h2, _⟩, h3⟩ := C10_within_chain_amended
    (World.init : World String String Nat String Unit) hreach "foo" "in" none
    (some (some "print"))
    (fun x hx => by simp [candidates, World.init, World.table] at hx)
  have hfire := h3 (machineAfter testProgram) (World.after testProgram).table
    (built_after testProgram rfl rfl) rfl rfl 0 (Or.inl rfl)
  refine ⟨hreach, w1, h1, ?_, hfire.1, hfire.2⟩
  rw [h2]
  rfl

end internal

/-! ## Run-time calls -/

section runtime

set_option linter.unusedSectionVars false

variable {S E C A H : Type} [DecidableEq S] [DecidableEq E]

/-- C11. On every machine with a configured current-state fetcher `f`, for every event and
context: `FireEventByFetcher(e, ctx)` has the same outcome as `FireEvent(f(ctx), e, ctx)`, the
same state returned (or the same fault), the same guard evaluations, the same action call and
the same failure-handler call with the same arguments, the same table left behind; and
`VerifyWithFetcher(e, ctx)` has the same outcome as `Verify(f(ctx), e)`. -/
theorem C11_fetcher_equivalence (m : StateMachine S E C A H) (f : C → S)
    (hf : m.currentStateFetcher = some f) (e : E) (ctx : C) :
    m.FireEventByFetcher e ctx = m.FireEvent (f ctx) e ctx ∧
    (m.FireEventByFetcher e ctx).result = (m.FireEvent (f ctx) e ctx).result ∧
    (m.FireEventByFetcher e ctx).trace = (m.FireEvent (f ctx) e ctx).trace ∧
    m.VerifyWithFetcher e ctx = m.Verify (f ctx) e ∧
    (m.VerifyWithFetcher e ctx).result = (m.Verify (f ctx) e).result := by
  have h1 : m.FireEventByFetcher e ctx = m.FireEvent (f ctx) e ctx := by
    unfold StateMachine.FireEventByFetcher StateMachine.FireEvent
    simp only [hf]
  have h2 : m.VerifyWithFetcher e ctx = m.Verify (f ctx) e := by
    unfold StateMachine.VerifyWithFetcher
    simp only [hf]
    by_cases hr : m.ready = true
    · simp [hr]
    · simp [hr, StateMachine.Verify]
  exact ⟨h1, by rw [h1], by rw [h1], h2, by rw [h2]⟩

/-- Witness for C11: the test machine, whose fetcher always answers `foo`. -/
theorem C11_fetcher_equivalence_witness :
    (machineAfter testProgram).currentStateFetcher.map (fun f => f 0) = some "foo" ∧
    ((machineAfter testProgram).FireEventByFetcher "ping" 0).result = .ok "bar" ∧
    ((machineAfter testProgram).FireEventByFetcher "ping" 0).result
      = ((machineAfter testProgram).FireEvent "foo" "ping" 0).result ∧
    ((machineAfter testProgram).VerifyWithFetcher "xxx" 0).result
      = ((machineAfter testProgram).Verify "foo" "xxx").result :=
  have h := C11_fetcher_equivalence (machineAfter testProgram) (fun _ => "foo") rfl "ping" 0
  have h2 := C11_fetcher_equivalence (machineAfter testProgram) (fun _ => "foo") rfl "xxx" 0
  ⟨rfl, rfl, h.2.1, h2.2.2.2.2⟩

theorem SameCandidates.rfl_ (a : Option (StateMap S E C A)) : SameCandidates a a := by
  cases a <;> simp [SameCandidates]

theorem SameCandidates.trans_ {a b c : Option (StateMap S E C A)} (h1 : SameCandidates a b)
    (h2 : SameCandidates b c) : SameCandidates a c := by
  cases a <;> cases b <;> cases c <;> simp_all [SameCandidates]

theorem routeTransition_nil (m : StateMachine S E C A H) (hsm : m.stateMap = none) (s : S)
    (e : E) (ctx : C) :
    m.routeTransition s e ctx =
      { stateMap := none, trace := [], result := .error Fault.nilMapWrite } := by
  unfold StateMachine.routeTransition
  simp [hsm, getState]

theorem fire_nil (m : StateMachine S E C A H) (hsm : m.stateMap = none) (s : S) (e : E)
    (ctx : C) :
    m.fire s e ctx = { stateMap := none, trace := [], result := .error Fault.nilMapWrite } := by
  unfold StateMachine.fire
  rw [routeTransition_nil m hsm]

/-- The calls and the result of `fire` depend on the table through the candidate list only. -/
theorem fire_congr (m m1 : StateMachine S E C A H) (hcb : m1.failCallback = m.failCallback)
    (hc : SameCandidates m.stateMap m1.stateMap) (s : S) (e : E) (ctx : C) :
    (m1.fire s e ctx).result = (m.fire s e ctx).result ∧
    (m1.fire s e ctx).trace = (m.fire s e ctx).trace := by
  cases hsm : m.stateMap with
  | none =>
    cases hsm1 : m1.stateMap with
    | none => rw [fire_nil m hsm, fire_nil m1 hsm1]; exact ⟨rfl, rfl⟩
    | some sm1 => simp [SameCandidates, hsm, hsm1] at hc
  | some sm =>
    cases hsm1 : m1.stateMap with
    | none => simp [SameCandidates, hsm, hsm1] at hc
    | some sm1 =>
      simp only [SameCandidates, hsm, hsm1] at hc
      unfold StateMachine.fire
      rw [routeTransition_alloc m sm hsm, routeTransition_alloc m1 sm1 hsm1, hc s e, hcb]
      simp only
      cases (routeLoop (H := H) ctx (candidates sm s e) none).2 with
      | some t => exact ⟨rfl, rfl⟩
      | none =>
        simp only
        cases m.failCallback with
        | none => exact ⟨rfl, rfl⟩
        | some cb =>
          simp only
          cases (cb.OnFail (A := A) s e ctx).2 <;> exact ⟨rfl, rfl⟩

theorem FireEvent_congr (m m1 : StateMachine S E C A H) (hr : m1.ready = m.ready)
    (hcb : m1.failCallback = m.failCallback) (hc : SameCandidates m.stateMap m1.stateMap)
    (s : S) (e : E) (ctx : C) :
    (m1.FireEvent s e ctx).result = (m.FireEvent s e ctx).result ∧
    (m1.FireEvent s e ctx).trace = (m.FireEvent s e ctx).trace := by
  unfold StateMachine.FireEvent
  rw [hr]
  by_cases hready : m.ready = true
  · simp only [hready, Bool.not_true, Bool.false_eq_true, if_false]
    exact fire_congr m m1 hcb hc s e ctx
  · simp [hready]

theorem Verify_congr (m m1 : StateMachine S E C A H) (hr : m1.ready = m.ready)
    (hc : SameCandidates m.stateMap m1.stateMap) (s : S) (e : E) :
    (m1.Verify s e).result = (m.Verify s e).result ∧
    (m1.Verify s e).trace = (m.Verify s e).trace := by
  by_cases hready : m.ready = true
  · have hready1 : m1.ready = true := hr.trans hready
    cases hsm : m.stateMap with
    | none =>
      cases hsm1 : m1.stateMap with
      | none =>
        simp [StateMachine.Verify, hready, hready1, hsm, hsm1, getState]
      | some sm1 => simp [SameCandidates, hsm, hsm1] at hc
    | some sm =>
      cases hsm1 : m1.stateMap with
      | none => simp [SameCandidates, hsm, hsm1] at hc
      | some sm1 =>
        simp only [SameCandidates, hsm, hsm1] at hc
        rw [Verify_alloc m sm hready hsm, Verify_alloc m1 sm1 hready1 hsm1, hc s e]
        exact ⟨rfl, rfl⟩
  · have hready1 : ¬ m1.ready = true := by rw [hr]; exact hready
    simp [StateMachine.Verify, hready, hready1]

theorem FireEventByFetcher_some (m : StateMachine S E C A H) (f : C → S)
    (hf : m.currentStateFetcher = some f) (e : E) (ctx : C) :
    m.FireEventByFetcher e ctx = m.FireEvent (f ctx) e ctx := by
  unfold StateMachine.FireEventByFetcher StateMachine.FireEvent
  simp only [hf]

theorem VerifyWithFetcher_some (m : StateMachine S E C A H) (f : C → S)
    (hf : m.currentStateFetcher = some f) (e : E) (ctx : C) :
    m.VerifyWithFetcher e ctx = m.Verify (f ctx) e := by
  unfold StateMachine.VerifyWithFetcher
  simp only [hf]
  by_cases hr : m.ready = true
  · simp [hr]
  · simp [hr, StateMachine.Verify]

theorem FireEventByFetcher_none (m : StateMachine S E C A H)
    (hf : m.currentStateFetcher = none) (e : E) (ctx : C) :
    m.FireEventByFetcher e ctx =
      { stateMap := m.stateMap, trace := [],
        result := .error (if m.ready then Fault.noFetcher else Fault.notReady) } := by
  unfold StateMachine.FireEventByFetcher
  by_cases hr : m.ready = true
  · simp [hr, hf]
  · simp [hr]

theorem VerifyWithFetcher_none (m : StateMachine S E C A H)
    (hf : m.currentStateFetcher = none) (e : E) (ctx : C) :
    m.VerifyWithFetcher e ctx =
      { stateMap := m.stateMap, trace := [],
        result := .error (if m.ready then Fault.noFetcher else Fault.notReady) } := by
  unfold StateMachine.VerifyWithFetcher
  by_cases hr : m.ready = true
  · simp [hr, hf]
  · simp [hr]

/-- A `Verify` that returns was made on a built machine with an allocated table; it leaves
the table of the lookup. -/
theorem Verify_ok_table (m : StateMachine S E C A H) (s : S) (e : E) (v : Bool)
    (h : (m.Verify s e).result = .ok v) :
    ∃ sm, m.stateMap = some sm ∧ (m.Verify s e).stateMap = some (tableAfterLookup sm s) := by
  by_cases hr : m.ready = true
  · cases hsm : m.stateMap with
    | none => rw [(Verify_nil m hr hsm s e).1] at h; simp at h
    | some sm => exact ⟨sm, rfl, by rw [Verify_alloc m sm hr hsm]⟩
  · simp [StateMachine.Verify, hr] at h

/-- A `FireEvent` that returns was made on a built machine with an allocated table; it leaves
the table of the lookup. -/
theorem FireEvent_ok_table (m : StateMachine S E C A H) (s : S) (e : E) (ctx : C) (v : S)
    (h : (m.FireEvent s e ctx).result = .ok v) :
    ∃ sm, m.stateMap = some sm ∧
      (m.FireEvent s e ctx).stateMap = some (tableAfterLookup sm s) := by
  by_cases hr : m.ready = true
  · cases hsm : m.stateMap with
    | none =>
      have : m.FireEvent s e ctx = m.fire s e ctx := by simp [StateMachine.FireEvent, hr]
      rw [this, fire_nil m hsm] at h
      simp at h
    | some sm =>
      obtain ⟨h1, h2⟩ := FireEvent_alloc m sm hr hsm s e ctx
      exact ⟨sm, rfl, by rw [h1, h2]⟩
  · simp [StateMachine.FireEvent, hr] at h

theorem sameCandidates_lookup (sm : StateMap S E C A) (s : S) :
    SameCandidates (some sm) (some (tableAfterLookup sm s)) :=
  fun s1 e1 => tableAfterLookup_candidates sm s s1 e1

/-- A run-time call that returns changes nothing the routing reads: the machine keeps its
fields, and its table is the table of a lookup, with the same candidate lists. -/
theorem afterQuery_same (m m1 : StateMachine S E C A H) (q : Query S E C)
    (h : m.afterQuery q = .ok m1) :
    m1.ready = m.ready ∧ m1.failCallback = m.failCallback ∧
    m1.currentStateFetcher = m.currentStateFetcher ∧ m1.machineId = m.machineId ∧
    SameCandidates m.stateMap m1.stateMap ∧
    ∃ sm src, m.stateMap = some sm ∧ m1.stateMap = some (tableAfterLookup sm src) := by
  have key : ∀ (o : Option (StateMap S E C A)) (src : S),
      (∃ sm, m.stateMap = some sm ∧ o = some (tableAfterLookup sm src)) →
      m1 = m.withStateMap o →
      m1.ready = m.ready ∧ m1.failCallback = m.failCallback ∧
      m1.currentStateFetcher = m.currentStateFetcher ∧ m1.machineId = m.machineId ∧
      SameCandidates m.stateMap m1.stateMap ∧
      ∃ sm src, m.stateMap = some sm ∧ m1.stateMap = some (tableAfterLookup sm src) := by
    rintro o src ⟨sm, hsm, ho⟩ hm1
    subst hm1
    subst ho
    refine ⟨rfl, rfl, rfl, rfl, ?_, sm, src, hsm, rfl⟩
    rw [hsm]
    exact sameCandidates_lookup sm src
  cases q with
  | Verify s e =>
    simp only [StateMachine.afterQuery] at h
    cases hres : (m.Verify s e).result with
    | error f => simp [hres] at h
    | ok v =>
      simp only [hres, Except.ok.injEq] at h
      exact key _ s (Verify_ok_table m s e v hres) h.symm
  | FireEvent s e ctx =>
    simp only [StateMachine.afterQuery] at h
    cases hres : (m.FireEvent s e ctx).result with
    | error f => simp [hres] at h
    | ok v =>
      simp only [hres, Except.ok.injEq] at h
      exact key _ s (FireEvent_ok_table m s e ctx v hres) h.symm
  | VerifyWithFetcher e ctx =>
    simp only [StateMachine.afterQuery] at h
    cases hf : m.currentStateFetcher with
    | none =>
      rw [VerifyWithFetcher_none m hf] at h
      simp at h
    | some f =>
      rw [VerifyWithFetcher_some m f hf] at h
      cases hres : (m.Verify (f ctx) e).result with
      | error f => simp [hres] at h
      | ok v =>
        simp only [hres, Except.ok.injEq] at h
        have hk := key _ (f ctx) (Verify_ok_table m (f ctx) e v hres) h.symm
        rw [hf] at hk
        exact hk
  | FireEventByFetcher e ctx =>
    simp only [StateMachine.afterQuery] at h
    cases hf : m.currentStateFetcher with
    | none =>
      rw [FireEventByFetcher_none m hf] at h
      simp at h
    | some f =>
      rw [FireEventByFetcher_some m f hf] at h
      cases hres : (m.FireEvent (f ctx) e ctx).result with
      | error f => simp [hres] at h
      | ok v =>
        simp only [hres, Except.ok.injEq] at h
        have hk := key _ (f ctx) (FireEvent_ok_table m (f ctx) e ctx v hres) h.symm
        rw [hf] at hk
        exact hk

theorem afterQueries_same (qs : List (Query S E C)) :
    ∀ (m m1 : StateMachine S E C A H), m.afterQueries qs = .ok m1 →
      m1.ready = m.ready ∧ m1.failCallback = m.failCallback ∧
      m1.currentStateFetcher = m.currentStateFetcher ∧ m1.machineId = m.machineId ∧
      SameCandidates m.stateMap m1.stateMap := by
  induction qs with
  | nil =>
    intro m m1 h
    simp only [StateMachine.afterQueries, Except.ok.injEq] at h
    subst h
    exact ⟨rfl, rfl, rfl, rfl, SameCandidates.rfl_ _⟩
  | cons q rest ih =>
    intro m m1 h
    unfold StateMachine.afterQueries at h
    cases hq : m.afterQuery q with
    | error f => simp [hq] at h
    | ok m2 =>
      simp only [hq] at h
      obtain ⟨a1, a2, a3, a4, a5, _⟩ := afterQuery_same m m2 q hq
      obtain ⟨b1, b2, b3, b4, b5⟩ := ih m2 m1 h
      exact ⟨b1.trans a1, b2.trans a2, b3.trans a3, b4.trans a4, a5.trans_ b5⟩

/-- On an allocated table and with a handler that returns, `fire` returns: the source when
nothing is selected, and what `transit` returns for the selected record. -/
theorem fire_returns (m : StateMachine S E C A H) (sm : StateMap S E C A) (cb : FailCallback H)
    (hsm : m.stateMap = some sm) (hcb : m.failCallback = some cb) (hna : cb ≠ FailCallback.alert)
    (s : S) (e : E) (ctx : C) :
    (m.fire s e ctx).result =
      .ok (match guardResolution ctx (candidates sm s e) with
           | none => s
           | some t => (t.transit (H := H) ctx false).2) := by
  unfold StateMachine.fire
  rw [routeTransition_alloc m sm hsm, routeLoop_guardResolution]
  simp only [hcb]
  cases hsel : guardResolution ctx (candidates sm s e) with
  | none =>
    cases cb with
    | numb => simp [FailCallback.OnFail]
    | alert => exact absurd rfl hna
    | custom h => simp [FailCallback.OnFail]
  | some t => simp

/-- Every run-time call returns on a built machine with an allocated table, a handler that
returns and a configured fetcher. -/
theorem afterQuery_returns (m : StateMachine S E C A H) (sm : StateMap S E C A)
    (cb : FailCallback H) (f : C → S)
    (hr : m.ready = true) (hsm : m.stateMap = some sm) (hcb : m.failCallback = some cb)
    (hna : cb ≠ FailCallback.alert) (hf : m.currentStateFetcher = some f) (q : Query S E C) :
    ∃ m1, m.afterQuery q = .ok m1 := by
  have hfire : ∀ s e ctx, ∃ v, (m.FireEvent s e ctx).result = .ok v := by
    intro s e ctx
    rw [(FireEvent_alloc m sm hr hsm s e ctx).1, fire_returns m sm cb hsm hcb hna]
    exact ⟨_, rfl⟩
  have hver : ∀ s e, ∃ v, (m.Verify s e).result = .ok v := by
    intro s e
    rw [Verify_alloc m sm hr hsm]
    exact ⟨_, rfl⟩
  cases q with
  | Verify s e =>
    obtain ⟨v, hv⟩ := hver s e
    simp [StateMachine.afterQuery, hv]
  | FireEvent s e ctx =>
    obtain ⟨v, hv⟩ := hfire s e ctx
    simp [StateMachine.afterQuery, hv]
  | VerifyWithFetcher e ctx =>
    obtain ⟨v, hv⟩ := hver (f ctx) e
    simp [StateMachine.afterQuery, VerifyWithFetcher_some m f hf, hv]
  | FireEventByFetcher e ctx =>
    obtain ⟨v, hv⟩ := hfire (f ctx) e ctx
    simp [StateMachine.afterQuery, FireEventByFetcher_some m f hf, hv]

theorem afterQueries_returns (qs : List (Query S E C)) :
    ∀ (m : StateMachine S E C A H) (sm : StateMap S E C A) (cb : FailCallback H) (f : C → S),
      m.ready = true → m.stateMap = some sm → m.failCallback = some cb →
      cb ≠ FailCallback.alert → m.currentStateFetcher = some f →
      ∃ m1, m.afterQueries qs = .ok m1 := by
  induction qs with
  | nil =>
    intro m sm cb f _ _ _ _ _
    exact ⟨m, rfl⟩
  | cons q rest ih =>
    intro m sm cb f hr hsm hcb hna hf
    obtain ⟨m2, hq⟩ := afterQuery_returns m sm cb f hr hsm hcb hna hf q
    obtain ⟨a1, a2, a3, _, _, sm0, src, _, a6⟩ := afterQuery_same m m2 q hq
    obtain ⟨m1, h1⟩ := ih m2 _ cb f (a1.trans hr) a6 (a2.trans hcb) hna (a3.trans hf)
    refine ⟨m1, ?_⟩
    unfold StateMachine.afterQueries
    simp only [hq]
    exact h1

/-- C12. `FireEvent` has no hidden routing state. Let `m1` be the machine `m` after any finite
sequence `qs` of `Verify` / `VerifyWithFetcher` / `FireEvent` / `FireEventByFetcher` calls that
returned, with any sources and events. Then for every `s`, `e` and `ctx`, `FireEvent(s, e, ctx)`
on `m1` returns what it returns on `m` and makes the same guard, action and handler calls with
the same arguments, and `Verify(s, e)` returns the same boolean; in particular the second of two
`FireEvent(s, e, ctx)` calls gives the target and the calls of the first. On a built machine with
an allocated table, a handler that returns and a configured fetcher every such sequence of
calls returns, so the statement is about every sequence there. -/
theorem C12_no_hidden_state (m m1 : StateMachine S E C A H) (qs : List (Query S E C))
    (h : m.afterQueries qs = .ok m1) (s : S) (e : E) (ctx : C) :
    (m1.FireEvent s e ctx).result = (m.FireEvent s e ctx).result ∧
    (m1.FireEvent s e ctx).trace = (m.FireEvent s e ctx).trace ∧
    (m1.Verify s e).result = (m.Verify s e).result ∧
    (∀ m2, m.afterQuery (Query.FireEvent s e ctx) = .ok m2 →
      (m2.FireEvent s e ctx).result = (m.FireEvent s e ctx).result ∧
      (m2.FireEvent s e ctx).trace = (m.FireEvent s e ctx).trace) ∧
    (∀ sm cb f, m.ready = true → m.stateMap = some sm → m.failCallback = some cb →
      cb ≠ FailCallback.alert → m.currentStateFetcher = some f →
      ∀ qs1 : List (Query S E C), ∃ m3, m.afterQueries qs1 = .ok m3) := by
  obtain ⟨h1, h2, _, _, h5⟩ := afterQueries_same qs m m1 h
  obtain ⟨a, b⟩ := FireEvent_congr m m1 h1 h2 h5 s e ctx
  refine ⟨a, b, (Verify_congr m m1 h1 h5 s e).1, ?_, ?_⟩
  · intro m2 hm2
    obtain ⟨c1, c2, _, _, c5, _⟩ := afterQuery_same m m2 _ hm2
    exact FireEvent_congr m m2 c1 c2 c5 s e ctx
  · intro sm cb f hr hsm hcb hna hf qs1
    exact afterQueries_returns qs1 m sm cb f hr hsm hcb hna hf

/-- C12 on the machine of the test file: after `Verify("qux", "xxx")`, `FireEvent("nowhere",
"ping", 0)`, two fetcher calls and `FireEvent("foo", "ping", 0)`, the call
`FireEvent("foo", "ping", 0)` returns what it returns on the fresh machine. -/
theorem C12_no_hidden_state_witness :
    (machineAfter testProgram).afterQueries testQueries =
      .ok ((machineAfter testProgram).afterQueriesD testQueries) ∧
    (((machineAfter testProgram).afterQueriesD testQueries).FireEvent "foo" "ping" 0).result =
      ((machineAfter testProgram).FireEvent "foo" "ping" 0).result :=
  ⟨rfl, (C12_no_hidden_state (machineAfter testProgram)
    ((machineAfter testProgram).afterQueriesD testQueries) testQueries (by rfl) "foo" "ping" 0).1⟩

theorem tableAfterLookup_known (sm : StateMap S E C A) (s s1 : S) (h : (sm s1).isSome = true) :
    tableAfterLookup sm s s1 = sm s1 := by
  unfold tableAfterLookup
  cases hs : sm s with
  | some st => rfl
  | none =>
    have hne : s1 ≠ s := by
      intro heq
      rw [heq, hs] at h
      simp at h
    simp [Function.update_noteq hne]

theorem tableAfterLookup_new (sm : StateMap S E C A) (s : S) (h : sm s = none) :
    tableAfterLookup sm s s =
      some { id := s, eventTransitions := { transitions := fun _ => [] } } := by
  unfold tableAfterLookup
  simp [h]

/-- C13 fails as stated: on the machine of the test file `qux` is not a known state identity,
and after `Verify("qux", "xxx")`, or after `FireEvent("qux", "xxx", 0)`, it is one: the lookup
of the source writes an entry into the table. -/
theorem C13_counterexample_lookup :
    knownState (machineAfter testProgram).stateMap "qux" = false ∧
    ((machineAfter testProgram).Verify "qux" "xxx").result = .ok false ∧
    knownState ((machineAfter testProgram).Verify "qux" "xxx").stateMap "qux" = true ∧
    ((machineAfter testProgram).FireEvent "qux" "xxx" 0).result = .ok "qux" ∧
    knownState ((machineAfter testProgram).FireEvent "qux" "xxx" 0).stateMap "qux" = true := by
  refine ⟨by rfl, by rfl, by rfl, by rfl, by rfl⟩

/-- C13, amended. On a built machine with an allocated table `sm`, each of `Verify(s, e)`,
`FireEvent(s, e, ctx)`, `VerifyWithFetcher(e, ctx)` and `FireEventByFetcher(e, ctx)` leaves the
table of the lookup of its source (`s`, or `f(ctx)` for the fetcher `f`; the table itself when
no fetcher is configured). That table has the candidate lists of `sm` for every state and
event, the entry of `sm` for every state `sm` knows, and knows exactly the states of `sm` and
the source, which has an empty index if it is new. No other field of the machine is written. -/
theorem C13_lookup_only_amended (m : StateMachine S E C A H) (sm : StateMap S E C A)
    (hr : m.ready = true) (hsm : m.stateMap = some sm) (s : S) (e : E) (ctx : C) :
    (m.Verify s e).stateMap = some (tableAfterLookup sm s) ∧
    (m.FireEvent s e ctx).stateMap = some (tableAfterLookup sm s) ∧
    (∀ f, m.currentStateFetcher = some f →
      (m.VerifyWithFetcher e ctx).stateMap = some (tableAfterLookup sm (f ctx)) ∧
      (m.FireEventByFetcher e ctx).stateMap = some (tableAfterLookup sm (f ctx))) ∧
    (m.currentStateFetcher = none →
      (m.VerifyWithFetcher e ctx).stateMap = some sm ∧
      (m.FireEventByFetcher e ctx).stateMap = some sm) ∧
    (∀ src : S,
      (∀ s1 e1, candidates (tableAfterLookup sm src) s1 e1 = candidates sm s1 e1) ∧
      (∀ s1, (sm s1).isSome = true → tableAfterLookup sm src s1 = sm s1) ∧
      (∀ s1, (tableAfterLookup sm src s1).isSome = true ↔ ((sm s1).isSome = true ∨ s1 = src)) ∧
      (sm src = none → tableAfterLookup sm src src =
        some { id := src, eventTransitions := { transitions := fun _ => [] } })) ∧
    (∀ q m1, m.afterQuery q = .ok m1 →
      m1.ready = m.ready ∧ m1.failCallback = m.failCallback ∧
      m1.currentStateFetcher = m.currentStateFetcher ∧ m1.machineId = m.machineId) := by
  have hV : ∀ src, (m.Verify src e).stateMap = some (tableAfterLookup sm src) := by
    intro src
    rw [Verify_alloc m sm hr hsm]
  have hF : ∀ src, (m.FireEvent src e ctx).stateMap = some (tableAfterLookup sm src) := by
    intro src
    obtain ⟨h1, h2⟩ := FireEvent_alloc m sm hr hsm src e ctx
    rw [h1, h2]
  refine ⟨hV s, hF s, ?_, ?_, ?_, ?_⟩
  · intro f hf
    rw [VerifyWithFetcher_some m f hf, FireEventByFetcher_some m f hf]
    exact ⟨hV _, hF _⟩
  · intro hf
    rw [VerifyWithFetcher_none m hf, FireEventByFetcher_none m hf]
    exact ⟨hsm, hsm⟩
  · intro src
    exact ⟨tableAfterLookup_candidates sm src, tableAfterLookup_known sm src,
      tableAfterLookup_isSome sm src, tableAfterLookup_new sm src⟩
  · intro q m1 hq
    obtain ⟨a1, a2, a3, a4, _⟩ := afterQuery_same m m1 q hq
    exact ⟨a1, a2, a3, a4⟩

/-- C13, amended, on the machine of the test file and the unknown source `qux`. -/
theorem C13_lookup_only_amended_witness :
    (machineAfter testProgram).ready = true ∧
    (machineAfter testProgram).stateMap = some (World.after testProgram).table ∧
    ((machineAfter testProgram).Verify "qux" "xxx").stateMap =
      some (tableAfterLookup (World.after testProgram).table "qux") :=
  ⟨by rfl, by rfl,
   (C13_lookup_only_amended (machineAfter testProgram) (World.after testProgram).table
     (by rfl) (by rfl) "qux" "xxx" 0).1⟩

/-- On an allocated table, a source the table does not know has no candidates: `Verify` returns
false and `FireEvent` calls the handler once and returns the source. -/
theorem absent_source (m : StateMachine S E C A H) (sm : StateMap S E C A) (cb : FailCallback H)
    (hr : m.ready = true) (hsm : m.stateMap = some sm) (hcb : m.failCallback = some cb)
    (hna : cb ≠ FailCallback.alert) (s : S) (e : E) (ctx : C) (hs : sm s = none) :
    (m.Verify s e).result = .ok false ∧ (m.FireEvent s e ctx).result = .ok s ∧
    (m.FireEvent s e ctx).trace = [Effect.onFail cb s e ctx] := by
  have hc : candidates sm s e = [] := by simp [candidates, hs]
  refine ⟨by rw [Verify_alloc m sm hr hsm, hc]; rfl, ?_, ?_⟩
  · rw [(FireEvent_alloc m sm hr hsm s e ctx).1, fire_returns m sm cb hsm hcb hna, hc]
    rfl
  · rw [(FireEvent_alloc m sm hr hsm s e ctx).1]
    unfold StateMachine.fire
    rw [routeTransition_alloc m sm hsm, hc]
    simp only [routeLoop, hcb]
    cases cb with
    | numb => simp [FailCallback.OnFail]
    | alert => exact absurd rfl hna
    | custom h => simp [FailCallback.OnFail]

/-- C14 at the failing input. `Build` on a Builder on which no transition was declared gives a
machine whose table is the nil map of the Builder; on it `Verify(s, e)` and
`FireEvent(s, e, ctx)` end in the fault of a write to a nil map (the lookup of the source writes
the entry it does not find) for every `s`, `e` and `ctx`, return nothing and make no handler
call. On an allocated table the claim holds: for a source the table does not know `Verify`
returns false and `FireEvent` returns the source after one handler call. -/
theorem C14_empty_builder_fault (machineId : String) (s : S) (e : E) (ctx : C) :
    BuiltMachine ((World.init : World S E C A H).buildMachine machineId) ∧
    ((World.init : World S E C A H).buildMachine machineId).stateMap = none ∧
    (((World.init : World S E C A H).buildMachine machineId).Verify s e).result =
      .error Fault.nilMapWrite ∧
    (((World.init : World S E C A H).buildMachine machineId).FireEvent s e ctx).result =
      .error Fault.nilMapWrite ∧
    (((World.init : World S E C A H).buildMachine machineId).FireEvent s e ctx).trace = [] ∧
    (∀ (m : StateMachine S E C A H) (sm : StateMap S E C A) (cb : FailCallback H),
      m.ready = true → m.stateMap = some sm → m.failCallback = some cb →
      cb ≠ FailCallback.alert → sm s = none →
      (m.Verify s e).result = .ok false ∧ (m.FireEvent s e ctx).result = .ok s ∧
      (m.FireEvent s e ctx).trace = [Effect.onFail cb s e ctx]) ∧
    ((machineAfter emptyBuilderProgram).Verify "foo" "ping").result =
      .error Fault.nilMapWrite ∧
    ((machineAfter emptyBuilderProgram).FireEvent "foo" "ping" 0).result =
      .error Fault.nilMapWrite := by
  have hsm : ((World.init : World S E C A H).buildMachine machineId).stateMap = none := rfl
  have hr : ((World.init : World S E C A H).buildMachine machineId).ready = true := rfl
  have hfe : ∀ m : StateMachine S E C A H, m.ready = true → m.stateMap = none →
      m.FireEvent s e ctx =
        { stateMap := none, trace := [], result := .error Fault.nilMapWrite } := by
    intro m h1 h2
    have : m.FireEvent s e ctx = m.fire s e ctx := by simp [StateMachine.FireEvent, h1]
    rw [this, fire_nil m h2]
  refine ⟨built_buildMachine ⟨[], rfl⟩ machineId, hsm, (Verify_nil _ hr hsm s e).1, ?_, ?_, ?_,
    by rfl, by rfl⟩
  · rw [hfe _ hr hsm]
  · rw [hfe _ hr hsm]
  · intro m sm cb h1 h2 h3 h4 h5
    exact absent_source m sm cb h1 h2 h3 h4 s e ctx h5

/-- The loop passes over an unguarded candidate by remembering it: where it stands among
guarded candidates makes no difference to the guards evaluated or to the selection. -/
theorem routeLoop_insert (ctx : C) (u : transition S E C A) (hu : unguarded u = true)
    (post : List (transition S E C A)) :
    ∀ (pre : List (transition S E C A)) (acc : Option (transition S E C A)),
      (∀ x ∈ pre, unguarded x = false) →
      routeLoop (H := H) ctx (pre ++ u :: post) acc =
        routeLoop (H := H) ctx (pre ++ post) (some u) := by
  have hcu : u.condition = none := by
    simpa [unguarded] using hu
  intro pre
  induction pre with
  | nil =>
    intro acc _
    simp [routeLoop, hcu]
  | cons x rest ih =>
    intro acc hpre
    have hx : unguarded x = false := hpre x (List.mem_cons_self _ _)
    have hrest : ∀ y ∈ rest, unguarded y = false :=
      fun y hy => hpre y (List.mem_cons_of_mem _ hy)
    cases hc : x.condition with
    | none => simp [unguarded, hc] at hx
    | some c =>
      by_cases hcc : c ctx = true
      · simp [routeLoop, hc, hcc]
      · simp [routeLoop, hc, hcc, ih acc hrest]

/-- With one unguarded candidate `u` among the guarded candidates `gs`, the selection is the
first of `gs` whose guard holds, and `u` if there is none. -/
theorem routeLoop_fallback (ctx : C) (u : transition S E C A) (hu : unguarded u = true)
    (gs pre post : List (transition S E C A)) (hg : ∀ x ∈ gs, unguarded x = false)
    (hgs : pre ++ post = gs) :
    routeLoop (H := H) ctx (pre ++ u :: post) none = routeLoop (H := H) ctx gs (some u) ∧
    (routeLoop (H := H) ctx gs (some u)).2 = some (selectWithFallback ctx gs u) := by
  have hpre : ∀ x ∈ pre, unguarded x = false := by
    intro x hx
    exact hg x (hgs ▸ List.mem_append_left _ hx)
  refine ⟨by rw [routeLoop_insert ctx u hu post pre none hpre, hgs], ?_⟩
  rw [routeLoop_select]
  have hf : gs.filter unguarded = [] := by
    rw [List.filter_eq_nil_iff]
    intro x hx
    simp [hg x hx]
  unfold selectWithFallback
  cases List.find? (guardHolds ctx) gs with
  | some x => rfl
  | none => simp [hf]

/-- The outcome of `FireEvent` when the candidates of `(s, e)` are the guarded `gs` with one
unguarded `u` placed anywhere among them. -/
theorem FireEvent_fallback (m : StateMachine S E C A H) (sm : StateMap S E C A)
    (hr : m.ready = true) (hsm : m.stateMap = some sm) (s : S) (e : E) (ctx : C)
    (u : transition S E C A) (hu : unguarded u = true)
    (gs pre post : List (transition S E C A)) (hg : ∀ x ∈ gs, unguarded x = false)
    (hc : candidates sm s e = pre ++ u :: post) (hgs : pre ++ post = gs) :
    guardResolution ctx (candidates sm s e) = some (selectWithFallback ctx gs u) ∧
    (m.routeTransition s e ctx).result = .ok (some (selectWithFallback ctx gs u)) ∧
    (m.FireEvent s e ctx).result =
      .ok ((selectWithFallback ctx gs u).transit (H := H) ctx false).2 ∧
    (m.FireEvent s e ctx).trace =
      (routeLoop (H := H) ctx gs (some u)).1 ++
        ((selectWithFallback ctx gs u).transit (H := H) ctx false).1 := by
  obtain ⟨k1, k2⟩ := routeLoop_fallback (H := H) ctx u hu gs pre post hg hgs
  have hrt : m.routeTransition s e ctx =
      { stateMap := some (tableAfterLookup sm s),
        trace := (routeLoop (H := H) ctx gs (some u)).1,
        result := .ok (some (selectWithFallback ctx gs u)) } := by
    rw [routeTransition_alloc m sm hsm, hc, k1, k2]
  refine ⟨?_, by rw [hrt], ?_, ?_⟩
  · rw [← routeLoop_guardResolution (H := H), hc, k1, k2]
  · rw [(FireEvent_alloc m sm hr hsm s e ctx).1]
    unfold StateMachine.fire
    rw [hrt]
  · rw [(FireEvent_alloc m sm hr hsm s e ctx).1]
    unfold StateMachine.fire
    rw [hrt]

/-- C15. The position of the unguarded fallback is irrelevant. Let the candidates of `(s, e)`
in two built machines be the same guarded transitions `gs`, in the same order, with the one
unguarded transition `u` placed anywhere among them (`pre1 ++ u :: post1` in one machine,
`pre2 ++ u :: post2` in the other, `pre1 ++ post1 = pre2 ++ post2 = gs`). Then for every
context routing selects the same transition in both (the first of `gs` whose guard holds, and
`u` if none does), and `FireEvent(s, e, ctx)` returns the same state and makes the same guard
and action calls with the same arguments in both. -/
theorem C15_fallback_position (m1 m2 : StateMachine S E C A H) (sm1 sm2 : StateMap S E C A)
    (hr1 : m1.ready = true) (hr2 : m2.ready = true)
    (hsm1 : m1.stateMap = some sm1) (hsm2 : m2.stateMap = some sm2) (s : S) (e : E)
    (u : transition S E C A) (gs pre1 post1 pre2 post2 : List (transition S E C A))
    (hu : unguarded u = true) (hg : ∀ x ∈ gs, unguarded x = false)
    (hc1 : candidates sm1 s e = pre1 ++ u :: post1) (hgs1 : pre1 ++ post1 = gs)
    (hc2 : candidates sm2 s e = pre2 ++ u :: post2) (hgs2 : pre2 ++ post2 = gs) (ctx : C) :
    (m1.routeTransition s e ctx).result = (m2.routeTransition s e ctx).result ∧
    (m1.routeTransition s e ctx).result = .ok (some (selectWithFallback ctx gs u)) ∧
    guardResolution ctx (candidates sm1 s e) = guardResolution ctx (candidates sm2 s e) ∧
    (m1.FireEvent s e ctx).result = (m2.FireEvent s e ctx).result ∧
    (m1.FireEvent s e ctx).trace = (m2.FireEvent s e ctx).trace := by
  obtain ⟨a1, a2, a3, a4⟩ :=
    FireEvent_fallback m1 sm1 hr1 hsm1 s e ctx u hu gs pre1 post1 hg hc1 hgs1
  obtain ⟨b1, b2, b3, b4⟩ :=
    FireEvent_fallback m2 sm2 hr2 hsm2 s e ctx u hu gs pre2 post2 hg hc2 hgs2
  exact ⟨by rw [a2, b2], a2, by rw [a1, b1], by rw [a3, b3], by rw [a4, b4]⟩

/-- C15 on two programs over the Builder API that declare the unguarded `foo -[ping]-> bar`
before and after the guarded `foo -[ping]-> baz`: on the context 7 both machines return the
same state. -/
theorem C15_fallback_position_witness :
    candidates (World.after fallbackFirstProgram).table "foo" "ping" =
      [] ++ fallbackRecord :: [guardedRecord] ∧
    candidates (World.after fallbackLastProgram).table "foo" "ping" =
      [guardedRecord] ++ fallbackRecord :: [] ∧
    ((machineAfter fallbackFirstProgram).FireEvent "foo" "ping" 7).result =
      ((machineAfter fallbackLastProgram).FireEvent "foo" "ping" 7).result :=
  ⟨by rfl, by rfl,
   (C15_fallback_position (machineAfter fallbackFirstProgram) (machineAfter fallbackLastProgram)
     (World.after fallbackFirstProgram).table (World.after fallbackLastProgram).table
     (by rfl) (by rfl) (by rfl) (by rfl) "foo" "ping" fallbackRecord [guardedRecord]
     [] [guardedRecord] [guardedRecord] [] (by rfl)
     (by
       intro x hx
       simp only [List.mem_singleton] at hx
       subst hx
       rfl)
     (by rfl) (by rfl) (by rfl) (by rfl) 7).2.2.2.1⟩

end runtime

/-! ## The Factory -/

section factory

set_option linter.unusedSectionVars false

variable {S E C A H : Type} [DecidableEq S] [DecidableEq E] {P : Type}

theorem Factory.keysContain_table (f : Factory P) (machineId : String) :
    f.keysContain machineId = (f.table machineId).isSome := by
  unfold Factory.keysContain Factory.table
  cases f.container <;> rfl

theorem Factory.Get_table (f : Factory P) (machineId : String) :
    f.Get machineId =
      match f.table machineId with
      | some p => (some p, none)
      | none => (none, some (FactoryError.noInstance machineId)) := by
  unfold Factory.Get
  rw [Factory.keysContain_table]
  cases h : f.table machineId <;> simp

/-- What `Register` does, read off the entries: with the id taken it returns the error and
leaves the Factory as it is; otherwise it stores the pointer under the id. -/
theorem Factory.Register_table (f : Factory P) (heap : P → StateMachine S E C A H) (p : P) :
    f.Register heap (some p) =
      if (f.table (heap p).machineId).isSome then
        .ok (f, some (FactoryError.alreadyBuilt (heap p).machineId))
      else
        .ok ({ container := some (Function.update f.table (heap p).machineId (some p)) },
             none) := by
  unfold Factory.Register
  cases hc : f.container with
  | none => simp [Factory.keysContain, Factory.table, hc]
  | some c =>
    simp only [Factory.keysContain_table]

/-- C16. `Register(m)`, for the machine at address `p` with id `id`, returns an error exactly
when an entry for `id` is registered already (`Get(id)` returns a machine and no error). On the
error the Factory is unchanged, so `Get` returns for every id what it returned before, the
machine registered first included. On success the container is the old one with the entry
`id -> p` added: `Get(id)` returns `p`, and `Get` of every other id returns what it returned
before. The first `Register` on a zero-value Factory succeeds and leaves one entry. -/
theorem C16_register_no_overwrite (f : Factory P) (heap : P → StateMachine S E C A H) (p : P) :
    (∃ f1 r, f.Register heap (some p) = .ok (f1, r) ∧
      (r.isSome = true ↔ ∃ p0, f.Get (heap p).machineId = (some p0, none)) ∧
      (r.isSome = true →
        r = some (FactoryError.alreadyBuilt (heap p).machineId) ∧ f1 = f ∧
        ∀ machineId, f1.Get machineId = f.Get machineId) ∧
      (r = none →
        f1.container = some (Function.update f.table (heap p).machineId (some p)) ∧
        f1.Get (heap p).machineId = (some p, none) ∧
        ∀ machineId, machineId ≠ (heap p).machineId → f1.Get machineId = f.Get machineId)) ∧
    (Factory.zero : Factory P).Register heap (some p) =
      .ok ({ container := some (Function.update (fun _ => none) (heap p).machineId (some p)) },
           none) := by
  refine ⟨?_, rfl⟩
  have hR := Factory.Register_table f heap p
  cases ht : f.table (heap p).machineId with
  | some p0 =>
    simp only [ht, Option.isSome_some, if_true] at hR
    refine ⟨f, _, hR, ?_, ?_, ?_⟩
    · simp only [Option.isSome_some, true_iff]
      exact ⟨p0, by rw [Factory.Get_table, ht]⟩
    · intro _
      exact ⟨rfl, rfl, fun _ => rfl⟩
    · intro h
      simp at h
  | none =>
    simp only [ht, Option.isSome_none, Bool.false_eq_true, if_false] at hR
    refine ⟨_, none, hR, ?_, ?_, ?_⟩
    · simp only [Option.isSome_none, Bool.false_eq_true, false_iff]
      rintro ⟨p0, hp0⟩
      rw [Factory.Get_table, ht] at hp0
      simp at hp0
    · intro h
      simp at h
    · intro _
      refine ⟨rfl, ?_, ?_⟩
      · rw [Factory.Get_table]
        simp [Factory.table]
      · intro machineId hne
        rw [Factory.Get_table, Factory.Get_table]
        simp [Factory.table, Function.update_noteq hne]

/-- What a sequence of `Register` calls leaves: an entry is in the container exactly when it
was there before or one of the calls stored it. -/
theorem Factory.registerAll_table (calls : List ((P → StateMachine S E C A H) × Option P)) :
    ∀ (f f1 : Factory P) (stored : List (String × P)),
      f.registerAll calls = .ok (f1, stored) →
      ∀ machineId p, f1.table machineId = some p ↔
        (f.table machineId = some p ∨ (machineId, p) ∈ stored) := by
  induction calls with
  | nil =>
    intro f f1 stored h machineId p
    simp only [Factory.registerAll, Except.ok.injEq, Prod.mk.injEq] at h
    obtain ⟨h1, h2⟩ := h
    subst h1
    subst h2
    simp
  | cons c rest ih =>
    intro f f1 stored h machineId p
    obtain ⟨heap, s⟩ := c
    cases s with
    | none => simp [Factory.registerAll, Factory.Register] at h
    | some q =>
      unfold Factory.registerAll at h
      rw [Factory.Register_table] at h
      cases ht : f.table (heap q).machineId with
      | some p0 =>
        simp only [ht, Option.isSome_some, if_true] at h
        cases hrest : f.registerAll rest with
        | error e => simp [hrest] at h
        | ok r =>
          obtain ⟨f2, stored2⟩ := r
          simp only [hrest, Except.ok.injEq, Prod.mk.injEq] at h
          obtain ⟨h1, h2⟩ := h
          subst h1
          subst h2
          exact ih f f2 stored2 hrest machineId p
      | none =>
        simp only [ht, Option.isSome_none, Bool.false_eq_true, if_false] at h
        cases hrest : Factory.registerAll (S := S) (E := E) (C := C) (A := A) (H := H)
            { container := some (Function.update f.table (heap q).machineId (some q)) }
            rest with
        | error e => simp [hrest] at h
        | ok r =>
          obtain ⟨f2, stored2⟩ := r
          simp only [hrest, Except.ok.injEq, Prod.mk.injEq] at h
          obtain ⟨h1, h2⟩ := h
          subst h1
          subst h2
          rw [ih _ f2 stored2 hrest machineId p]
          by_cases hid : machineId = (heap q).machineId
          · subst hid
            have e1 : Factory.table
                { container := some (Function.update f.table (heap q).machineId (some q)) }
                (heap q).machineId = some q := by
              simp only [Factory.table, Function.update_same]
            rw [e1, ht]
            constructor
            · rintro (h3 | h3)
              · right
                rw [Option.some.inj h3]
                exact List.mem_cons_self _ _
              · right
                exact List.mem_cons_of_mem _ h3
            · rintro (h3 | h3)
              · simp at h3
              · rcases List.mem_cons.mp h3 with h4 | h4
                · left
                  rw [(Prod.mk.inj h4).2]
                · right
                  exact h4
          · have hne : ¬ ((machineId, p) = ((heap q).machineId, q)) := by
              intro heq
              exact hid (Prod.mk.inj heq).1
            simp [Factory.table, Function.update_noteq hid, hne]

/-- C17. Factory round trip. Let `f1` be the Factory after any sequence of `Register` calls on
a zero-value Factory, and `stored` the `(id, machine)` pairs of the calls that returned no
error. Then: after a further `Register(m)` that succeeds, `Get` of the id of `m` returns `m`
and no error; for every id, `Get(id)` returns an error exactly when no call registered a
machine under `id`, and it then returns no machine; `Get(id)` returns the machine that was
registered under `id`; and on the zero-value Factory `Get` returns the error for every id. -/
theorem C17_factory_round_trip (calls : List ((P → StateMachine S E C A H) × Option P))
    (f1 : Factory P) (stored : List (String × P))
    (h : (Factory.zero : Factory P).registerAll calls = .ok (f1, stored)) :
    (∀ (heap : P → StateMachine S E C A H) (p : P) (f2 : Factory P),
      f1.Register heap (some p) = .ok (f2, none) →
      f2.Get (heap p).machineId = (some p, none)) ∧
    (∀ machineId, (f1.Get machineId).2.isSome = true ↔ ∀ p, (machineId, p) ∉ stored) ∧
    (∀ machineId, (f1.Get machineId).2.isSome = true →
      f1.Get machineId = (none, some (FactoryError.noInstance machineId))) ∧
    (∀ machineId p, (machineId, p) ∈ stored → f1.Get machineId = (some p, none)) ∧
    (∀ machineId,
      (Factory.zero : Factory P).Get machineId =
        (none, some (FactoryError.noInstance machineId))) := by
  have ht := Factory.registerAll_table calls Factory.zero f1 stored h
  have hz : ∀ machineId, (Factory.zero : Factory P).table machineId = none := fun _ => rfl
  refine ⟨?_, ?_, ?_, ?_, fun _ => rfl⟩
  · intro heap p f2 hreg
    rw [Factory.Register_table] at hreg
    cases hc : f1.table (heap p).machineId with
    | some p0 => simp [hc] at hreg
    | none =>
      simp only [hc, Option.isSome_none, Bool.false_eq_true, if_false, Except.ok.injEq,
        Prod.mk.injEq, and_true] at hreg
      subst hreg
      rw [Factory.Get_table]
      simp [Factory.table]
  · intro machineId
    rw [Factory.Get_table]
    cases hc : f1.table machineId with
    | some p0 =>
      simp only [Option.isSome_none, Bool.false_eq_true, false_iff, not_forall, not_not]
      refine ⟨p0, ?_⟩
      rcases (ht machineId p0).mp hc with h1 | h1
      · rw [hz] at h1
        simp at h1
      · exact h1
    | none =>
      simp only [Option.isSome_some, true_iff]
      intro p hp
      have := (ht machineId p).mpr (Or.inr hp)
      rw [hc] at this
      simp at this
  · intro machineId hg
    rw [Factory.Get_table] at hg ⊢
    cases hc : f1.table machineId with
    | some p0 => simp [hc] at hg
    | none => rfl
  · intro machineId p hp
    rw [Factory.Get_table, (ht machineId p).mpr (Or.inr hp)]

/-- C17 on the test file: after `f.Register(statemachine)` and a second `Register` of a machine
with the same id, `Get("test")` returns the machine registered first. -/
theorem C17_factory_round_trip_witness :
    (Factory.zero : Factory Nat).registerAll testRegistrations =
      .ok ({ container := some (Function.update (fun _ => none) "test" (some 0)) },
           [("test", 0)]) ∧
    (Factory.mk (some (Function.update (fun _ => none) "test" (some 0)))).Get "test" =
      (some 0, none) :=
  ⟨by rfl,
   (C17_factory_round_trip testRegistrations
     (Factory.mk (some (Function.update (fun _ => none) "test" (some 0)))) [("test", 0)]
     (by rfl)).2.2.2.1 "test" 0 (List.mem_cons_self _ _)⟩

end factory

/-! ## The fetcher -/

section fetcher

set_option linter.unusedSectionVars false

variable {S E C A H : Type} [DecidableEq S] [DecidableEq E]

theorem step_fetcher {w w1 : World S E C A H} (c : Call S E C A H) (h : step w c = .ok w1) :
    w1.currentStateFetcher = fetcherAfter w.currentStateFetcher c := by
  cases c <;> simp only [step, World.afterCall, World.Build] at h <;>
    (repeat' split at h) <;>
    first
    | (cases h; done)
    | (simp only [Except.ok.injEq] at h; subst h; rfl)

theorem run_fetcher (cs : List (Call S E C A H)) :
    ∀ (w w1 : World S E C A H), run w cs = .ok w1 →
      w1.currentStateFetcher = cs.foldl fetcherAfter w.currentStateFetcher := by
  induction cs with
  | nil =>
    intro w w1 h
    simp only [run, Except.ok.injEq] at h
    subst h
    rfl
  | cons c rest ih =>
    intro w w1 h
    unfold run at h
    cases hs : step w c with
    | error f => simp [hs] at h
    | ok w2 =>
      simp only [hs] at h
      rw [ih w2 w1 h, step_fetcher c hs]
      rfl

/-- Neither `Verify` nor `FireEvent` ends in the fault of a missing fetcher. -/
theorem no_fetcher_fault (m : StateMachine S E C A H) (s : S) (e : E) (ctx : C) :
    (m.Verify s e).result ≠ .error Fault.noFetcher ∧
    (m.FireEvent s e ctx).result ≠ .error Fault.noFetcher := by
  by_cases hr : m.ready = true
  · cases hsm : m.stateMap with
    | none =>
      refine ⟨by rw [(Verify_nil m hr hsm s e).1]; simp, ?_⟩
      have : m.FireEvent s e ctx = m.fire s e ctx := by simp [StateMachine.FireEvent, hr]
      rw [this, fire_nil m hsm]
      simp
    | some sm =>
      refine ⟨by rw [Verify_alloc m sm hr hsm]; simp, ?_⟩
      rw [(FireEvent_alloc m sm hr hsm s e ctx).1]
      unfold StateMachine.fire
      rw [routeTransition_alloc m sm hsm]
      simp only
      split
      · rename_i f hf
        simp at hf
      · cases hcb : m.failCallback with
        | none => simp
        | some cb => cases cb <;> simp [FailCallback.OnFail]
      · simp
  · simp [StateMachine.Verify, StateMachine.FireEvent, hr]

/-- A program with no `SetCurrentStateFetcher` call that passes a fetcher leaves the field nil. -/
theorem lastFetcher_of_not_called (cs : List (Call S E C A H))
    (h : calledWithFetcher cs = false) : lastFetcher cs = none := by
  unfold lastFetcher calledWithFetcher at *
  induction cs with
  | nil => rfl
  | cons c rest ih =>
    simp only [List.any_cons, Bool.or_eq_false_iff] at h
    obtain ⟨hc, hrest⟩ := h
    have hstep : fetcherAfter (none : Option (C → S)) c = none := by
      cases c with
      | SetCurrentStateFetcher f =>
        cases f with
        | none => rfl
        | some g => simp [Call.setsFetcher] at hc
      | _ => rfl
    rw [List.foldl_cons, hstep]
    exact ih hrest

/-- C18 fails as stated: the program below calls `SetCurrentStateFetcher` with a non-nil
fetcher before `Build`, and then `SetCurrentStateFetcher(nil)`; it runs without a fault, and on
the machine `Build` returns `FireEventByFetcher` and `VerifyWithFetcher` end in the fatal error
of a missing fetcher all the same: the setter is a plain assignment and `Build` copies the
field. -/
theorem C18_counterexample_unset :
    calledWithFetcher fetcherUnsetProgram = true ∧
    (run World.init (fetcherUnsetProgram ++ [Call.Build "m"])).isOk = true ∧
    ((machineAfter (fetcherUnsetProgram ++ [Call.Build "m"])).FireEventByFetcher "ping" 0).result
      = .error Fault.noFetcher ∧
    ((machineAfter (fetcherUnsetProgram ++ [Call.Build "m"])).VerifyWithFetcher "ping" 0).result
      = .error Fault.noFetcher := by
  refine ⟨by rfl, by rfl, by rfl, by rfl⟩

/-- C18, amended. Let `w` be the Builder after the program `cs` and `m` the machine `Build`
returns then. The fetcher of `m` is the argument of the last `SetCurrentStateFetcher` call of
`cs` (nil if there is none). `FireEventByFetcher(e, ctx)` and `VerifyWithFetcher(e, ctx)` on `m`
end in the fatal error of a missing fetcher exactly when that fetcher is nil: no accessor is
configured when `Build` runs. They then return nothing, evaluate no guard, run no action, call
no handler and leave the table as it is. With a fetcher `f` they are
`FireEvent(f(ctx), e, ctx)` and `Verify(f(ctx), e)`. In particular they end in that error when
`SetCurrentStateFetcher` was never called with a non-nil fetcher. `Verify` and `FireEvent` never
end in that error. -/
theorem C18_no_fetcher_fatal_amended (cs : List (Call S E C A H)) (w : World S E C A H)
    (h : run World.init cs = .ok w) (machineId : String) (e : E) (ctx : C) :
    BuiltMachine (w.buildMachine machineId) ∧
    (w.buildMachine machineId).currentStateFetcher = lastFetcher cs ∧
    (((w.buildMachine machineId).FireEventByFetcher e ctx).result = .error Fault.noFetcher ↔
      lastFetcher cs = none) ∧
    (((w.buildMachine machineId).VerifyWithFetcher e ctx).result = .error Fault.noFetcher ↔
      lastFetcher cs = none) ∧
    (lastFetcher cs = none →
      (w.buildMachine machineId).FireEventByFetcher e ctx =
        { stateMap := w.stateMap, trace := [], result := .error Fault.noFetcher } ∧
      (w.buildMachine machineId).VerifyWithFetcher e ctx =
        { stateMap := w.stateMap, trace := [], result := .error Fault.noFetcher }) ∧
    (∀ f, lastFetcher cs = some f →
      (w.buildMachine machineId).FireEventByFetcher e ctx =
        (w.buildMachine machineId).FireEvent (f ctx) e ctx ∧
      (w.buildMachine machineId).VerifyWithFetcher e ctx =
        (w.buildMachine machineId).Verify (f ctx) e) ∧
    (∀ s, ((w.buildMachine machineId).Verify s e).result ≠ .error Fault.noFetcher ∧
      ((w.buildMachine machineId).FireEvent s e ctx).result ≠ .error Fault.noFetcher) ∧
    (calledWithFetcher cs = false →
      ((w.buildMachine machineId).FireEventByFetcher e ctx).result = .error Fault.noFetcher ∧
      ((w.buildMachine machineId).VerifyWithFetcher e ctx).result = .error Fault.noFetcher) := by
  have hf : (w.buildMachine machineId).currentStateFetcher = lastFetcher cs :=
    run_fetcher cs World.init w h
  have hnone : lastFetcher cs = none →
      (w.buildMachine machineId).FireEventByFetcher e ctx =
        { stateMap := w.stateMap, trace := [], result := .error Fault.noFetcher } ∧
      (w.buildMachine machineId).VerifyWithFetcher e ctx =
        { stateMap := w.stateMap, trace := [], result := .error Fault.noFetcher } := by
    intro hl
    rw [FireEventByFetcher_none _ (hf.trans hl), VerifyWithFetcher_none _ (hf.trans hl)]
    exact ⟨rfl, rfl⟩
  have hsome : ∀ f, lastFetcher cs = some f →
      (w.buildMachine machineId).FireEventByFetcher e ctx =
        (w.buildMachine machineId).FireEvent (f ctx) e ctx ∧
      (w.buildMachine machineId).VerifyWithFetcher e ctx =
        (w.buildMachine machineId).Verify (f ctx) e := by
    intro f hl
    exact ⟨FireEventByFetcher_some _ f (hf.trans hl) e ctx,
      VerifyWithFetcher_some _ f (hf.trans hl) e ctx⟩
  refine ⟨built_buildMachine ⟨cs, h⟩ machineId, hf, ?_, ?_, hnone, hsome,
    fun s => no_fetcher_fault _ s e ctx, ?_⟩
  rotate_right
  · intro hnc
    have hl := lastFetcher_of_not_called cs hnc
    rw [(hnone hl).1, (hnone hl).2]
    exact ⟨rfl, rfl⟩
  · constructor
    · intro hres
      cases hl : lastFetcher cs with
      | none => rfl
      | some f =>
        rw [(hsome f hl).1] at hres
        exact absurd hres (no_fetcher_fault _ (f ctx) e ctx).2
    · intro hl
      rw [(hnone hl).1]
  · constructor
    · intro hres
      cases hl : lastFetcher cs with
      | none => rfl
      | some f =>
        rw [(hsome f hl).2] at hres
        exact absurd hres (no_fetcher_fault _ (f ctx) e ctx).1
    · intro hl
      rw [(hnone hl).2]

/-- C18, amended, on two programs: with no `SetCurrentStateFetcher` call `FireEventByFetcher`
ends in the fatal error on the machine built; with the fetcher of the test file, which always
answers `foo`, it is `FireEvent("foo", "ping", 0)`. -/
theorem C18_no_fetcher_fatal_amended_witness :
    run World.init noFetcherProgram = .ok (World.after noFetcherProgram) ∧
    (((World.after noFetcherProgram).buildMachine "m").FireEventByFetcher "ping" 0).result =
      .error Fault.noFetcher ∧
    run World.init testProgram = .ok (World.after testProgram) ∧
    ((World.after testProgram).buildMachine "m").FireEventByFetcher "ping" 0 =
      ((World.after testProgram).buildMachine "m").FireEvent "foo" "ping" 0 :=
  ⟨by rfl,
   (C18_no_fetcher_fatal_amended noFetcherProgram (World.after noFetcherProgram) (by rfl)
     "m" "ping" 0).2.2.1.mpr (by rfl),
   by rfl,
   ((C18_no_fetcher_fatal_amended testProgram (World.after testProgram) (by rfl)
     "m" "ping" 0).2.2.2.2.2.1 (fun _ => "foo") (by rfl)).1⟩

end fetcher

/-! ## Validation at transit time -/

section validation

set_option linter.unusedSectionVars false

variable {S E C A H : Type} [DecidableEq S] [DecidableEq E]

/-- C19. For every transition record `t`: the validation fails exactly when `t` is INTERNAL with
source different from target, and succeeds for every other record (EXTERNAL, LOCAL, or INTERNAL
with source equal to target). When it fails, `transit` returns the source of `t` on every
context and for both values of `checkCondition`, and makes no call: the action is not invoked
and the guard is not evaluated. -/
theorem C19_internal_rejected (t : transition S E C A) (ctx : C) (checkCondition : Bool) :
    (t.verify = .error Fault.invalidInternal ↔
      (t.t = TransitionType.INTERNAL ∧ t.source ≠ t.target)) ∧
    (t.verify = .ok () ↔ ¬ (t.t = TransitionType.INTERNAL ∧ t.source ≠ t.target)) ∧
    ((t.t = TransitionType.INTERNAL ∧ t.source ≠ t.target) →
      t.transit (H := H) ctx checkCondition = ([], t.source)) ∧
    (invalidInternalRecord.transit (H := Unit) 0 true = ([], "foo") ∧
      invalidInternalRecord.transit (H := Unit) 0 false = ([], "foo")) := by
  by_cases hinv : t.t = TransitionType.INTERNAL ∧ t.source ≠ t.target
  · have hv : t.verify = .error Fault.invalidInternal := by
      unfold transition.verify
      rw [if_pos hinv]
    refine ⟨⟨fun _ => hinv, fun _ => hv⟩, ?_, ?_, by rfl, by rfl⟩
    · rw [hv]
      constructor
      · intro h
        cases h
      · intro h
        exact absurd hinv h
    · intro _
      unfold transition.transit
      rw [hv]
  · have hv : t.verify = .ok () := by
      unfold transition.verify
      rw [if_neg hinv]
    refine ⟨?_, ⟨fun _ => hinv, fun _ => hv⟩, fun h => absurd h hinv, by rfl, by rfl⟩
    rw [hv]
    constructor
    · intro h
      cases h
    · intro h
      exact absurd h hinv

end validation

/-! ## Closure of firing -/

section closure

set_option linter.unusedSectionVars false

variable {S E C A H : Type} [DecidableEq S] [DecidableEq E]

theorem mem_declaredTargets (d : List (S × S × E)) (s x : S) (e : E) :
    x ∈ declaredTargets d s e ↔ (s, x, e) ∈ d := by
  unfold declaredTargets
  simp only [List.mem_map, List.mem_filter, decide_eq_true_eq]
  constructor
  · rintro ⟨⟨a, b, c⟩, ⟨hmem, h1, h2⟩, h3⟩
    simp only at h1 h2 h3
    subst h1
    subst h2
    subst h3
    exact hmem
  · intro h
    exact ⟨(s, x, e), ⟨h, rfl, rfl⟩, rfl⟩

/-- On a table with the invariant, what `FireEvent` returns is the source or the target of a
candidate of `(s, e)`, which is a declared target. -/
theorem FireEvent_closure (m : StateMachine S E C A H) (sm : StateMap S E C A)
    (d : List (S × S × E)) (hinv : TableInv sm d) (hr : m.ready = true)
    (hsm : m.stateMap = some sm) (s : S) (e : E) (ctx : C) (r : S)
    (hres : (m.FireEvent s e ctx).result = .ok r) :
    r = s ∨ ((∃ t ∈ candidates sm s e, t.target = r) ∧ (s, r, e) ∈ d) := by
  rw [(FireEvent_alloc m sm hr hsm s e ctx).1] at hres
  unfold StateMachine.fire at hres
  rw [routeTransition_alloc m sm hsm] at hres
  simp only at hres
  cases hsel : (routeLoop (H := H) ctx (candidates sm s e) none).2 with
  | none =>
    left
    simp only [hsel] at hres
    cases hcb : m.failCallback with
    | none => simp [hcb] at hres
    | some cb =>
      simp only [hcb] at hres
      cases cb with
      | numb =>
        simp only [FailCallback.OnFail, Except.ok.injEq] at hres
        exact hres.symm
      | alert => simp [FailCallback.OnFail] at hres
      | custom h =>
        simp only [FailCallback.OnFail, Except.ok.injEq] at hres
        exact hres.symm
  | some t =>
    right
    simp only [hsel, Except.ok.injEq] at hres
    have hmem : t ∈ candidates sm s e := by
      rcases routeLoop_mem ctx _ none t hsel with h1 | h1
      · exact h1
      · simp at h1
    obtain ⟨h1, h2, h3⟩ := candidates_shape hinv hmem
    have hv : t.t = TransitionType.INTERNAL → t.target = t.source := by
      intro hi
      rw [h3 hi, h1]
    rw [transit_valid t ctx hv] at hres
    simp only at hres
    refine ⟨⟨t, hmem, hres⟩, ?_⟩
    rw [← mem_declaredTargets, ← hinv.hist s e, ← hres]
    simp only [keysAt, List.map_map, List.mem_map, Function.comp_apply]
    exact ⟨t, hmem, rfl⟩

/-- C20. Closure of `FireEvent`. Let `m` be the machine of a Builder `w` that a program over
the exported API has reached, and `w.declared` the `(source, target, event)` triples its `On`
calls declared. Whatever `FireEvent(s, e, ctx)` returns is `s` itself or the target of a
transition declared with source `s` and event `e`, a candidate of `(s, e)` in the table; if it
differs from `s` then `Verify(s, e)` is true; so a state that no builder call named as a target
is returned only when it is the given source. On an allocated table with a handler that returns,
`FireEvent` does return. -/
theorem C20_fire_closure (w : World S E C A H) (hw : Reachable w) (m : StateMachine S E C A H)
    (hm : w.machine = some m) (s : S) (e : E) (ctx : C) :
    (∀ r, (m.FireEvent s e ctx).result = .ok r →
      r = s ∨ ((∃ t ∈ candidates w.table s e, t.target = r) ∧ (s, r, e) ∈ w.declared)) ∧
    (∀ r, (m.FireEvent s e ctx).result = .ok r → r ≠ s →
      (m.Verify s e).result = .ok true) ∧
    (∀ r, (m.FireEvent s e ctx).result = .ok r → (∀ s1 e1, (s1, r, e1) ∉ w.declared) →
      r = s) ∧
    (∀ sm cb, m.stateMap = some sm → m.failCallback = some cb → cb ≠ FailCallback.alert →
      ∃ r, (m.FireEvent s e ctx).result = .ok r) := by
  obtain ⟨hr, _, htab⟩ := built_fields hm
  have hinv : TableInv w.table w.declared := hw.inv.table
  have key : ∀ r, (m.FireEvent s e ctx).result = .ok r →
      r = s ∨ ((∃ t ∈ candidates w.table s e, t.target = r) ∧ (s, r, e) ∈ w.declared) := by
    intro r hres
    obtain ⟨sm, hsm, _⟩ := FireEvent_ok_table m s e ctx r hres
    have hsm1 : m.stateMap = some w.table := by rw [htab sm hsm]; exact hsm
    exact FireEvent_closure m w.table w.declared hinv hr hsm1 s e ctx r hres
  refine ⟨key, ?_, ?_, ?_⟩
  · intro r hres hne
    rcases key r hres with h1 | ⟨⟨t, ht, _⟩, _⟩
    · exact absurd h1 hne
    · obtain ⟨sm, hsm, _⟩ := FireEvent_ok_table m s e ctx r hres
      have hsm1 : m.stateMap = some w.table := by rw [htab sm hsm]; exact hsm
      rw [Verify_alloc m w.table hr hsm1]
      cases hc : candidates w.table s e with
      | nil => rw [hc] at ht; simp at ht
      | cons x rest => rfl
  · intro r hres hnot
    rcases key r hres with h1 | ⟨_, h2⟩
    · exact h1
    · exact absurd h2 (hnot s e)
  · intro sm cb hsm hcb hna
    rw [(FireEvent_alloc m sm hr hsm s e ctx).1, fire_returns m sm cb hsm hcb hna]
    exact ⟨_, rfl⟩

/-- C20 on the machine of the test file: `FireEvent("foo", "ping", 0)` returns `bar`, the
target of the declared `foo -[ping]-> bar`. -/
theorem C20_fire_closure_witness :
    ((machineAfter testProgram).FireEvent "foo" "ping" 0).result = .ok "bar" ∧
    ("bar" = "foo" ∨
      ((∃ t ∈ candidates (World.after testProgram).table "foo" "ping", t.target = "bar") ∧
        ("foo", "bar", "ping") ∈ (World.after testProgram).declared)) :=
  ⟨by rfl,
   (C20_fire_closure (World.after testProgram) (reachable_after testProgram rfl)
     (machineAfter testProgram) (by rfl) "foo" "ping" 0).1 "bar" (by rfl)⟩

end closure

/-! ## Chain objects used for several `On` calls -/

section reuse

set_option linter.unusedSectionVars false

variable {S E C A H : Type} [DecidableEq S] [DecidableEq E]

/-- The loop of the multi-source `On` keeps the places it starts with and adds one place per
source. -/
theorem onLoop_acc (event : E) (target : S) (kind : TransitionType) (sources : List S) :
    ∀ (m m1 : StateMap S E C A) (acc ts : List (TransitionRef S E)),
      onLoop event target kind sources m acc = .ok (m1, ts) →
      ∃ created, ts = acc ++ created ∧ created.length = sources.length := by
  induction sources with
  | nil =>
    intro m m1 acc ts h
    simp only [onLoop, Except.ok.injEq, Prod.mk.injEq] at h
    exact ⟨[], by simp [h.2], rfl⟩
  | cons s rest ih =>
    intro m m1 acc ts h
    unfold onLoop at h
    cases hadd : addTransitionAt m s event target kind with
    | error f => simp [hadd] at h
    | ok p =>
      obtain ⟨m2, r⟩ := p
      simp only [hadd] at h
      obtain ⟨created, h1, h2⟩ := ih m2 m1 (acc ++ [r]) ts h
      exact ⟨r :: created, by simp [h1], by simp [h2]⟩

/-- The single-source chain, whatever its object held before: `On` makes the object hold the
place of the record it creates, and `When` and `Perform` after it assign to that record only. -/
theorem single_On_assign (tb tb1 : transitionBuilder S E) (m m1 : StateMap S E C A)
    (event : E) (hk : KeysOk m) (hon : tb.On m event = .ok (m1, tb1))
    (g : Option (Condition C)) (a : Option A) :
    ∃ source target, tb.source = some source ∧ tb.target = some target ∧
      tb1.transition = some (TransitionRef.mk source event (candidates m source event).length) ∧
      candidates m1 source event =
        candidates m source event ++ [newRecord source event target tb.t] ∧
      ∃ m2 m3, tb1.When m1 g = .ok m2 ∧ tb1.Perform m2 a = .ok m3 ∧
        candidates m2 source event = candidates m source event ++
          [withCondition g (newRecord source event target tb.t)] ∧
        candidates m3 source event = candidates m source event ++
          [withAction a (withCondition g (newRecord source event target tb.t))] ∧
        (∀ s1 e1, ¬ (s1 = source ∧ e1 = event) →
          candidates m2 s1 e1 = candidates m s1 e1 ∧ candidates m3 s1 e1 = candidates m s1 e1) := by
  unfold transitionBuilder.On at hon
  cases hs : tb.source with
  | none => simp [hs] at hon
  | some source =>
    cases ht : tb.target with
    | none => simp [hs, ht] at hon
    | some target =>
      simp only [hs, ht] at hon
      cases hadd : addTransitionAt m source event target tb.t with
      | error f => simp [hadd] at hon
      | ok p =>
        obtain ⟨m1a, r⟩ := p
        simp only [hadd, Except.ok.injEq, Prod.mk.injEq] at hon
        obtain ⟨hm1, htb1⟩ := hon
        subst hm1
        subst htb1
        obtain ⟨_, _, hr, _, happ, hother, _⟩ := addTransitionAt_ok hk hadd
        subst hr
        refine ⟨source, target, rfl, rfl, rfl, happ, _, _, rfl, rfl, ?_, ?_, ?_⟩
        · rw [modify_candidates]
          simp only [and_self, if_true, happ]
          exact modify_last _ _ _
        · rw [modify_candidates, modify_candidates]
          simp only [and_self, if_true, happ]
          rw [modify_last, modify_last]
          rfl
        · intro s1 e1 hne
          rw [modify_candidates, modify_candidates, modify_candidates]
          simp only [hne, if_false]
          exact ⟨hother s1 e1 hne, hother s1 e1 hne⟩

/-- The multi-source chain: `On` adds the places of the records it creates to the places the
object holds already, so `When` and `Perform` after it first assign through the places of
every earlier `On` on the object and then through the new ones. -/
theorem multi_On_accumulates (tb tb1 : transitionsBuilder S E) (m m1 : StateMap S E C A)
    (event : E) (hon : tb.On m event = .ok (m1, tb1)) :
    ∃ created, tb1.transitions = tb.transitions ++ created ∧
      created.length = tb.sources.length ∧
      (∀ g : Option (Condition C), tb1.When m1 g =
        created.foldl (fun acc r => acc.modify r (fun x => { x with condition := g }))
          (tb.When m1 g)) ∧
      (∀ a : Option A, tb1.Perform m1 a =
        created.foldl (fun acc r => acc.modify r (fun x => { x with action := a }))
          (tb.Perform m1 a)) := by
  unfold transitionsBuilder.On at hon
  cases ht : tb.target with
  | none => simp [ht] at hon
  | some target =>
    simp only [ht] at hon
    cases hl : onLoop event target tb.t tb.sources m tb.transitions with
    | error f => simp [hl] at hon
    | ok p =>
      obtain ⟨m1a, ts⟩ := p
      simp only [hl, Except.ok.injEq, Prod.mk.injEq] at hon
      obtain ⟨hm1, htb1⟩ := hon
      subst hm1
      subst htb1
      obtain ⟨created, h1, h2⟩ := onLoop_acc event target tb.t tb.sources m m1a _ ts hl
      refine ⟨created, h1, h2, ?_, ?_⟩
      · intro g
        simp only [transitionsBuilder.When, h1, List.foldl_append]
      · intro a
        simp only [transitionsBuilder.Perform, h1, List.foldl_append]

/-- C21 at the failing input. On one multi-source object `x`, after
`x.On("sleep").When(g1).Perform("first")` the records of `foo` and `bar` for `sleep` have the
guard `g1` and the action `first`; after `x.On("wake").When(g2).Perform("second")` on the same
`x` they have the guard `g2` and the action `second`, as the records for `wake` do, and on the
built machine `FireEvent("foo", "sleep", 0)` stays in `foo` and calls the handler instead of
going to `zzz`. The same calls on a single-source object leave the record for `sleep` with `g1`
and `first`. In general the multi-source `On` keeps the places of every earlier `On` of the
object, so `When` and `Perform` assign through all of them, while the single-source `On`
replaces the place the object holds, and `When` and `Perform` after it assign to the new
record only and leave every other record of the table as it is. -/
theorem C21_reused_multi_chain :
    (run World.init multiFirstOnProgram).isOk = true ∧
    (run World.init multiReusedProgram).isOk = true ∧
    guardValues 0 (candidates (World.after multiFirstOnProgram).table "foo" "sleep") =
      [some true] ∧
    actionsOf (candidates (World.after multiFirstOnProgram).table "foo" "sleep") =
      [some "first"] ∧
    guardValues 0 (candidates (World.after multiReusedProgram).table "foo" "sleep") =
      [some false] ∧
    actionsOf (candidates (World.after multiReusedProgram).table "foo" "sleep") =
      [some "second"] ∧
    guardValues 0 (candidates (World.after multiReusedProgram).table "bar" "sleep") =
      [some false] ∧
    actionsOf (candidates (World.after multiReusedProgram).table "bar" "sleep") =
      [some "second"] ∧
    guardValues 0 (candidates (World.after multiReusedProgram).table "foo" "wake") =
      [some false] ∧
    actionsOf (candidates (World.after multiReusedProgram).table "foo" "wake") =
      [some "second"] ∧
    ((machineAfter (multiFirstOnProgram ++ [Call.Build "m"])).FireEvent "foo" "sleep" 0).result =
      .ok "zzz" ∧
    ((machineAfter (multiReusedProgram ++ [Call.Build "m"])).FireEvent "foo" "sleep" 0).result =
      .ok "foo" ∧
    ((machineAfter (multiReusedProgram ++ [Call.Build "m"])).FireEvent "foo" "sleep" 0).trace =
      [Effect.condition "foo" "zzz" "sleep" 0 false,
       Effect.onFail FailCallback.numb "foo" "sleep" 0] ∧
    (run World.init singleReusedProgram).isOk = true ∧
    guardValues 0 (candidates (World.after singleReusedProgram).table "foo" "sleep") =
      [some true] ∧
    actionsOf (candidates (World.after singleReusedProgram).table "foo" "sleep") =
      [some "first"] ∧
    guardValues 0 (candidates (World.after singleReusedProgram).table "foo" "wake") =
      [some false] ∧
    actionsOf (candidates (World.after singleReusedProgram).table "foo" "wake") =
      [some "second"] ∧
    ((machineAfter (singleReusedProgram ++ [Call.Build "m"])).FireEvent "foo" "sleep" 0).result =
      .ok "zzz" ∧
    (∀ (tb tb1 : transitionsBuilder S E) (m m1 : StateMap S E C A) (event : E),
      tb.On m event = .ok (m1, tb1) →
      ∃ created, tb1.transitions = tb.transitions ++ created ∧
        created.length = tb.sources.length ∧
        (∀ g : Option (Condition C), tb1.When m1 g =
          created.foldl (fun acc r => acc.modify r (fun x => { x with condition := g }))
            (tb.When m1 g)) ∧
        (∀ a : Option A, tb1.Perform m1 a =
          created.foldl (fun acc r => acc.modify r (fun x => { x with action := a }))
            (tb.Perform m1 a))) ∧
    (∀ (tb tb1 : transitionBuilder S E) (m m1 : StateMap S E C A) (event : E),
      KeysOk m → tb.On m event = .ok (m1, tb1) →
      ∀ (g : Option (Condition C)) (a : Option A),
      ∃ source target, tb.source = some source ∧ tb.target = some target ∧
        tb1.transition =
          some (TransitionRef.mk source event (candidates m source event).length) ∧
        candidates m1 source event =
          candidates m source event ++ [newRecord source event target tb.t] ∧
        ∃ m2 m3, tb1.When m1 g = .ok m2 ∧ tb1.Perform m2 a = .ok m3 ∧
          candidates m2 source event = candidates m source event ++
            [withCondition g (newRecord source event target tb.t)] ∧
          candidates m3 source event = candidates m source event ++
            [withAction a (withCondition g (newRecord source event target tb.t))] ∧
          (∀ s1 e1, ¬ (s1 = source ∧ e1 = event) →
            candidates m2 s1 e1 = candidates m s1 e1 ∧
            candidates m3 s1 e1 = candidates m s1 e1)) := by
  refine ⟨by rfl, by rfl, by rfl, by rfl, by rfl, by rfl, by rfl, by rfl, by rfl, by rfl,
    by rfl, by rfl, by rfl, by rfl, by rfl, by rfl, by rfl, by rfl, by rfl, ?_, ?_⟩
  · intro tb tb1 m m1 event hon
    exact multi_On_accumulates tb tb1 m m1 event hon
  · intro tb tb1 m m1 event hk hon g a
    exact single_On_assign tb tb1 m m1 event hk hon g a

end reuse

end statemachine
